import Mathlib

/-!
# rawabi: FH/FD packet codec, fragmenter and frame reassembler

A shallow embedding of `tools/rawabi/include/rawabi_common.h`,
`tools/rawabi/include/rawabi_network.h` and `tools/rawabi/src/rawabi_network.cpp`.

Conventions of the embedding.

* A datagram or payload is a `List Byte`, `Byte = Fin 256` (`uint8_t`).
* Unsigned machine integers are `Nat`; where the C++ arithmetic can wrap, the
  wrap is written out (`wrap32`, `wrap64`).
* A header field stored through `htons`/`htonl`/`htobe64` is a big-endian
  write; one loaded through `ntohs`/`ntohl`/`be64toh` is a big-endian read.
  The `lid` field is stored and loaded without conversion, so its byte order
  is that of the host (`Abi.little_endian`).
* `std::unordered_map<uint32_t, PendingFrame>` is an association list; the
  order of the list is the iteration order of the map.  The language leaves
  the position of a newly inserted key unspecified; the model puts it first.
* `double` percentages and rolls are rationals; the Mersenne-Twister stream
  is a parameter `rolls : Nat → ℚ` (roll of the i-th loop iteration).
* `monotonic_us()` is a parameter `now`.
* The mutex is not modelled: every operation is one atomic step.
-/

namespace rawabi

/-! ## Bytes and byte order -/

/-- One octet (`uint8_t`). -/
abbrev Byte := Fin 256

/-- Truncation of an unsigned value to its low octet. -/
def toByte (x : Nat) : Byte := ⟨x % 256, Nat.mod_lt x (by decide)⟩

/-- Wrap of a `uint32_t` result. -/
def wrap32 (x : Nat) : Nat := x % 2 ^ 32

/-- Wrap of a `uint64_t` / `size_t` result. -/
def wrap64 (x : Nat) : Nat := x % 2 ^ 64

/-- Octet `i` of a buffer (0 when out of range; every read in the model is
guarded by the same length check as in the source). -/
def rd8 (p : List Byte) (i : Nat) : Nat := (p.getD i 0).val

/-- Big-endian 16-bit load (`ntohs` of a `uint16_t` field at offset `i`). -/
def rd_be16 (p : List Byte) (i : Nat) : Nat := rd8 p i * 256 + rd8 p (i + 1)

/-- Big-endian 32-bit load (`ntohl` of a `uint32_t` field at offset `i`). -/
def rd_be32 (p : List Byte) (i : Nat) : Nat :=
  ((rd8 p i * 256 + rd8 p (i + 1)) * 256 + rd8 p (i + 2)) * 256 + rd8 p (i + 3)

/-- Little-endian 32-bit load. -/
def rd_le32 (p : List Byte) (i : Nat) : Nat :=
  ((rd8 p (i + 3) * 256 + rd8 p (i + 2)) * 256 + rd8 p (i + 1)) * 256 + rd8 p i

/-- Big-endian 64-bit load (`be64toh` of a `uint64_t` field at offset `i`). -/
def rd_be64 (p : List Byte) (i : Nat) : Nat := rd_be32 p i * 2 ^ 32 + rd_be32 p (i + 4)

/-- Big-endian 16-bit store (`htons`). -/
def be16 (x : Nat) : List Byte := [toByte (x / 2 ^ 8), toByte x]

/-- Big-endian 32-bit store (`htonl`). -/
def be32 (x : Nat) : List Byte :=
  [toByte (x / 2 ^ 24), toByte (x / 2 ^ 16), toByte (x / 2 ^ 8), toByte x]

/-- Little-endian 32-bit store. -/
def le32 (x : Nat) : List Byte :=
  [toByte x, toByte (x / 2 ^ 8), toByte (x / 2 ^ 16), toByte (x / 2 ^ 24)]

/-- Big-endian 64-bit store (`htobe64`). -/
def be64 (x : Nat) : List Byte := be32 (x / 2 ^ 32) ++ be32 x

/-! ## The ABI header -/

/-- Modelled from the spec: the parts of `abi/ip-video-raw.h` (absent from the
sources) that the code depends on and the spec does not fix: the five
`enum sample_format` constants ("a codec-specific constant per depth"), together
with the byte order of the host, which decides how the unconverted `lid` field
lies in memory. -/
structure Abi where
  sf_8bit : Nat
  sf_10bit : Nat
  sf_12bit : Nat
  sf_14bit : Nat
  sf_16bit : Nat
  little_endian : Bool
deriving DecidableEq, Repr

/-- What the code and the spec require of the sample-format constants: they are
32-bit values, they "occupy the top 4 bits" of `fsize`/`offs`, and they are
pairwise distinct (they are the `case` labels of one `switch`). -/
def Abi.WF (abi : Abi) : Prop :=
  (abi.sf_8bit < 2 ^ 32 ∧ abi.sf_10bit < 2 ^ 32 ∧ abi.sf_12bit < 2 ^ 32 ∧
    abi.sf_14bit < 2 ^ 32 ∧ abi.sf_16bit < 2 ^ 32) ∧
  (abi.sf_8bit % 2 ^ 28 = 0 ∧ abi.sf_10bit % 2 ^ 28 = 0 ∧ abi.sf_12bit % 2 ^ 28 = 0 ∧
    abi.sf_14bit % 2 ^ 28 = 0 ∧ abi.sf_16bit % 2 ^ 28 = 0) ∧
  [abi.sf_8bit, abi.sf_10bit, abi.sf_12bit, abi.sf_14bit, abi.sf_16bit].Nodup

instance (abi : Abi) : Decidable abi.WF := by
  unfold Abi.WF; infer_instance

/-- The five values of `enum sample_format`. -/
def Abi.formats (abi : Abi) : List Nat :=
  [abi.sf_8bit, abi.sf_10bit, abi.sf_12bit, abi.sf_14bit, abi.sf_16bit]

/-- Modelled from the spec: `LID_TYPE = 0x80000000` of `abi/ip-video-raw.h`. -/
def LID_TYPE : Nat := 0x80000000

/-- Modelled from the spec: `LID_FH` of `abi/ip-video-raw.h`; an FH has the
type bit set. -/
def LID_FH : Nat := 0x80000000

/-- Modelled from the spec: `LID_FD` of `abi/ip-video-raw.h`; an FD has the
type bit clear. -/
def LID_FD : Nat := 0

/-- Modelled from the spec: `offsetof(video_frame_raw_t, data)`, the fields
before it being `lid` u32, `flags` u8, `fseq` u8, `size` u16, `x_dim` u16,
`y_dim` u16, `offs` u32. -/
def kFdHeaderSize : Nat := 16

/-- Modelled from the spec: `offsetof(video_frame_raw_hdr_t, abi)`, the fields
before it being `lid` u32, `fseq` u32, `ts` u64, `x_dim` u16, `y_dim` u16,
`fsize` u32, `osize` u32. -/
def kFhHeaderSize : Nat := 28

/-- The 32 MiB safety cap. -/
def kMaxFrameBytes : Nat := 32 * 1024 * 1024

/-- Load of a `uint32_t` in host byte order (a plain struct access). -/
def rd_host32 (abi : Abi) (p : List Byte) (i : Nat) : Nat :=
  if abi.little_endian then rd_le32 p i else rd_be32 p i

/-- Store of a `uint32_t` in host byte order (a plain struct assignment). -/
def host32 (abi : Abi) (x : Nat) : List Byte :=
  if abi.little_endian then le32 x else be32 x

/-! ## rawabi_common.h -/

/-- The `enum class BayerPattern`. -/
inductive BayerPattern
  | BAYER_G1RG2B
  | BAYER_RG1BG2
  | BAYER_G1BG2R
  | BAYER_BG1RG2
  | MONO
deriving DecidableEq, Repr

/-- The `bayer_flag` of the source: the enumerator value. -/
def bayer_flag : BayerPattern → Nat
  | .BAYER_G1RG2B => 0
  | .BAYER_RG1BG2 => 1
  | .BAYER_G1BG2R => 2
  | .BAYER_BG1RG2 => 3
  | .MONO => 4

/-- The `bayer_from_flag` of the source: a switch on `flag & 0x1F`. -/
def bayer_from_flag (flag : Nat) : BayerPattern :=
  match flag &&& 0x1F with
  | 0 => .BAYER_G1RG2B
  | 1 => .BAYER_RG1BG2
  | 2 => .BAYER_G1BG2R
  | 3 => .BAYER_BG1RG2
  | _ => .MONO

/-- The `sample_bits` of the source: a switch over the enum constants. -/
def sample_bits (abi : Abi) (fmt : Nat) : Nat :=
  if fmt = abi.sf_8bit then 8
  else if fmt = abi.sf_10bit then 10
  else if fmt = abi.sf_12bit then 12
  else if fmt = abi.sf_14bit then 14
  else if fmt = abi.sf_16bit then 16
  else 0

/-- The `sample_format_from_bits` of the source: a switch on
`offs_field & 0xF0000000`, falling back to 8 bit. -/
def sample_format_from_bits (abi : Abi) (offs_field : Nat) : Nat :=
  let encoded := offs_field &&& 0xF0000000
  if encoded = abi.sf_8bit then abi.sf_8bit
  else if encoded = abi.sf_10bit then abi.sf_10bit
  else if encoded = abi.sf_12bit then abi.sf_12bit
  else if encoded = abi.sf_14bit then abi.sf_14bit
  else if encoded = abi.sf_16bit then abi.sf_16bit
  else abi.sf_8bit

/-- The `encode_sample_format` of the source:
`static_cast<uint32_t>(fmt) & 0xF0000000`. -/
def encode_sample_format (fmt : Nat) : Nat := wrap32 fmt &&& 0xF0000000

/-- The `struct FrameInfo`; `fmt` holds the value of the `enum sample_format`. -/
structure FrameInfo where
  width : Nat
  height : Nat
  fmt : Nat
  pattern : BayerPattern
  orientation : Nat
  mirror : Bool
  flow_id : Nat
deriving DecidableEq, Repr

/-- The default member initialisers of `FrameInfo`. -/
def FrameInfo.init (abi : Abi) : FrameInfo :=
  { width := 0, height := 0, fmt := abi.sf_10bit, pattern := .BAYER_G1RG2B,
    orientation := 0, mirror := false, flow_id := 1 }

/-- The `struct FramePacket`. -/
structure FramePacket where
  data : List Byte
  is_fh : Bool
deriving DecidableEq, Repr

/-- The `struct CompletedFrame`. -/
structure CompletedFrame where
  info : FrameInfo
  fseq32 : Nat
  timestamp : Nat
  payload : List Byte
deriving DecidableEq, Repr

/-! ## rawabi_network.h -/

/-- The `struct SenderOptions`, without the destination address, which
`fragment_frame` does not read.  The two `double` percentages are represented
by their rational values. -/
structure SenderOptions where
  flow_id : Nat
  fragment_payload : Nat
  loss_percent : ℚ
  duplicate_percent : ℚ
  reorder_window : Nat

/-- The `struct ReorderBuffer`. -/
structure ReorderBuffer where
  pending : List (List Byte)
  window : Nat
deriving DecidableEq, Repr

/-- The `struct FrameStats`. -/
structure FrameStats where
  frames_completed : Nat
  frames_dropped : Nat
  fd_packets : Nat
  fh_packets : Nat
  bytes : Nat
  reorder_depth : Nat
deriving DecidableEq, Repr

/-- The `struct FrameReassembler::PendingFrame`. -/
structure PendingFrame where
  info : FrameInfo
  fseq32 : Nat
  fseq8 : Nat
  ts : Nat
  data : List Byte
  received : List Bool
  expected : Nat
  received_bytes : Nat
  has_fh : Bool
deriving DecidableEq, Repr

/-- The default member initialisers of `PendingFrame`. -/
def PendingFrame.init (abi : Abi) : PendingFrame :=
  { info := FrameInfo.init abi, fseq32 := 0, fseq8 := 0, ts := 0, data := [],
    received := [], expected := 0, received_bytes := 0, has_fh := false }

/-- The data members of `class FrameReassembler`: the pending table `frames_`
(keyed by fseq32, in iteration order) and `stats_`. -/
structure FrameReassembler where
  frames_ : List (Nat × PendingFrame)
  stats_ : FrameStats
deriving DecidableEq, Repr

/-- The default-constructed reassembler: empty table, zero counters. -/
def FrameReassembler.fresh : FrameReassembler :=
  { frames_ := [],
    stats_ := { frames_completed := 0, frames_dropped := 0, fd_packets := 0,
                fh_packets := 0, bytes := 0, reorder_depth := 0 } }

/-! ## The pending table (`std::unordered_map`) -/

/-- A pointer into the table: the entries before the one pointed to, that
entry, and the entries after it: the first entry, in iteration order, that
satisfies `p`. -/
def split_first (p : Nat × PendingFrame → Bool) :
    List (Nat × PendingFrame) →
      Option (List (Nat × PendingFrame) × (Nat × PendingFrame) × List (Nat × PendingFrame))
  | [] => none
  | kv :: m =>
    if p kv then some ([], kv, m)
    else match split_first p m with
      | none => none
      | some (pre, hit, post) => some (kv :: pre, hit, post)

/-- The `frames_[k] = pf` of the source: overwrite the entry under `k` in
place, or insert a new one. -/
def map_assign (m : List (Nat × PendingFrame)) (k : Nat) (pf : PendingFrame) :
    List (Nat × PendingFrame) :=
  match split_first (fun kv => kv.1 == k) m with
  | some (pre, _, post) => pre ++ (k, pf) :: post
  | none => (k, pf) :: m

/-- The `frames_.erase(k)` of the source. -/
def map_erase (m : List (Nat × PendingFrame)) (k : Nat) : List (Nat × PendingFrame) :=
  m.filter (fun kv => !(kv.1 == k))

/-- The entry stored under key `k`. -/
def map_get (m : List (Nat × PendingFrame)) (k : Nat) : Option PendingFrame :=
  (m.find? (fun kv => kv.1 == k)).map Prod.snd

/-! ## rawabi_network.cpp: the reassembler -/

/-- The `offset_from_offs` of the source. -/
def offset_from_offs (offs : Nat) : Nat := offs &&& 0x0FFFFFFF

/-- The `std::memcpy(data + offset, src, n)` of `handle_fd`, `n` being the
length of `src`; the caller has checked `offset + n ≤ data.size()`. -/
def memcpy_at (data : List Byte) (offset : Nat) (src : List Byte) : List Byte :=
  data.take offset ++ src ++ data.drop (offset + src.length)

/-- The `FrameReassembler::handle_fh` of the source. -/
def handle_fh (abi : Abi) (packet : List Byte) : Option PendingFrame :=
  if packet.length < kFhHeaderSize then none
  else
    let fseq32 := rd_be32 packet 4
    let fsize := rd_be32 packet 20
    let expected := fsize &&& 0x0FFFFFFF
    if expected = 0 ∨ expected > kMaxFrameBytes then none
    else
      some
        { info :=
            { FrameInfo.init abi with
              width := rd_be16 packet 16
              height := rd_be16 packet 18
              fmt := sample_format_from_bits abi fsize
              flow_id := rd_host32 abi packet 0 &&& 0x7FFFFFFF
              pattern := .MONO }
          fseq32 := fseq32
          fseq8 := fseq32 &&& 0xFF
          ts := rd_be64 packet 8
          data := List.replicate expected 0
          received := List.replicate ((expected + 1023) / 1024) false
          expected := expected
          received_bytes := 0
          has_fh := true }

/-- The `frames_dropped++` of the source. -/
def FrameStats.drop (s : FrameStats) : FrameStats :=
  { s with frames_dropped := wrap64 (s.frames_dropped + 1) }

/-- The `FrameReassembler::handle_fd` of the source.  `now` is what
`monotonic_us()` would return. -/
def handle_fd (abi : Abi) (now : Nat) (r : FrameReassembler) (packet : List Byte) :
    FrameReassembler × Option CompletedFrame :=
  if packet.length < kFdHeaderSize then (r, none)
  else
    let payload_size := rd_be16 packet 6
    if kFdHeaderSize + payload_size > packet.length then (r, none)
    else
      let offs_raw := rd_be32 packet 12
      let offset := offset_from_offs offs_raw
      let fmt := sample_format_from_bits abi offs_raw
      let width := rd_be16 packet 8
      let height := rd_be16 packet 10
      let fseq8 := rd8 packet 5
      let flow_id := rd_host32 abi packet 0 &&& 0x7FFFFFFF
      let pattern := bayer_from_flag (rd8 packet 4)
      let stats1 : FrameStats :=
        { r.stats_ with
          fd_packets := wrap64 (r.stats_.fd_packets + 1)
          bytes := wrap64 (r.stats_.bytes + payload_size)
          reorder_depth :=
            if r.frames_.length > r.stats_.reorder_depth then wrap32 r.frames_.length
            else r.stats_.reorder_depth }
      -- the pointer `pf`: found by the scan, or the result of `emplace`
      let located :=
        match split_first (fun kv => kv.2.fseq8 == fseq8 && kv.2.info.flow_id == flow_id)
            r.frames_ with
        | some z => some z
        | none =>
          let bits := sample_bits abi fmt
          let bpp := if (bits + 7) / 8 = 0 then 1 else (bits + 7) / 8
          let expected := width * height * bpp
          if expected = 0 ∨ expected > kMaxFrameBytes then none
          else
            let guess : PendingFrame :=
              { info :=
                  { FrameInfo.init abi with
                    width := width, height := height, fmt := fmt, flow_id := flow_id
                    pattern := .MONO }
                fseq32 := fseq8
                fseq8 := fseq8
                ts := 0
                data := List.replicate expected 0
                received := List.replicate ((expected + 1023) / 1024) false
                expected := expected
                received_bytes := 0
                has_fh := false }
            match split_first (fun kv => kv.1 == guess.fseq32) r.frames_ with
            | some z => some z
            | none => some ([], (guess.fseq32, guess), r.frames_)
      match located with
      | none => ({ frames_ := r.frames_, stats_ := stats1.drop }, none)
      | some (pre, (key, pf), post) =>
        if offset + payload_size > pf.data.length then
          ({ frames_ := pre ++ (key, pf) :: post, stats_ := stats1.drop }, none)
        else
          let block := offset / 1024
          let pf1 : PendingFrame :=
            { pf with
              data := memcpy_at pf.data offset ((packet.drop kFdHeaderSize).take payload_size)
              received := if block < pf.received.length then pf.received.set block true
                          else pf.received
              received_bytes := wrap64 (pf.received_bytes + payload_size)
              info := { pf.info with fmt := fmt, width := width, height := height,
                                     pattern := pattern } }
          let complete := if pf1.expected > 0 then decide (pf1.received_bytes ≥ pf1.expected)
                          else false
          if complete then
            let cf : CompletedFrame :=
              { info := pf1.info
                fseq32 := pf1.fseq32
                timestamp := if pf1.ts ≠ 0 then pf1.ts else now
                payload := pf1.data }
            ({ frames_ := map_erase (pre ++ (key, { pf1 with data := [] }) :: post) pf1.fseq32
               stats_ := { stats1 with frames_completed := wrap64 (stats1.frames_completed + 1) } },
             some cf)
          else
            ({ frames_ := pre ++ (key, pf1) :: post, stats_ := stats1 }, none)

/-- The `FrameReassembler::ingest` of the source: the new state and the
returned vector.  A list is never the null pointer, so the `!packet` test has
no counterpart; `len` is the length of the list. -/
def ingest (abi : Abi) (now : Nat) (r : FrameReassembler) (packet : List Byte) :
    FrameReassembler × List CompletedFrame :=
  if packet.length < 4 then (r, [])
  else
    let lid := rd_host32 abi packet 0
    if lid &&& LID_TYPE ≠ 0 then
      match handle_fh abi packet with
      | some pf =>
        let frames := map_assign r.frames_ pf.fseq32 pf
        let depth := if frames.length > r.stats_.reorder_depth then wrap32 frames.length
                     else r.stats_.reorder_depth
        ({ frames_ := frames
           stats_ := { r.stats_ with fh_packets := wrap64 (r.stats_.fh_packets + 1)
                                     reorder_depth := depth } }, [])
      | none => (r, [])
    else
      match handle_fd abi now r packet with
      | (r1, some cf) => (r1, [cf])
      | (r1, none) => (r1, [])

/-- The `FrameReassembler::stats` of the source. -/
def stats (r : FrameReassembler) : FrameStats := r.stats_

/-- The erase condition of `expire_older_than`. -/
def expired (recent_fseq max_distance key : Nat) : Bool :=
  decide (recent_fseq ≥ key) && decide (recent_fseq - key > max_distance)

/-- The loop of `expire_older_than` over the entries not yet visited. -/
def expire_loop (recent_fseq max_distance : Nat) :
    List (Nat × PendingFrame) → FrameStats → List (Nat × PendingFrame) × FrameStats
  | [], s => ([], s)
  | kv :: m, s =>
    if expired recent_fseq max_distance kv.1 then expire_loop recent_fseq max_distance m s.drop
    else
      let res := expire_loop recent_fseq max_distance m s
      (kv :: res.1, res.2)

/-- The `FrameReassembler::expire_older_than` of the source. -/
def expire_older_than (r : FrameReassembler) (recent_fseq max_distance : Nat) :
    FrameReassembler :=
  let res := expire_loop recent_fseq max_distance r.frames_ r.stats_
  { frames_ := res.1, stats_ := res.2 }

/-- Feeding a list of datagrams to `ingest`, one call per datagram; the
`k`-th call of the run reads the clock value `clock k`.  The result is the
final state and the concatenation of the returned vectors. -/
def ingest_all (abi : Abi) (clock : Nat → Nat) :
    Nat → FrameReassembler → List (List Byte) → FrameReassembler × List CompletedFrame
  | _, r, [] => (r, [])
  | k, r, p :: ps =>
    let step := ingest abi (clock k) r p
    let rest := ingest_all abi clock (k + 1) step.1 ps
    (rest.1, step.2 ++ rest.2)

/-! ## rawabi_network.cpp: the fragmenter -/

/-- The FH datagram built by `fragment_frame`: the first `kFhHeaderSize`
bytes of the zero-initialised `video_frame_raw_hdr_t`. -/
def fh_bytes (abi : Abi) (info : FrameInfo) (fseq32 timestamp_us payload_size : Nat)
    (opts : SenderOptions) : List Byte :=
  host32 abi (LID_FH ||| (opts.flow_id &&& 0x7FFFFFFF)) ++
  be32 fseq32 ++
  be64 timestamp_us ++
  be16 info.width ++
  be16 info.height ++
  be32 ((wrap32 payload_size &&& 0x0FFFFFFF) ||| encode_sample_format info.fmt) ++
  host32 abi 0

/-- The FD datagram built by one iteration of the loop of `fragment_frame`. -/
def fd_bytes (abi : Abi) (info : FrameInfo) (fseq32 : Nat) (payload : List Byte)
    (opts : SenderOptions) (offset chunk : Nat) : List Byte :=
  host32 abi ((opts.flow_id &&& 0x7FFFFFFF) ||| LID_FD) ++
  [toByte (bayer_flag info.pattern)] ++
  [toByte (fseq32 &&& 0xFF)] ++
  be16 chunk ++
  be16 info.width ++
  be16 info.height ++
  be32 ((offset &&& 0x0FFFFFFF) ||| encode_sample_format info.fmt) ++
  (payload.drop offset).take chunk

/-- Rounding of a rational to the nearest integer, ties to the even one. -/
def round_half_even (x : ℚ) : ℤ :=
  if x - ⌊x⌋ < 1 / 2 then ⌊x⌋
  else if 1 / 2 < x - ⌊x⌋ then ⌊x⌋ + 1
  else if ⌊x⌋ % 2 = 0 then ⌊x⌋ else ⌊x⌋ + 1

/-- The `double` (IEEE 754 binary64) nearest to the real number `x`, in the
default rounding mode (to nearest, ties to even): 53 significant bits, the
spacing never below `2^-1074`.  A result beyond the largest finite double is
an infinity; it is represented by `±2^1024`, which compares with every finite
double as the infinity does. -/
def round_double (x : ℚ) : ℚ :=
  if x = 0 then 0
  else
    let e : ℤ := max (Int.log 2 |x|) (-1022)
    let q : ℚ := 2 ^ (e - 52)
    let r : ℚ := (round_half_even (x / q) : ℚ) * q
    if 2 ^ 1024 ≤ r then 2 ^ 1024 else if r ≤ -2 ^ 1024 then -2 ^ 1024 else r

/-- The sum `a + b` of two `double`s as the code computes it where `double`
expressions are evaluated in binary64: the exact sum rounded to the nearest
double.  A `double` is represented by its rational value.  Adding zero is
exact; this is written as a case of its own so that it also holds of the
rationals that are no doubles, which the type `ℚ` of the model admits and the
code never sees. -/
def double_add (a b : ℚ) : ℚ :=
  if b = 0 then a else if a = 0 then b else round_double (a + b)

/-- The `while (offset < payload_size)` loop of `fragment_frame`, from the
state (`offset`, iteration number `i`, `reorder.pending`): the packets pushed
from here on, and the final `reorder.pending`.  `none` when the fuel runs
out before the loop condition fails.  The second test compares the roll with
`opts.loss_percent + opts.duplicate_percent`, a sum of two `double`s
(`double_add`). -/
def fd_loop (abi : Abi) (info : FrameInfo) (fseq32 : Nat) (payload : List Byte)
    (opts : SenderOptions) (rolls : Nat → ℚ) :
    Nat → Nat → Nat → List (List Byte) → Option (List FramePacket × List (List Byte))
  | 0, offset, _, pending =>
    if offset < payload.length then none else some ([], pending)
  | fuel + 1, offset, i, pending =>
    if offset < payload.length then
      let chunk := min opts.fragment_payload (wrap32 (payload.length - offset))
      let pkt : FramePacket :=
        { data := fd_bytes abi info fseq32 payload opts offset chunk, is_fh := false }
      let offset1 := wrap32 (offset + chunk)
      let roll := rolls i
      if roll < opts.loss_percent then
        fd_loop abi info fseq32 payload opts rolls fuel offset1 (i + 1) pending
      else
        let dup := if roll < double_add opts.loss_percent opts.duplicate_percent then [pkt]
                   else []
        let step : List FramePacket × List (List Byte) :=
          if opts.reorder_window > 0 then
            let q := pending ++ [pkt.data]
            if q.length > opts.reorder_window then
              ([{ data := q.headD [], is_fh := false }], q.tail)
            else ([], q)
          else ([pkt], pending)
        match fd_loop abi info fseq32 payload opts rolls fuel offset1 (i + 1) step.2 with
        | none => none
        | some (ps, q) => some (dup ++ step.1 ++ ps, q)
    else some ([], pending)

/-- The `fragment_frame` of the source: the returned packets and the reorder
buffer afterwards; `none` when the fragmentation loop does not terminate.
`payload_size` is the length of `payload` (a list is never the null pointer);
the fuel `payload.length` is never exhausted when each iteration advances the
offset without wrapping. -/
def fragment_frame (abi : Abi) (info : FrameInfo) (fseq32 timestamp_us : Nat)
    (payload : List Byte) (opts : SenderOptions) (rolls : Nat → ℚ) (reorder : ReorderBuffer) :
    Option (List FramePacket × ReorderBuffer) :=
  if payload.length = 0 then some ([], reorder)
  else
    let fh_packet : FramePacket :=
      { data := fh_bytes abi info fseq32 timestamp_us payload.length opts, is_fh := true }
    match fd_loop abi info fseq32 payload opts rolls payload.length 0 0 reorder.pending with
    | none => none
    | some (ps, q) =>
      if opts.reorder_window > 0 then
        some (fh_packet :: ps ++ q.map (fun d => { data := d, is_fh := false }),
              { reorder with pending := [] })
      else some (fh_packet :: ps, { reorder with pending := q })

/-- The offsets at which the iterations of the `while (offset < payload_size)`
loop of `fragment_frame` start, from a given offset (the offset does not
depend on the rolls); `none` when the fuel runs out before the loop condition
fails. -/
def fd_loop_offsets (opts : SenderOptions) (len : Nat) : Nat → Nat → Option (List Nat)
  | 0, offset => if offset < len then none else some []
  | fuel + 1, offset =>
    if offset < len then
      let chunk := min opts.fragment_payload (wrap32 (len - offset))
      (fd_loop_offsets opts len fuel (wrap32 (offset + chunk))).map (fun l => offset :: l)
    else some []

/-! ## Inputs of the fragmenter and the slices it cuts -/

/-- The ranges of the C++ parameter types of `fragment_frame`: `uint16_t`
dimensions and fragment size, `uint32_t` sequence number and flow id,
`uint64_t` timestamp. -/
structure InputsTyped (info : FrameInfo) (fseq32 timestamp_us : Nat) (opts : SenderOptions) :
    Prop where
  width_lt : info.width < 2 ^ 16
  height_lt : info.height < 2 ^ 16
  fseq_lt : fseq32 < 2 ^ 32
  ts_lt : timestamp_us < 2 ^ 64
  flow_lt : opts.flow_id < 2 ^ 32
  frag_lt : opts.fragment_payload < 2 ^ 16

/-- The rolls of `std::uniform_real_distribution<double>(0.0, 100.0)` lie in
the half-open interval from 0 to 100. -/
def RollsInRange (rolls : Nat → ℚ) : Prop := ∀ i, 0 ≤ rolls i ∧ rolls i < 100

/-- Number of slices of `c` bytes needed for `len` bytes: `ceil(len / c)`. -/
def nchunks (len c : Nat) : Nat := (len + c - 1) / c

/-- Size of the `i`-th slice: `min(c, len - i*c)`. -/
def chunk_size (len c i : Nat) : Nat := min c (len - i * c)

/-- The `i`-th FD datagram of the loss-free fragmentation, as the spec
describes it: offset `i*c`, size `min(c, payload_size - i*c)`. -/
def fd_packet (abi : Abi) (info : FrameInfo) (fseq32 : Nat) (payload : List Byte)
    (opts : SenderOptions) (i : Nat) : List Byte :=
  fd_bytes abi info fseq32 payload opts (i * opts.fragment_payload)
    (chunk_size payload.length opts.fragment_payload i)

/-- The FD datagrams of the loss-free fragmentation, in offset order. -/
def fd_packets (abi : Abi) (info : FrameInfo) (fseq32 : Nat) (payload : List Byte)
    (opts : SenderOptions) : List (List Byte) :=
  (List.range (nchunks payload.length opts.fragment_payload)).map
    (fd_packet abi info fseq32 payload opts)

/-- The bytes per pixel that `handle_fd` derives from a sample format. -/
def bytes_per_pixel (abi : Abi) (fmt : Nat) : Nat :=
  if (sample_bits abi fmt + 7) / 8 = 0 then 1 else (sample_bits abi fmt + 7) / 8

/-! ## The two branches of `ingest` -/

/-- The FH branch of `ingest` (the body of `if (lid & LID_TYPE)`). -/
def ingest_fh_route (abi : Abi) (r : FrameReassembler) (packet : List Byte) :
    FrameReassembler × List CompletedFrame :=
  match handle_fh abi packet with
  | some pf =>
    let frames := map_assign r.frames_ pf.fseq32 pf
    let depth := if frames.length > r.stats_.reorder_depth then wrap32 frames.length
                 else r.stats_.reorder_depth
    ({ frames_ := frames
       stats_ := { r.stats_ with fh_packets := wrap64 (r.stats_.fh_packets + 1)
                                 reorder_depth := depth } }, [])
  | none => (r, [])

/-- The FD branch of `ingest` (the call of `handle_fd` and the `push_back`). -/
def ingest_fd_route (abi : Abi) (now : Nat) (r : FrameReassembler) (packet : List Byte) :
    FrameReassembler × List CompletedFrame :=
  match handle_fd abi now r packet with
  | (r1, some cf) => (r1, [cf])
  | (r1, none) => (r1, [])

/-! ## The phases of `handle_fd` -/

/-- The counters of `handle_fd` after its unconditional updates (`fd_packets`,
`bytes`, `reorder_depth`). -/
def fd_stats (r : FrameReassembler) (payload_size : Nat) : FrameStats :=
  { r.stats_ with
    fd_packets := wrap64 (r.stats_.fd_packets + 1)
    bytes := wrap64 (r.stats_.bytes + payload_size)
    reorder_depth :=
      if r.frames_.length > r.stats_.reorder_depth then wrap32 r.frames_.length
      else r.stats_.reorder_depth }

/-- The entry that `handle_fd` synthesizes when the scan finds none. -/
def fd_guess (abi : Abi) (fseq8 flow_id width height fmt : Nat) : PendingFrame :=
  { info :=
      { FrameInfo.init abi with
        width := width, height := height, fmt := fmt, flow_id := flow_id
        pattern := .MONO }
    fseq32 := fseq8
    fseq8 := fseq8
    ts := 0
    data := List.replicate (width * height * bytes_per_pixel abi fmt) 0
    received := List.replicate ((width * height * bytes_per_pixel abi fmt + 1023) / 1024) false
    expected := width * height * bytes_per_pixel abi fmt
    received_bytes := 0
    has_fh := false }

/-- The pointer `pf` of `handle_fd` (the table split at the entry pointed to):
the first entry matching `(fseq8, flow_id)`, else the result of `emplace` of
the synthesized entry; `none` when the synthesized size is rejected. -/
def fd_locate (abi : Abi) (frames : List (Nat × PendingFrame))
    (fseq8 flow_id width height fmt : Nat) :
    Option (List (Nat × PendingFrame) × (Nat × PendingFrame) × List (Nat × PendingFrame)) :=
  match split_first (fun kv => kv.2.fseq8 == fseq8 && kv.2.info.flow_id == flow_id) frames with
  | some z => some z
  | none =>
    if width * height * bytes_per_pixel abi fmt = 0 ∨
        width * height * bytes_per_pixel abi fmt > kMaxFrameBytes then none
    else
      match split_first (fun kv => kv.1 == fseq8) frames with
      | some z => some z
      | none => some ([], (fseq8, fd_guess abi fseq8 flow_id width height fmt), frames)

/-- The part of `handle_fd` from the bounds check to the end, given the
pointer `pf`; `src` is the fragment payload `packet[kFdHeaderSize ..]`. -/
def fd_commit (now : Nat) (stats1 : FrameStats) (frames0 : List (Nat × PendingFrame))
    (src : List Byte) (offset payload_size fmt width height : Nat) (pattern : BayerPattern)
    (located : Option (List (Nat × PendingFrame) × (Nat × PendingFrame) ×
      List (Nat × PendingFrame))) :
    FrameReassembler × Option CompletedFrame :=
  match located with
  | none => ({ frames_ := frames0, stats_ := stats1.drop }, none)
  | some (pre, (key, pf), post) =>
    if offset + payload_size > pf.data.length then
      ({ frames_ := pre ++ (key, pf) :: post, stats_ := stats1.drop }, none)
    else
      let pf1 : PendingFrame :=
        { pf with
          data := memcpy_at pf.data offset src
          received := if offset / 1024 < pf.received.length then
                        pf.received.set (offset / 1024) true
                      else pf.received
          received_bytes := wrap64 (pf.received_bytes + payload_size)
          info := { pf.info with fmt := fmt, width := width, height := height,
                                 pattern := pattern } }
      let complete := if pf1.expected > 0 then decide (pf1.received_bytes ≥ pf1.expected)
                      else false
      if complete then
        ({ frames_ := map_erase (pre ++ (key, { pf1 with data := [] }) :: post) pf1.fseq32
           stats_ := { stats1 with frames_completed := wrap64 (stats1.frames_completed + 1) } },
         some { info := pf1.info
                fseq32 := pf1.fseq32
                timestamp := if pf1.ts ≠ 0 then pf1.ts else now
                payload := pf1.data })
      else
        ({ frames_ := pre ++ (key, pf1) :: post, stats_ := stats1 }, none)

/-! ## The reassembly of one fragmented frame, step by step -/

/-- The pending frame after `handle_fd` has copied the fragment `src` of a
frame described by `info` to `offset` (the assignments between the bounds
check and the completion test). -/
def fd_write (pf : PendingFrame) (info : FrameInfo) (offset : Nat) (src : List Byte) :
    PendingFrame :=
  { pf with
    data := memcpy_at pf.data offset src
    received := if offset / 1024 < pf.received.length then pf.received.set (offset / 1024) true
                else pf.received
    received_bytes := pf.received_bytes + src.length
    info := { pf.info with fmt := info.fmt, width := info.width, height := info.height,
                           pattern := info.pattern } }

/-- The payload bytes carried by the `i`-th FD of the loss-free
fragmentation into slices of `c` bytes. -/
def fd_slice (payload : List Byte) (c i : Nat) : List Byte :=
  (payload.drop (i * c)).take (chunk_size payload.length c i)

/-- The pending frame after the FDs with the indices `idx` have been written
into it, in that order. -/
def write_all (info : FrameInfo) (payload : List Byte) (c : Nat) (pf : PendingFrame)
    (idx : List Nat) : PendingFrame :=
  idx.foldl (fun pf i => fd_write pf info (i * c) (fd_slice payload c i)) pf

/-- Total of the size fields of the FDs with the indices `idx`. -/
def bytes_of (len c : Nat) (idx : List Nat) : Nat := (idx.map (chunk_size len c)).sum

/-- The pending frame that `handle_fh` builds from the FH that `fragment_frame`
emits for a frame of `len` bytes. -/
def fh_pending (abi : Abi) (info : FrameInfo) (fseq32 ts len : Nat) (opts : SenderOptions) :
    PendingFrame :=
  { info := { FrameInfo.init abi with
              width := info.width, height := info.height, fmt := info.fmt,
              flow_id := opts.flow_id % 2 ^ 31, pattern := .MONO }
    fseq32 := fseq32
    fseq8 := fseq32 % 256
    ts := ts
    data := List.replicate len 0
    received := List.replicate ((len + 1023) / 1024) false
    expected := len
    received_bytes := 0
    has_fh := true }

/-- The pending frame that `handle_fd` synthesizes from an FD of
`fragment_frame` when no entry matches. -/
def synth_pending (abi : Abi) (info : FrameInfo) (fseq32 : Nat) (opts : SenderOptions) :
    PendingFrame :=
  { info := { FrameInfo.init abi with
              width := info.width, height := info.height, fmt := info.fmt,
              flow_id := opts.flow_id % 2 ^ 31, pattern := .MONO }
    fseq32 := fseq32 % 256
    fseq8 := fseq32 % 256
    ts := 0
    data := List.replicate (info.width * info.height * bytes_per_pixel abi info.fmt) 0
    received := List.replicate
      ((info.width * info.height * bytes_per_pixel abi info.fmt + 1023) / 1024) false
    expected := info.width * info.height * bytes_per_pixel abi info.fmt
    received_bytes := 0
    has_fh := false }

/-- The link between a pending frame and the frame being sent that the
reassembly proofs carry along: the FDs of the frame match it, and its buffer
has the size of the payload. -/
structure Tracks (pf : PendingFrame) (fseq32 flow len : Nat) : Prop where
  fseq8_eq : pf.fseq8 = fseq32 % 256
  flow_eq : pf.info.flow_id = flow % 2 ^ 31
  data_len : pf.data.length = len
  expected_eq : pf.expected = len

/-! ## Reachable states and their invariant -/

/-- The states of a reassembler that a sequence of `ingest` and
`expire_older_than` calls reaches from the default-constructed one. -/
inductive Reachable (abi : Abi) : FrameReassembler → Prop
  | fresh : Reachable abi FrameReassembler.fresh
  | ingest (r : FrameReassembler) (now : Nat) (packet : List Byte) :
      Reachable abi r → Reachable abi (ingest abi now r packet).1
  | expire (r : FrameReassembler) (recent_fseq max_distance : Nat) :
      Reachable abi r → Reachable abi (expire_older_than r recent_fseq max_distance)

/-- What holds of every entry of the pending table in a reachable state. -/
structure EntryOk (kv : Nat × PendingFrame) : Prop where
  key_eq : kv.1 = kv.2.fseq32
  fseq8_eq : kv.2.fseq8 = kv.2.fseq32 % 256
  synth_lt : kv.2.has_fh = false → kv.2.fseq32 < 256
  expected_pos : 0 < kv.2.expected
  expected_le : kv.2.expected ≤ kMaxFrameBytes
  data_len : kv.2.data.length = kv.2.expected
  received_len : kv.2.received.length = (kv.2.expected + 1023) / 1024
  incomplete : kv.2.received_bytes < kv.2.expected

/-- The invariant of the pending table: every entry is well formed and the
keys are unique. -/
def TableOk (m : List (Nat × PendingFrame)) : Prop :=
  (∀ kv ∈ m, EntryOk kv) ∧ (m.map Prod.fst).Nodup

/-! ## rawabi_sender.cpp, rawabi_playback.cpp: `pack_payload` -/

/-- The two bytes of a `uint16_t` as they lie in memory on the host. -/
def host16 (abi : Abi) (x : Nat) : List Byte :=
  if abi.little_endian then [toByte x, toByte (x / 2 ^ 8)] else [toByte (x / 2 ^ 8), toByte x]

/-- One iteration of the loop of `pack_payload` (the same function in
`rawabi_sender.cpp` and `rawabi_playback.cpp`): the assignment `out[i] = ...`
when `bpp == 1`, else the `memcpy` of `bpp` bytes from `&pixels[i]`.  `none`
when an index is out of range or the `memcpy` would read more than the two
bytes of `pixels[i]`. -/
def pack_step (abi : Abi) (pixels : List Nat) (bpp : Nat) (out : List Byte) (i : Nat) :
    Option (List Byte) :=
  if bpp = 1 then
    if i < out.length then some (out.set i (toByte (pixels.getD i 0 &&& 0xFF))) else none
  else if bpp ≤ 2 ∧ i * bpp + bpp ≤ out.length then
    some (memcpy_at out (i * bpp) ((host16 abi (pixels.getD i 0)).take bpp))
  else none

/-- The `for (i = 0; i < pixels.size(); ++i)` loop of `pack_payload`, with
`n` iterations left from index `i`. -/
def pack_loop (abi : Abi) (pixels : List Nat) (bpp : Nat) :
    Nat → Nat → List Byte → Option (List Byte)
  | 0, _, out => some out
  | n + 1, i, out =>
    match pack_step abi pixels bpp out i with
    | none => none
    | some out1 => pack_loop abi pixels bpp n (i + 1) out1

/-- The `pack_payload` of the source; `pixels` holds `uint16_t` values and
`bits` is a `uint8_t`. -/
def pack_payload (abi : Abi) (pixels : List Nat) (bits : Nat) : Option (List Byte) :=
  let bpp := if (bits + 7) / 8 = 0 then 1 else (bits + 7) / 8
  pack_loop abi pixels bpp pixels.length 0 (List.replicate (pixels.length * bpp) 0)

/-! ## rawabi_generator.h, rawabi_generator.cpp -/

/-- The `enum class Pattern`. -/
inductive Pattern
  | COLOR_BARS
  | RAMP
  | CHECKER
  | MOVING_BOX
  | SLANTED_EDGE
deriving DecidableEq, Repr

/-- The `struct GeneratorOptions`. -/
structure GeneratorOptions where
  pattern : Pattern
  seed : Nat
  box_size : Nat
  embed_counter : Bool
deriving DecidableEq, Repr

/-- Conversion to `uint16_t`. -/
def wrap16 (x : Nat) : Nat := x % 2 ^ 16

/-- The operator `/` of the source with its precondition: `none` when the
divisor is 0. -/
def div? (a b : Nat) : Option Nat := if b = 0 then none else some (a / b)

/-- The operator `%` of the source with its precondition: `none` when the
divisor is 0. -/
def mod? (a b : Nat) : Option Nat := if b = 0 then none else some (a % b)

/-- The assignment `buf[idx] = val`: `none` when `idx` is not an index of
`buf`. -/
def store (buf : List Nat) (idx val : Nat) : Option (List Nat) :=
  if idx < buf.length then some (buf.set idx val) else none

/-- A loop `for (i = start; i < start + n; ++i) body(i)` over a state, stopped
by the first iteration that evaluates to `none`. -/
def for_loop {σ : Type} (body : Nat → σ → Option σ) : Nat → Nat → σ → Option σ
  | 0, _, s => some s
  | n + 1, i, s =>
    match body i s with
    | none => none
    | some s1 => for_loop body n (i + 1) s1

/-- The `RawFrameGenerator::max_val` of the source. -/
def max_val (abi : Abi) (info : FrameInfo) : Nat :=
  if sample_bits abi info.fmt = 0 ∨ sample_bits abi info.fmt > 16 then 0
  else wrap16 (wrap32 (1 <<< sample_bits abi info.fmt) - 1)

/-- The `RawFrameGenerator::fill_color_bars` of the source. -/
def fill_color_bars (abi : Abi) (info : FrameInfo) (buf : List Nat) : Option (List Nat) :=
  let mv := max_val abi info
  let colors : List Nat :=
    [mv, wrap16 (mv * 3 / 4), wrap16 (mv / 2), wrap16 (mv / 4), wrap16 (mv / 8), 0]
  for_loop (fun y buf =>
    for_loop (fun x buf =>
      match div? (x * 6) info.width with
      | none => none
      | some bar =>
        let idx := y * info.width + x
        let val := colors.getD (bar % 6) 0
        if info.pattern = BayerPattern.MONO then store buf idx val
        else
          let red_row : Bool :=
            if info.pattern = BayerPattern.BAYER_RG1BG2 ∨ info.pattern = BayerPattern.BAYER_G1RG2B
            then decide (y % 2 = 0) else decide (y % 2 ≠ 0)
          let red_col : Bool :=
            if info.pattern = BayerPattern.BAYER_RG1BG2 ∨ info.pattern = BayerPattern.BAYER_BG1RG2
            then decide (x % 2 = 0) else decide (x % 2 ≠ 0)
          if red_row && red_col then store buf idx val
          else if !red_row && !red_col then store buf idx (wrap16 (val / 2))
          else store buf idx (wrap16 (val * 3 / 4)))
      info.width 0 buf)
    info.height 0 buf

/-- The `RawFrameGenerator::fill_ramp` of the source. -/
def fill_ramp (abi : Abi) (info : FrameInfo) (buf : List Nat) (frame_index : Nat) :
    Option (List Nat) :=
  let mv := max_val abi info
  for_loop (fun y buf =>
    for_loop (fun x buf =>
      match mod? (wrap32 (wrap32 (x + y) + frame_index)) mv with
      | none => none
      | some v => store buf (y * info.width + x) (wrap16 v))
      info.width 0 buf)
    info.height 0 buf

/-- The `RawFrameGenerator::fill_checker` of the source. -/
def fill_checker (abi : Abi) (info : FrameInfo) (buf : List Nat) (frame_index : Nat) :
    Option (List Nat) :=
  let mv := max_val abi info
  let bright := mv
  let dark := wrap16 (mv / 16)
  for_loop (fun y buf =>
    for_loop (fun x buf =>
      let block : Bool := decide ((((x / 8) ^^^ (y / 8) ^^^ (frame_index / 8)) &&& 1) ≠ 0)
      store buf (y * info.width + x) (if block then bright else dark))
      info.width 0 buf)
    info.height 0 buf

/-- The `RawFrameGenerator::fill_slanted` of the source. -/
def fill_slanted (abi : Abi) (info : FrameInfo) (buf : List Nat) (frame_index : Nat) :
    Option (List Nat) :=
  let mv := max_val abi info
  for_loop (fun y buf =>
    for_loop (fun x buf =>
      match mod? (wrap32 (x + frame_index)) info.width with
      | none => none
      | some v =>
        match mod? (wrap32 (v + y / 2)) info.width with
        | none => none
        | some diag =>
          match div? (wrap32 (diag * mv)) (if info.width ≠ 0 then info.width else 1) with
          | none => none
          | some q => store buf (y * info.width + x) (wrap16 q))
      info.width 0 buf)
    info.height 0 buf

/-- The `RawFrameGenerator::fill_box` of the source. -/
def fill_box (abi : Abi) (info : FrameInfo) (opts : GeneratorOptions) (buf : List Nat)
    (frame_index : Nat) : Option (List Nat) :=
  let buf1 := buf.map (fun _ => wrap16 (max_val abi info / 8))
  if info.width = 0 ∨ info.height = 0 then some buf1
  else
    let mv := max_val abi info
    let size := min (wrap16 opts.box_size) (min info.width info.height)
    match mod? (wrap32 (frame_index * 5)) info.width,
          mod? (wrap32 (frame_index * 3)) info.height with
    | some xc, some yc =>
      let x_center := wrap16 xc
      let y_center := wrap16 yc
      match mod? (x_center + info.width - size / 2) info.width,
            mod? (y_center + info.height - size / 2) info.height with
      | some x0w, some y0w =>
        let x0 := wrap16 x0w
        let y0 := wrap16 y0w
        for_loop (fun dy buf =>
          match mod? (y0 + dy) info.height with
          | none => none
          | some yw =>
            let y := wrap16 yw
            for_loop (fun dx buf =>
              match mod? (x0 + dx) info.width with
              | none => none
              | some xw => store buf (y * info.width + wrap16 xw) mv)
              size 0 buf)
          size 0 buf1
      | _, _ => none
    | _, _ => none

/-- The `RawFrameGenerator::next_frame` of the source: `none` when a division
or modulo by zero or an out-of-range index is evaluated. -/
def next_frame (abi : Abi) (info : FrameInfo) (opts : GeneratorOptions) (frame_index : Nat) :
    Option (List Nat) :=
  let buf0 : List Nat := List.replicate (info.width * info.height) 0
  let filled :=
    match opts.pattern with
    | Pattern.COLOR_BARS => fill_color_bars abi info buf0
    | Pattern.RAMP => fill_ramp abi info buf0 frame_index
    | Pattern.CHECKER => fill_checker abi info buf0 frame_index
    | Pattern.MOVING_BOX => fill_box abi info opts buf0 frame_index
    | Pattern.SLANTED_EDGE => fill_slanted abi info buf0 frame_index
  match filled with
  | none => none
  | some buf =>
    if opts.embed_counter = true ∧ buf ≠ [] then
      let counter := wrap16 (frame_index &&& max_val abi info)
      for_loop (fun i buf => store buf i counter) (min buf.length 64) 0 buf
    else some buf





/-- A sample buffer of `len` samples, none above `mv`. -/
def BufOk (len mv : Nat) (buf : List Nat) : Prop := buf.length = len ∧ ∀ v ∈ buf, v ≤ mv

/-! ## Inputs of the worked examples -/

/-- An instance of the ABI used for the worked examples: sample-format codes
of the required shape on a little-endian host. -/
def ex_abi : Abi :=
  { sf_8bit := 0x00000000, sf_10bit := 0x10000000, sf_12bit := 0x20000000,
    sf_14bit := 0x30000000, sf_16bit := 0x40000000, little_endian := true }

/-- The 16×4 MONO 8-bit frame of the reorder test. -/
def ex_info : FrameInfo :=
  { width := 16, height := 4, fmt := 0x00000000, pattern := .MONO, orientation := 0,
    mirror := false, flow_id := 1 }

/-- Sender options of the reorder test: 12-byte fragments, no loss,
duplication or reordering. -/
def ex_opts : SenderOptions :=
  { flow_id := 1, fragment_payload := 12, loss_percent := 0, duplicate_percent := 0,
    reorder_window := 0 }

/-- The payload of the reorder test: 64 bytes 0x5A. -/
def ex_payload : List Byte := List.replicate 64 0x5A

/-- An empty reorder buffer. -/
def ex_reorder : ReorderBuffer := { pending := [], window := 0 }

/-- A roll stream (every roll 0). -/
def ex_rolls : Nat → ℚ := fun _ => 0

/-- A 2×2 MONO 8-bit frame (four bytes of payload when well-formed). -/
def ex_info_small : FrameInfo :=
  { width := 2, height := 2, fmt := 0x00000000, pattern := .MONO, orientation := 0,
    mirror := false, flow_id := 1 }

/-- Sender options with 2-byte fragments and no loss, duplication or
reordering. -/
def ex_opts_small : SenderOptions :=
  { flow_id := 1, fragment_payload := 2, loss_percent := 0, duplicate_percent := 0,
    reorder_window := 0 }

/-- The reassembler after the FH of the reorder-test frame (64 bytes
expected under key 2). -/
def ex_state_fh : FrameReassembler :=
  (ingest ex_abi 0 FrameReassembler.fresh (fh_bytes ex_abi ex_info 2 77 64 ex_opts)).1

/-- A crafted FD for that frame: offset 60, size 12, so that it would end at
byte 72 of a 64-byte frame. -/
def ex_overrun_fd : List Byte :=
  fd_bytes ex_abi ex_info 2 (List.replicate 100 0xFF) ex_opts 60 12

/-- A reassembler holding three pending frames, with `fseq32` 1, 2 and 3:
the state after the FHs of three 64-byte frames. -/
def ex_state_three : FrameReassembler :=
  (ingest_all ex_abi (fun _ => 0) 0 FrameReassembler.fresh
    [fh_bytes ex_abi ex_info 1 77 64 ex_opts, fh_bytes ex_abi ex_info 2 78 64 ex_opts,
     fh_bytes ex_abi ex_info 3 79 64 ex_opts]).1

/-- An FD of a 12-byte fragment cut off after 4 data bytes: its size field
says 12 but the datagram ends 8 bytes early. -/
def ex_truncated_fd : List Byte :=
  (fd_bytes ex_abi ex_info 2 ex_payload ex_opts 0 12).take 20

/-- The FH that `fragment_frame` builds for a frame of 40 MiB, above the
32 MiB cap of the reassembler. -/
def ex_fh_oversize : List Byte := fh_bytes ex_abi ex_info 2 77 41943040 ex_opts

/-- The first FD of a 16×4 8-bit frame with `fseq32 = 2` sent on flow 2
(twelve bytes 0xFF at offset 0), while the pending frame of `ex_state_fh`
belongs to flow 1. -/
def ex_other_flow_fd : List Byte :=
  fd_bytes ex_abi ex_info 2 (List.replicate 64 0xFF) { ex_opts with flow_id := 2 } 0 12

/-- Rolls used in the worked examples of loss and duplication: 10, 60, 90,
10, 60, 90, ... -/
def ex_rolls_mix : Nat → ℚ := fun i => if i % 3 = 0 then 10 else if i % 3 = 1 then 60 else 90

/-- A single FD carrying the whole 64-byte payload of the frame with
`fseq32 = 2` of flow 1. -/
def ex_whole_fd : List Byte := fd_bytes ex_abi ex_info 2 ex_payload ex_opts 0 64

/-- An FD for the frame with `fseq32 = 3` whose fragment would end at byte 72
of the 64-byte frame. -/
def ex_overrun_fd3 : List Byte :=
  fd_bytes ex_abi ex_info 3 (List.replicate 100 0xFF) ex_opts 60 12

/-- The first FD (bytes 0 to 11) of the 64-byte frame with `fseq32 = 2`. -/
def ex_first_fd : List Byte := fd_bytes ex_abi ex_info 2 ex_payload ex_opts 0 12

/-- An FH whose `lid` is written big-endian (bytes 80 00 00 01: type bit set,
flow 1), the other fields being those of the FH of the 64-byte frame. -/
def ex_be_lid_fh : List Byte :=
  be32 0x80000001 ++ (fh_bytes ex_abi ex_info 2 77 64 ex_opts).drop 4

/-- The first FD of the 64-byte frame with `lid` written big-endian (bytes
00 00 00 01: type bit clear, flow 1). -/
def ex_be_lid_fd : List Byte := be32 0x00000001 ++ ex_first_fd.drop 4


/-- The example ABI on a big-endian host. -/
def ex_abi_be : Abi := { ex_abi with little_endian := false }


/-- The rolls that the code draws for the frame of the reorder test: the
first six values of `std::uniform_real_distribution<double>(0.0, 100.0)` over
`std::mt19937` seeded with `timestamp_us ^ payload_size = 77 ^ 64 = 13`
(libstdc++), each double written as a fraction: 60.734…, 85.943…, 89.298…,
17.915…, 75.858…, 75.166….  The loop over the six fragments of that frame
draws no more; the later values are set to 0. -/
def ex_rolls_mt : Nat → ℚ
  | 0 => 8547569345421975 / 2 ^ 47
  | 1 => 1511932303866897 / 2 ^ 44
  | 2 => 3141903504854449 / 2 ^ 45
  | 3 => 2521361055631767 / 2 ^ 47
  | 4 => 5338060388716709 / 2 ^ 46
  | 5 => 5289347688781331 / 2 ^ 46
  | _ => 0

/-- Sender options with every impairment: 12-byte fragments, 25 % loss, 50 %
duplication and a reorder window of 3. -/
def ex_opts_mix : SenderOptions :=
  { ex_opts with loss_percent := 25, duplicate_percent := 50, reorder_window := 3 }

/-- Sender options with a `loss_percent` of `2^-60` and a `duplicate_percent`
equal to the first roll of `ex_rolls_mt`, no reordering. -/
def ex_opts_absorb : SenderOptions :=
  { ex_opts with loss_percent := 1 / 2 ^ 60, duplicate_percent := 8547569345421975 / 2 ^ 47 }

/-! ## Theorems -/

/-! ### The sum of two doubles -/

theorem double_add_zero (a : ℚ) : double_add a 0 = a := by
  unfold double_add
  rw [if_pos rfl]

theorem zero_double_add (b : ℚ) : double_add 0 b = b := by
  unfold double_add
  by_cases h : b = 0
  · rw [if_pos h, h]
  · rw [if_neg h, if_pos rfl]

theorem double_add_exact (a b : ℚ) (h : round_double (a + b) = a + b) :
    double_add a b = a + b := by
  unfold double_add
  by_cases hb : b = 0
  · rw [if_pos hb, hb, add_zero]
  · rw [if_neg hb]
    by_cases ha : a = 0
    · rw [if_pos ha, ha, zero_add]
    · rw [if_neg ha, h]

theorem int_log_eq (x : ℚ) (k : ℤ) (hx : 0 < x) (h1 : (2 : ℚ) ^ k ≤ x)
    (h2 : x < (2 : ℚ) ^ (k + 1)) : Int.log 2 x = k := by
  have a : k ≤ Int.log 2 x := (Int.zpow_le_iff_le_log (by norm_num) hx).mp h1
  have b : Int.log 2 x < k + 1 := (Int.lt_zpow_iff_log_lt (by norm_num) hx).mp h2
  omega

theorem round_half_even_intCast (z : ℤ) : round_half_even (z : ℚ) = z := by
  unfold round_half_even
  rw [Int.floor_intCast, sub_self, if_pos (by norm_num)]

/-- A whole number below `2^53` is a `double`. -/
theorem round_double_natCast (n : Nat) (h : n < 2 ^ 53) : round_double (n : ℚ) = n := by
  unfold round_double
  by_cases h0 : (n : ℚ) = 0
  · rw [if_pos h0, h0]
  rw [if_neg h0]
  have hn : n ≠ 0 := fun e => h0 (by rw [e]; rfl)
  have hlog : Int.log 2 |(n : ℚ)| = (Nat.log 2 n : ℤ) := by
    rw [abs_of_nonneg (Nat.cast_nonneg n), Int.log_natCast]
  have hk : Nat.log 2 n < 53 := Nat.log_lt_of_lt_pow hn h
  simp only [hlog]
  have hmax : max (Nat.log 2 n : ℤ) (-1022) = (Nat.log 2 n : ℤ) := by omega
  rw [hmax]
  have hq : ((2 : ℚ) ^ ((Nat.log 2 n : ℤ) - 52)) = 1 / 2 ^ (52 - Nat.log 2 n) := by
    have : ((Nat.log 2 n : ℤ) - 52) = -((52 - Nat.log 2 n : ℕ) : ℤ) := by omega
    rw [this, zpow_neg, zpow_natCast, one_div]
  rw [hq]
  have hdiv : (n : ℚ) / (1 / 2 ^ (52 - Nat.log 2 n))
      = ((n * 2 ^ (52 - Nat.log 2 n) : ℤ) : ℚ) := by
    push_cast
    field_simp
  rw [hdiv, round_half_even_intCast]
  have hr : (((n * 2 ^ (52 - Nat.log 2 n) : ℤ) : ℚ)) * (1 / 2 ^ (52 - Nat.log 2 n)) = n := by
    push_cast
    field_simp
  rw [hr]
  have hlt : (n : ℚ) < 2 ^ 1024 := by
    have : (n : ℚ) < 2 ^ 53 := by exact_mod_cast h
    exact lt_trans this (by norm_num)
  rw [if_neg (not_le.mpr hlt), if_neg]
  rw [not_le]
  exact lt_of_lt_of_le (by norm_num) (Nat.cast_nonneg n)

/-- The double sum of two whole numbers is exact while it stays below `2^53`. -/
theorem double_add_natCast (a b : Nat) (h : a + b < 2 ^ 53) :
    double_add (a : ℚ) (b : ℚ) = ((a + b : Nat) : ℚ) := by
  rw [double_add_exact]
  · push_cast; rfl
  · have := round_double_natCast (a + b) h
    push_cast at this
    exact this

/-- Every `m * 2^(e - 52)` with `2^52 ≤ m < 2^53` and `-1022 ≤ e ≤ 1023`, a
positive normal double, is a fixed point of the rounding. -/
theorem round_double_normal (m : Nat) (e : ℤ) (h1 : 2 ^ 52 ≤ m) (h2 : m < 2 ^ 53)
    (he1 : -1022 ≤ e) (he2 : e ≤ 1023) :
    round_double ((m : ℚ) * 2 ^ (e - 52)) = (m : ℚ) * 2 ^ (e - 52) := by
  have hq : (0 : ℚ) < 2 ^ (e - 52) := zpow_pos (by norm_num) _
  have hm1 : ((2 : ℚ) ^ 52) ≤ m := by exact_mod_cast h1
  have hm2 : (m : ℚ) < 2 ^ 53 := by exact_mod_cast h2
  have hm0 : (0 : ℚ) < m := lt_of_lt_of_le (by norm_num) hm1
  have hx : (0 : ℚ) < (m : ℚ) * 2 ^ (e - 52) := mul_pos hm0 hq
  have e1 : (2 : ℚ) ^ e = 2 ^ 52 * 2 ^ (e - 52) := by
    rw [← zpow_natCast, ← zpow_add₀ (by norm_num)]
    congr 1
    push_cast
    ring
  have e2 : (2 : ℚ) ^ (e + 1) = 2 ^ 53 * 2 ^ (e - 52) := by
    rw [← zpow_natCast, ← zpow_add₀ (by norm_num)]
    congr 1
    push_cast
    ring
  have hlog : Int.log 2 |(m : ℚ) * 2 ^ (e - 52)| = e := by
    rw [abs_of_pos hx]
    apply int_log_eq _ _ hx
    · rw [e1]; exact mul_le_mul_of_nonneg_right hm1 hq.le
    · rw [e2]; exact mul_lt_mul_of_pos_right hm2 hq
  unfold round_double
  rw [if_neg hx.ne.symm]
  simp only [hlog]
  rw [max_eq_left he1]
  have hdiv : (m : ℚ) * 2 ^ (e - 52) / 2 ^ (e - 52) = ((m : ℤ) : ℚ) := by
    rw [mul_div_assoc, div_self hq.ne.symm, mul_one]
    rfl
  rw [hdiv, round_half_even_intCast]
  have hr : (((m : ℤ) : ℚ)) * 2 ^ (e - 52) = (m : ℚ) * 2 ^ (e - 52) := rfl
  rw [hr]
  have hlt : (m : ℚ) * 2 ^ (e - 52) < 2 ^ 1024 := by
    have h3 : (m : ℚ) * 2 ^ (e - 52) < 2 ^ (e + 1) := by
      rw [e2]; exact mul_lt_mul_of_pos_right hm2 hq
    have h4 : (2 : ℚ) ^ (e + 1) ≤ 2 ^ (1024 : ℤ) :=
      zpow_le_zpow_right₀ (by norm_num) (by omega)
    have h5 : (2 : ℚ) ^ (1024 : ℤ) = 2 ^ 1024 := by
      rw [← zpow_natCast]; rfl
    rw [h5] at h4
    exact lt_of_lt_of_le h3 h4
  rw [if_neg (not_le.mpr hlt), if_neg]
  rw [not_le]
  exact lt_trans (by norm_num) hx

theorem round_half_even_ge_floor (y : ℚ) : ⌊y⌋ ≤ round_half_even y := by
  unfold round_half_even
  split_ifs <;> omega

theorem round_half_even_ge (z : ℤ) (y : ℚ) (h : (z : ℚ) ≤ y) : z ≤ round_half_even y :=
  le_trans (Int.le_floor.mpr h) (round_half_even_ge_floor y)

theorem round_double_le_max (x : ℚ) : round_double x ≤ 2 ^ 1024 := by
  have hpos : (0 : ℚ) < 2 ^ 1024 := pow_pos (by norm_num) _
  unfold round_double
  by_cases h0 : x = 0
  · rw [if_pos h0]; exact hpos.le
  rw [if_neg h0]
  simp only
  split_ifs with h1 h2
  · exact le_refl _
  · linarith
  · exact (not_le.mp h1).le

theorem zpow_two_split (e : ℤ) : (2 : ℚ) ^ e = 2 ^ 52 * 2 ^ (e - 52) := by
  rw [← zpow_natCast, ← zpow_add₀ (by norm_num)]
  congr 1
  push_cast
  ring

theorem zpow_two_pos (k : ℤ) : (0 : ℚ) < 2 ^ k := zpow_pos (by norm_num) k

/-- A double other than zero is a whole multiple of the spacing of the doubles
around it. -/
theorem round_double_grid (d : ℚ) (hne : d ≠ 0) (hd : round_double d = d) :
    ∃ n : ℤ, d = (n : ℚ) * 2 ^ (max (Int.log 2 |d|) (-1022) - 52) := by
  have hlog : Int.log 2 |((2 : ℚ) ^ 1024)| = 1024 := by
    rw [abs_of_pos (by norm_num)]
    exact int_log_eq _ 1024 (by norm_num) (by norm_num) (by norm_num)
  have hq : ((2 : ℚ) ^ ((max (1024 : ℤ) (-1022)) - 52)) = 2 ^ 972 := by
    have : (max (1024 : ℤ) (-1022)) - 52 = ((972 : ℕ) : ℤ) := by decide
    rw [this, zpow_natCast]
  unfold round_double at hd
  rw [if_neg hne] at hd
  simp only at hd
  split_ifs at hd with h1 h2
  · refine ⟨2 ^ 52, ?_⟩
    rw [← hd, hlog, hq]
    norm_num
  · refine ⟨-2 ^ 52, ?_⟩
    rw [← hd, abs_neg, hlog, hq]
    norm_num
  · exact ⟨_, hd.symm⟩

/-- Rounding does not pass a double: a double below `x` is not above the
rounded `x`. -/
theorem round_double_ge (d x : ℚ) (hd : round_double d = d) (hdx : d ≤ x) :
    d ≤ round_double x := by
  have hdmax : d ≤ 2 ^ 1024 := by rw [← hd]; exact round_double_le_max d
  by_cases hx0 : x = 0
  · rw [hx0] at hdx ⊢
    unfold round_double
    rw [if_pos rfl]
    exact hdx
  have hq : (0 : ℚ) < 2 ^ (max (Int.log 2 |x|) (-1022) - 52) := zpow_two_pos _
  have key : d ≤ (round_half_even (x / 2 ^ (max (Int.log 2 |x|) (-1022) - 52)) : ℚ)
      * 2 ^ (max (Int.log 2 |x|) (-1022) - 52) := by
    -- a grid at least as fine as the one of `d`
    have fine : d ≠ 0 → max (Int.log 2 |x|) (-1022) ≤ max (Int.log 2 |d|) (-1022) →
        d ≤ (round_half_even (x / 2 ^ (max (Int.log 2 |x|) (-1022) - 52)) : ℚ)
          * 2 ^ (max (Int.log 2 |x|) (-1022) - 52) := by
      intro hne hle
      obtain ⟨n, hn⟩ := round_double_grid d hne hd
      obtain ⟨k, hk⟩ : ∃ k : ℕ, max (Int.log 2 |d|) (-1022) - 52
          = (max (Int.log 2 |x|) (-1022) - 52) + (k : ℤ) :=
        ⟨(max (Int.log 2 |d|) (-1022) - max (Int.log 2 |x|) (-1022)).toNat, by omega⟩
      have hsplit : (2 : ℚ) ^ (max (Int.log 2 |d|) (-1022) - 52)
          = 2 ^ (max (Int.log 2 |x|) (-1022) - 52) * 2 ^ k := by
        rw [hk, zpow_add₀ (by norm_num), zpow_natCast]
      have hdz : d = ((n * 2 ^ k : ℤ) : ℚ) * 2 ^ (max (Int.log 2 |x|) (-1022) - 52) := by
        rw [hn, hsplit]
        push_cast
        ring
      have hz : ((n * 2 ^ k : ℤ) : ℚ) ≤ x / 2 ^ (max (Int.log 2 |x|) (-1022) - 52) := by
        rw [le_div_iff₀ hq, ← hdz]
        exact hdx
      have hr := round_half_even_ge _ _ hz
      have hr2 : ((n * 2 ^ k : ℤ) : ℚ)
          ≤ (round_half_even (x / 2 ^ (max (Int.log 2 |x|) (-1022) - 52)) : ℚ) := by
        exact_mod_cast hr
      calc d = ((n * 2 ^ k : ℤ) : ℚ) * 2 ^ (max (Int.log 2 |x|) (-1022) - 52) := hdz
        _ ≤ _ := mul_le_mul_of_nonneg_right hr2 hq.le
    rcases lt_trichotomy x 0 with hxneg | hxz | hxpos
    · -- d ≤ x < 0
      have hdneg : d < 0 := lt_of_le_of_lt hdx hxneg
      apply fine hdneg.ne
      have habs : |x| ≤ |d| := by
        rw [abs_of_neg hxneg, abs_of_neg hdneg]
        linarith
      have hm : Int.log 2 |x| ≤ Int.log 2 |d| := Int.log_mono_right (abs_pos.mpr hx0) habs
      omega
    · exact absurd hxz hx0
    · by_cases hd0 : d ≤ 0
      · have h0 : ((0 : ℤ) : ℚ) ≤ x / 2 ^ (max (Int.log 2 |x|) (-1022) - 52) := by
          rw [Int.cast_zero]
          exact div_nonneg hxpos.le hq.le
        have hr := round_half_even_ge _ _ h0
        have hr2 : (0 : ℚ)
            ≤ (round_half_even (x / 2 ^ (max (Int.log 2 |x|) (-1022) - 52)) : ℚ) := by
          exact_mod_cast hr
        exact le_trans hd0 (mul_nonneg hr2 hq.le)
      · have hdpos : 0 < d := not_le.mp hd0
        have hmono : Int.log 2 |d| ≤ Int.log 2 |x| := by
          rw [abs_of_pos hdpos, abs_of_pos hxpos]
          exact Int.log_mono_right hdpos hdx
        by_cases hsame : max (Int.log 2 |x|) (-1022) ≤ max (Int.log 2 |d|) (-1022)
        · exact fine hdpos.ne.symm hsame
        · -- the binade of `x` is above the one of `d`
          have hex : max (Int.log 2 |x|) (-1022) = Int.log 2 x := by
            rw [abs_of_pos hxpos] at hsame ⊢
            omega
          have hlt : Int.log 2 d + 1 ≤ Int.log 2 x := by
            rw [abs_of_pos hxpos, abs_of_pos hdpos] at hsame
            omega
          rw [hex]
          have hx2 : (2 : ℚ) ^ Int.log 2 x ≤ x := Int.zpow_log_le_self (by norm_num) hxpos
          have hd2 : d < (2 : ℚ) ^ (Int.log 2 d + 1) := Int.lt_zpow_succ_log_self (by norm_num) d
          have hd3 : (2 : ℚ) ^ (Int.log 2 d + 1) ≤ 2 ^ Int.log 2 x :=
            zpow_le_zpow_right₀ (by norm_num) hlt
          have hq2 : (0 : ℚ) < 2 ^ (Int.log 2 x - 52) := zpow_two_pos _
          have e1 : (2 : ℚ) ^ Int.log 2 x = 2 ^ 52 * 2 ^ (Int.log 2 x - 52) :=
            zpow_two_split _
          have hz : ((((2 : ℤ) ^ 52 : ℤ)) : ℚ) ≤ x / 2 ^ (Int.log 2 x - 52) := by
            rw [le_div_iff₀ hq2, Int.cast_pow, Int.cast_ofNat, ← e1]
            exact hx2
          have hr := round_half_even_ge _ _ hz
          have hr2 : ((((2 : ℤ) ^ 52 : ℤ)) : ℚ)
              ≤ (round_half_even (x / 2 ^ (Int.log 2 x - 52)) : ℚ) := Int.cast_le.mpr hr
          rw [Int.cast_pow, Int.cast_ofNat] at hr2
          calc d ≤ 2 ^ Int.log 2 x := le_trans hd2.le hd3
            _ = 2 ^ 52 * 2 ^ (Int.log 2 x - 52) := e1
            _ ≤ _ := mul_le_mul_of_nonneg_right hr2 hq2.le
  unfold round_double
  rw [if_neg hx0]
  simp only
  split_ifs with h1 h2
  · exact hdmax
  · exact le_trans key h2
  · exact key

/-- The double sum is not below a double operand when the other operand is
not negative. -/
theorem double_add_ge (a b : ℚ) (ha : round_double a = a) (hb : 0 ≤ b) :
    a ≤ double_add a b := by
  unfold double_add
  split_ifs with h1 h2
  · exact le_refl _
  · rw [h2]; exact hb
  · exact round_double_ge a (a + b) ha (by linarith)

/-- On doubles the two cases of `double_add` for a zero operand are what
rounding gives, so that `double_add` is the rounded sum. -/
theorem double_add_eq_round (a b : ℚ) (ha : round_double a = a) (hb : round_double b = b) :
    double_add a b = round_double (a + b) := by
  unfold double_add
  by_cases h : b = 0
  · rw [if_pos h, h, add_zero, ha]
  · rw [if_neg h]
    by_cases h2 : a = 0
    · rw [if_pos h2, h2, zero_add, hb]
    · rw [if_neg h2]


/-! ### Bit masks as arithmetic -/

theorem and_mask (x k w : Nat) : x &&& (2 ^ k * (2 ^ w - 1)) = 2 ^ k * (x / 2 ^ k % 2 ^ w) := by
  apply Nat.eq_of_testBit_eq
  intro i
  rw [Nat.testBit_and, Nat.testBit_mul_pow_two, Nat.testBit_mul_pow_two,
    Nat.testBit_mod_two_pow, ← Nat.shiftRight_eq_div_pow, Nat.testBit_shiftRight,
    Nat.testBit_two_pow_sub_one]
  by_cases h : k ≤ i
  · have : k + (i - k) = i := by omega
    simp [h, this, Bool.and_comm]
  · simp [h]

theorem and_hi_nibble (x : Nat) : x &&& 0xF0000000 = 2 ^ 28 * (x / 2 ^ 28 % 16) := by
  have := and_mask x 28 4
  norm_num at this ⊢
  exact this

theorem and_type_bit (x : Nat) : x &&& 0x80000000 = 2 ^ 31 * (x / 2 ^ 31 % 2) := by
  have := and_mask x 31 1
  norm_num at this ⊢
  exact this

theorem and_low28 (x : Nat) : x &&& 0x0FFFFFFF = x % 2 ^ 28 := by
  have := Nat.and_pow_two_sub_one_eq_mod x 28
  norm_num at this ⊢
  exact this

theorem and_low31 (x : Nat) : x &&& 0x7FFFFFFF = x % 2 ^ 31 := by
  have := Nat.and_pow_two_sub_one_eq_mod x 31
  norm_num at this ⊢
  exact this

theorem and_low8 (x : Nat) : x &&& 0xFF = x % 2 ^ 8 := by
  have := Nat.and_pow_two_sub_one_eq_mod x 8
  norm_num at this ⊢
  exact this

theorem and_low5 (x : Nat) : x &&& 0x1F = x % 2 ^ 5 := by
  have := Nat.and_pow_two_sub_one_eq_mod x 5
  norm_num at this ⊢
  exact this

theorem or_high_eq_add (k a b : Nat) (hb : b < 2 ^ k) (ha : a % 2 ^ k = 0) :
    b ||| a = b + a := by
  obtain ⟨q, rfl⟩ : ∃ q, a = 2 ^ k * q := ⟨a / 2 ^ k, by
    have := Nat.div_add_mod a (2 ^ k); omega⟩
  rw [Nat.or_comm, ← Nat.mul_add_lt_is_or hb, Nat.add_comm]

theorem encode_sample_format_eq (fmt : Nat) :
    encode_sample_format fmt = 2 ^ 28 * (fmt % 2 ^ 32 / 2 ^ 28 % 16) := by
  unfold encode_sample_format wrap32
  exact and_hi_nibble _

theorem encode_sample_format_lt (fmt : Nat) : encode_sample_format fmt < 2 ^ 32 := by
  rw [encode_sample_format_eq]; omega

theorem encode_sample_format_low (fmt : Nat) : encode_sample_format fmt % 2 ^ 28 = 0 := by
  rw [encode_sample_format_eq]; omega

theorem encode_sample_format_of_top (fmt : Nat) (h32 : fmt < 2 ^ 32) (h28 : fmt % 2 ^ 28 = 0) :
    encode_sample_format fmt = fmt := by
  rw [encode_sample_format_eq]; omega

/-- A field made of a 28-bit value and an encoded sample format. -/
theorem field_or_eq (v fmt : Nat) (hv : v < 2 ^ 28) :
    (v &&& 0x0FFFFFFF) ||| encode_sample_format fmt = v + encode_sample_format fmt := by
  rw [and_low28, Nat.mod_eq_of_lt hv]
  exact or_high_eq_add 28 _ _ hv (encode_sample_format_low fmt)

theorem field_low (v fmt : Nat) (hv : v < 2 ^ 28) :
    offset_from_offs (v + encode_sample_format fmt) = v := by
  unfold offset_from_offs
  rw [and_low28]
  have := encode_sample_format_low fmt
  omega

theorem field_high (v fmt : Nat) (hv : v < 2 ^ 28) :
    (v + encode_sample_format fmt) &&& 0xF0000000 = encode_sample_format fmt := by
  rw [and_hi_nibble]
  have := encode_sample_format_eq fmt
  omega

theorem mem_formats (abi : Abi) (fmt : Nat) :
    fmt ∈ abi.formats ↔ fmt = abi.sf_8bit ∨ fmt = abi.sf_10bit ∨ fmt = abi.sf_12bit ∨
      fmt = abi.sf_14bit ∨ fmt = abi.sf_16bit := by
  simp [Abi.formats]

theorem format_top (abi : Abi) (hw : abi.WF) (fmt : Nat) (hf : fmt ∈ abi.formats) :
    fmt < 2 ^ 32 ∧ fmt % 2 ^ 28 = 0 := by
  obtain ⟨⟨a1, a2, a3, a4, a5⟩, ⟨b1, b2, b3, b4, b5⟩, _⟩ := hw
  rw [mem_formats] at hf
  rcases hf with h | h | h | h | h <;> subst h <;> exact ⟨by assumption, by assumption⟩

theorem sample_format_from_bits_format (abi : Abi) (x fmt : Nat)
    (hf : fmt ∈ abi.formats) (hx : x &&& 0xF0000000 = fmt) :
    sample_format_from_bits abi x = fmt := by
  rw [mem_formats] at hf
  unfold sample_format_from_bits
  simp only [hx]
  rcases hf with h | h | h | h | h <;> subst h <;> split_ifs <;>
    first | rfl | (symm; assumption) | (exfalso; simp_all)

theorem sample_format_roundtrip (abi : Abi) (hw : abi.WF) (v fmt : Nat) (hv : v < 2 ^ 28)
    (hf : fmt ∈ abi.formats) :
    sample_format_from_bits abi (v + encode_sample_format fmt) = fmt := by
  apply sample_format_from_bits_format abi _ _ hf
  rw [field_high v fmt hv]
  exact encode_sample_format_of_top fmt (format_top abi hw fmt hf).1 (format_top abi hw fmt hf).2

/-! ### Reading back the fields of an FD datagram -/

theorem toByte_val (x : Nat) : (toByte x).val = x % 256 := rfl

theorem fd_bytes_length (abi : Abi) (info : FrameInfo) (fseq32 : Nat) (payload : List Byte)
    (opts : SenderOptions) (offset chunk : Nat) :
    (fd_bytes abi info fseq32 payload opts offset chunk).length
      = kFdHeaderSize + min chunk (payload.length - offset) := by
  cases h : abi.little_endian <;>
  simp [fd_bytes, host32, h, le32, be32, be16, kFdHeaderSize] <;> omega

theorem fd_bytes_size (abi : Abi) (info : FrameInfo) (fseq32 : Nat) (payload : List Byte)
    (opts : SenderOptions) (offset chunk : Nat) (hc : chunk < 2 ^ 16) :
    rd_be16 (fd_bytes abi info fseq32 payload opts offset chunk) 6 = chunk := by
  cases h : abi.little_endian <;>
  simp [fd_bytes, host32, h, le32, be32, be16, rd_be16, rd8, toByte_val] <;> omega

theorem fd_bytes_width (abi : Abi) (info : FrameInfo) (fseq32 : Nat) (payload : List Byte)
    (opts : SenderOptions) (offset chunk : Nat) (hw : info.width < 2 ^ 16) :
    rd_be16 (fd_bytes abi info fseq32 payload opts offset chunk) 8 = info.width := by
  cases h : abi.little_endian <;>
  simp [fd_bytes, host32, h, le32, be32, be16, rd_be16, rd8, toByte_val] <;> omega

theorem fd_bytes_height (abi : Abi) (info : FrameInfo) (fseq32 : Nat) (payload : List Byte)
    (opts : SenderOptions) (offset chunk : Nat) (hh : info.height < 2 ^ 16) :
    rd_be16 (fd_bytes abi info fseq32 payload opts offset chunk) 10 = info.height := by
  cases h : abi.little_endian <;>
  simp [fd_bytes, host32, h, le32, be32, be16, rd_be16, rd8, toByte_val] <;> omega

theorem fd_bytes_flags (abi : Abi) (info : FrameInfo) (fseq32 : Nat) (payload : List Byte)
    (opts : SenderOptions) (offset chunk : Nat) :
    rd8 (fd_bytes abi info fseq32 payload opts offset chunk) 4 = bayer_flag info.pattern := by
  cases h : abi.little_endian <;> cases hp : info.pattern <;>
  simp [fd_bytes, host32, h, hp, le32, be32, be16, rd8, toByte_val, bayer_flag]

theorem fd_bytes_fseq (abi : Abi) (info : FrameInfo) (fseq32 : Nat) (payload : List Byte)
    (opts : SenderOptions) (offset chunk : Nat) :
    rd8 (fd_bytes abi info fseq32 payload opts offset chunk) 5 = fseq32 % 256 := by
  cases h : abi.little_endian <;>
  simp [fd_bytes, host32, h, le32, be32, be16, rd8, toByte_val, and_low8]

theorem fd_bytes_offs (abi : Abi) (info : FrameInfo) (fseq32 : Nat) (payload : List Byte)
    (opts : SenderOptions) (offset chunk : Nat) (ho : offset < 2 ^ 28) :
    rd_be32 (fd_bytes abi info fseq32 payload opts offset chunk) 12
      = offset + encode_sample_format info.fmt := by
  have h1 := field_or_eq offset info.fmt ho
  have h2 := encode_sample_format_eq info.fmt
  have h3 : rd_be32 (fd_bytes abi info fseq32 payload opts offset chunk) 12
      = ((offset &&& 0x0FFFFFFF) ||| encode_sample_format info.fmt) % 2 ^ 32 := by
    cases h : abi.little_endian <;>
    simp [fd_bytes, host32, h, le32, be32, be16, rd_be32, rd8, toByte_val] <;> omega
  rw [h3, h1]
  omega

theorem fd_bytes_lid (abi : Abi) (info : FrameInfo) (fseq32 : Nat) (payload : List Byte)
    (opts : SenderOptions) (offset chunk : Nat) :
    rd_host32 abi (fd_bytes abi info fseq32 payload opts offset chunk) 0
      = opts.flow_id % 2 ^ 31 := by
  have h1 := and_low31 opts.flow_id
  cases h : abi.little_endian <;>
  simp [fd_bytes, host32, h, le32, be32, be16, rd_be32, rd_le32, rd_host32, rd8, toByte_val,
    LID_FD, h1] <;> omega

theorem fd_bytes_data (abi : Abi) (info : FrameInfo) (fseq32 : Nat) (payload : List Byte)
    (opts : SenderOptions) (offset chunk : Nat) :
    (fd_bytes abi info fseq32 payload opts offset chunk).drop kFdHeaderSize
      = (payload.drop offset).take chunk := by
  cases h : abi.little_endian <;>
  simp [fd_bytes, host32, h, le32, be32, be16, kFdHeaderSize]

/-! ### Reading back the fields of the FH datagram -/

theorem fh_bytes_length (abi : Abi) (info : FrameInfo) (fseq32 ts len : Nat)
    (opts : SenderOptions) :
    (fh_bytes abi info fseq32 ts len opts).length = kFhHeaderSize := by
  cases h : abi.little_endian <;>
  simp [fh_bytes, host32, h, le32, be32, be16, be64, kFhHeaderSize]

theorem fh_bytes_lid (abi : Abi) (info : FrameInfo) (fseq32 ts len : Nat)
    (opts : SenderOptions) :
    rd_host32 abi (fh_bytes abi info fseq32 ts len opts) 0 = 2 ^ 31 + opts.flow_id % 2 ^ 31 := by
  have h1 : LID_FH ||| (opts.flow_id &&& 0x7FFFFFFF) = opts.flow_id % 2 ^ 31 + 2 ^ 31 := by
    rw [Nat.or_comm, and_low31]
    exact or_high_eq_add 31 _ _ (Nat.mod_lt _ (by norm_num)) (by norm_num [LID_FH])
  cases h : abi.little_endian <;>
  simp [fh_bytes, host32, h, le32, be32, be16, be64, rd_be32, rd_le32, rd_host32, rd8,
    toByte_val, h1] <;> omega

theorem fh_bytes_fseq (abi : Abi) (info : FrameInfo) (fseq32 ts len : Nat)
    (opts : SenderOptions) (hf : fseq32 < 2 ^ 32) :
    rd_be32 (fh_bytes abi info fseq32 ts len opts) 4 = fseq32 := by
  cases h : abi.little_endian <;>
  simp [fh_bytes, host32, h, le32, be32, be16, be64, rd_be32, rd8, toByte_val] <;> omega

theorem fh_bytes_ts (abi : Abi) (info : FrameInfo) (fseq32 ts len : Nat)
    (opts : SenderOptions) (ht : ts < 2 ^ 64) :
    rd_be64 (fh_bytes abi info fseq32 ts len opts) 8 = ts := by
  cases h : abi.little_endian <;>
  simp [fh_bytes, host32, h, le32, be32, be16, be64, rd_be64, rd_be32, rd8, toByte_val] <;>
  omega

theorem fh_bytes_width (abi : Abi) (info : FrameInfo) (fseq32 ts len : Nat)
    (opts : SenderOptions) (hw : info.width < 2 ^ 16) :
    rd_be16 (fh_bytes abi info fseq32 ts len opts) 16 = info.width := by
  cases h : abi.little_endian <;>
  simp [fh_bytes, host32, h, le32, be32, be16, be64, rd_be16, rd8, toByte_val] <;> omega

theorem fh_bytes_height (abi : Abi) (info : FrameInfo) (fseq32 ts len : Nat)
    (opts : SenderOptions) (hh : info.height < 2 ^ 16) :
    rd_be16 (fh_bytes abi info fseq32 ts len opts) 18 = info.height := by
  cases h : abi.little_endian <;>
  simp [fh_bytes, host32, h, le32, be32, be16, be64, rd_be16, rd8, toByte_val] <;> omega

theorem fh_bytes_fsize (abi : Abi) (info : FrameInfo) (fseq32 ts len : Nat)
    (opts : SenderOptions) (hl : len < 2 ^ 28) :
    rd_be32 (fh_bytes abi info fseq32 ts len opts) 20 = len + encode_sample_format info.fmt := by
  have h0 : wrap32 len = len := by unfold wrap32; omega
  have h1 := field_or_eq len info.fmt hl
  have h2 := encode_sample_format_eq info.fmt
  have h3 : rd_be32 (fh_bytes abi info fseq32 ts len opts) 20
      = ((wrap32 len &&& 0x0FFFFFFF) ||| encode_sample_format info.fmt) % 2 ^ 32 := by
    cases h : abi.little_endian <;>
    simp [fh_bytes, host32, h, le32, be32, be16, be64, rd_be32, rd8, toByte_val] <;> omega
  rw [h3, h0, h1]
  omega

theorem fh_bytes_osize (abi : Abi) (info : FrameInfo) (fseq32 ts len : Nat)
    (opts : SenderOptions) :
    rd_host32 abi (fh_bytes abi info fseq32 ts len opts) 24 = 0 := by
  cases h : abi.little_endian <;>
  simp [fh_bytes, host32, h, le32, be32, be16, be64, rd_be32, rd_le32, rd_host32, rd8,
    toByte_val]

/-! ### The fragmentation loop -/

theorem lt_nchunks (len c k : Nat) (hc : 1 ≤ c) : k < nchunks len c ↔ k * c < len := by
  unfold nchunks
  rw [Nat.lt_iff_add_one_le, Nat.le_div_iff_mul_le (by omega), Nat.add_mul]
  omega

theorem nchunks_le (len c : Nat) (hc : 1 ≤ c) : nchunks len c ≤ len := by
  by_contra h
  have h1 := (lt_nchunks len c len hc).1 (by omega)
  have h2 : len * 1 ≤ len * c := Nat.mul_le_mul_left len hc
  omega

theorem slices_flatten (payload : List Byte) (c : Nat) (m : Nat) :
    ((List.range m).map
        (fun i => (payload.drop (i * c)).take (chunk_size payload.length c i))).flatten
      = payload.take (m * c) := by
  induction m with
  | zero => simp
  | succ m ih =>
    rw [List.range_succ, List.map_append, List.flatten_append, ih, Nat.add_mul, Nat.one_mul,
      List.take_add]
    simp only [List.map_cons, List.map_nil, List.flatten_cons, List.flatten_nil,
      List.append_nil]
    congr 1
    rw [List.take_eq_take]
    simp only [List.length_drop, chunk_size]
    omega

theorem slices_cover (payload : List Byte) (c : Nat) (hc : 1 ≤ c) :
    ((List.range (nchunks payload.length c)).map
        (fun i => (payload.drop (i * c)).take (chunk_size payload.length c i))).flatten
      = payload := by
  rw [slices_flatten]
  apply List.take_of_length_le
  have := (lt_nchunks payload.length c (nchunks payload.length c) hc)
  omega

theorem fd_loop_lossfree (abi : Abi) (info : FrameInfo) (fseq32 : Nat) (payload : List Byte)
    (opts : SenderOptions) (rolls : Nat → ℚ)
    (hc : 1 ≤ opts.fragment_payload) (hL : payload.length < 2 ^ 32)
    (hloss : opts.loss_percent = 0) (hdup : opts.duplicate_percent = 0)
    (hwin : opts.reorder_window = 0) (hrolls : ∀ i, 0 ≤ rolls i) :
    ∀ (fuel k : Nat) (pending : List (List Byte)),
      nchunks payload.length opts.fragment_payload - k ≤ fuel →
      k ≤ nchunks payload.length opts.fragment_payload →
      fd_loop abi info fseq32 payload opts rolls fuel
          (min (k * opts.fragment_payload) payload.length) k pending
        = some ((List.range' k (nchunks payload.length opts.fragment_payload - k)).map
            (fun i => { data := fd_packet abi info fseq32 payload opts i, is_fh := false }),
            pending) := by
  intro fuel
  induction fuel with
  | zero =>
    intro k pending hf hk
    have hkn : ¬ k < nchunks payload.length opts.fragment_payload := by omega
    rw [lt_nchunks _ _ _ hc] at hkn
    have h0 : nchunks payload.length opts.fragment_payload - k = 0 := by omega
    simp only [fd_loop, h0, List.range'_zero, List.map_nil]
    rw [if_neg (by omega)]
  | succ fuel ih =>
    intro k pending hf hk
    by_cases hkn : k < nchunks payload.length opts.fragment_payload
    · have hlt := (lt_nchunks _ _ _ hc).1 hkn
      have hmin : min (k * opts.fragment_payload) payload.length = k * opts.fragment_payload := by
        omega
      have hchunk : min opts.fragment_payload
          (wrap32 (payload.length - k * opts.fragment_payload))
          = chunk_size payload.length opts.fragment_payload k := by
        unfold wrap32 chunk_size; omega
      have hnext : wrap32 (k * opts.fragment_payload
            + chunk_size payload.length opts.fragment_payload k)
          = min ((k + 1) * opts.fragment_payload) payload.length := by
        unfold wrap32 chunk_size; rw [Nat.add_mul]; omega
      have hr : ¬ rolls k < 0 := not_lt.mpr (hrolls k)
      have hsplit : nchunks payload.length opts.fragment_payload - k
          = (nchunks payload.length opts.fragment_payload - (k + 1)) + 1 := by omega
      rw [hmin]
      simp only [fd_loop]
      rw [if_pos hlt]
      simp only [hchunk, hnext, hloss, hdup, hwin, double_add_zero, hr, if_false, lt_irrefl]
      rw [ih (k + 1) pending (by omega) (by omega), hsplit, List.range'_succ]
      simp [fd_packet]
    · rw [lt_nchunks _ _ _ hc] at hkn
      have h0 : nchunks payload.length opts.fragment_payload - k = 0 := by
        have := (lt_nchunks payload.length opts.fragment_payload k hc)
        omega
      simp only [fd_loop, h0, List.range'_zero, List.map_nil]
      rw [if_neg (by omega)]

theorem fd_loop_returns (abi : Abi) (info : FrameInfo) (fseq32 : Nat) (payload : List Byte)
    (opts : SenderOptions) (rolls : Nat → ℚ) (Q : List Byte → Prop)
    (hQ : ∀ offset chunk, Q (fd_bytes abi info fseq32 payload opts offset chunk))
    (hc : 1 ≤ opts.fragment_payload) (hL : payload.length < 2 ^ 32) :
    ∀ (fuel offset i : Nat) (pending : List (List Byte)),
      offset ≤ payload.length → payload.length - offset ≤ fuel → (∀ d ∈ pending, Q d) →
      ∃ ps q, fd_loop abi info fseq32 payload opts rolls fuel offset i pending = some (ps, q) ∧
        (∀ p ∈ ps, p.is_fh = false ∧ Q p.data) ∧ ∀ d ∈ q, Q d := by
  intro fuel
  induction fuel with
  | zero =>
    intro offset i pending ho hf hp
    refine ⟨[], pending, ?_, by simp, hp⟩
    simp only [fd_loop]
    rw [if_neg (by omega)]
  | succ fuel ih =>
    intro offset i pending ho hf hp
    by_cases hlt : offset < payload.length
    · have hchunk : 1 ≤ min opts.fragment_payload (wrap32 (payload.length - offset)) := by
        unfold wrap32; omega
      have hle : min opts.fragment_payload (wrap32 (payload.length - offset))
          ≤ payload.length - offset := by
        unfold wrap32; omega
      have hnext : wrap32 (offset + min opts.fragment_payload (wrap32 (payload.length - offset)))
          = offset + min opts.fragment_payload (wrap32 (payload.length - offset)) := by
        unfold wrap32 at hle ⊢; omega
      simp only [fd_loop]
      rw [if_pos hlt, hnext]
      generalize hck : min opts.fragment_payload (wrap32 (payload.length - offset)) = chunk
        at hchunk hle
      by_cases hroll : rolls i < opts.loss_percent
      · rw [if_pos hroll]
        exact ih (offset + chunk) (i + 1) pending (by omega) (by omega) hp
      · rw [if_neg hroll]
        have hpk := hQ offset chunk
        by_cases hw : opts.reorder_window > 0
        · simp only [hw, if_true]
          by_cases hq : (pending ++ [fd_bytes abi info fseq32 payload opts offset chunk]).length
              > opts.reorder_window
          · simp only [hq, if_true]
            have hall : ∀ d ∈ pending ++ [fd_bytes abi info fseq32 payload opts offset chunk],
                Q d := by
              intro d hd
              rcases List.mem_append.1 hd with h | h
              · exact hp d h
              · simp only [List.mem_singleton] at h; subst h; exact hpk
            obtain ⟨ps, q, he, h1, h2⟩ := ih (offset + chunk) (i + 1)
              (pending ++ [fd_bytes abi info fseq32 payload opts offset chunk]).tail
              (by omega) (by omega) (fun d hd => hall d (List.mem_of_mem_tail hd))
            refine ⟨_, q, by rw [he], ?_, h2⟩
            intro p hp1
            simp only [List.mem_append, List.mem_singleton] at hp1
            rcases hp1 with (h | h) | h
            · split_ifs at h with hd
              · simp only [List.mem_singleton] at h; subst h; exact ⟨rfl, hpk⟩
              · simp at h
            · subst h
              refine ⟨rfl, ?_⟩
              cases hpd : pending with
              | nil => simpa using hpk
              | cons a t => simpa using hp a (by simp [hpd])
            · exact h1 p h
          · simp only [hq, if_false]
            have hall : ∀ d ∈ pending ++ [fd_bytes abi info fseq32 payload opts offset chunk],
                Q d := by
              intro d hd
              rcases List.mem_append.1 hd with h | h
              · exact hp d h
              · simp only [List.mem_singleton] at h; subst h; exact hpk
            obtain ⟨ps, q, he, h1, h2⟩ := ih (offset + chunk) (i + 1)
              (pending ++ [fd_bytes abi info fseq32 payload opts offset chunk])
              (by omega) (by omega) hall
            refine ⟨_, q, by rw [he], ?_, h2⟩
            intro p hp1
            simp only [List.mem_append, List.append_nil] at hp1
            rcases hp1 with h | h
            · split_ifs at h with hd
              · simp only [List.mem_singleton] at h; subst h; exact ⟨rfl, hpk⟩
              · simp at h
            · exact h1 p h
        · simp only [hw, if_false]
          obtain ⟨ps, q, he, h1, h2⟩ := ih (offset + chunk) (i + 1) pending
            (by omega) (by omega) hp
          refine ⟨_, q, by rw [he], ?_, h2⟩
          intro p hp1
          simp only [List.mem_append, List.mem_singleton] at hp1
          rcases hp1 with (h | h) | h
          · split_ifs at h with hd
            · simp only [List.mem_singleton] at h; subst h; exact ⟨rfl, hpk⟩
            · simp at h
          · subst h; exact ⟨rfl, hpk⟩
          · exact h1 p h
    · refine ⟨[], pending, ?_, by simp, hp⟩
      simp only [fd_loop]
      rw [if_neg hlt]


theorem ex_typed : InputsTyped ex_info 2 77 ex_opts :=
  ⟨by decide, by decide, by decide, by decide, by decide, by decide⟩

theorem ex_rolls_in_range : RollsInRange ex_rolls :=
  fun _ => ⟨le_refl _, by norm_num [ex_rolls]⟩

/-- The loss-free fragmentation: the FH followed by the FD datagrams in offset
order, the reorder buffer untouched. -/
theorem fragment_frame_lossfree (abi : Abi) (info : FrameInfo) (fseq32 ts : Nat)
    (payload : List Byte) (opts : SenderOptions) (rolls : Nat → ℚ) (reorder : ReorderBuffer)
    (hpos : 0 < payload.length) (hmax : payload.length ≤ kMaxFrameBytes)
    (hc : 1 ≤ opts.fragment_payload)
    (hloss : opts.loss_percent = 0) (hdup : opts.duplicate_percent = 0)
    (hwin : opts.reorder_window = 0) (hrolls : RollsInRange rolls) :
    fragment_frame abi info fseq32 ts payload opts rolls reorder
      = some ({ data := fh_bytes abi info fseq32 ts payload.length opts, is_fh := true } ::
          (fd_packets abi info fseq32 payload opts).map
            (fun d => { data := d, is_fh := false }), reorder) := by
  have hL : payload.length < 2 ^ 32 := by unfold kMaxFrameBytes at hmax; omega
  have h := fd_loop_lossfree abi info fseq32 payload opts rolls hc hL hloss hdup hwin
    (fun i => (hrolls i).1) payload.length 0 reorder.pending
    (by have := nchunks_le payload.length opts.fragment_payload hc; omega) (by omega)
  simp only [Nat.zero_mul, Nat.zero_min, Nat.sub_zero] at h
  unfold fragment_frame
  rw [if_neg (by omega), h]
  simp [hwin, fd_packets, List.range_eq_range']

/-- C10 (fragmenter slicing).  For a non-empty payload of at most 32 MiB and
`fragment_payload = c ≥ 1`, with no loss, duplication or reordering,
`fragment_frame` returns the FH followed by exactly `ceil(payload_size / c)` FD
packets; the `i`-th has offset field `i*c`, size field
`min(c, payload_size - i*c)`, total length FD header size plus that size, and
carries the payload bytes of that range; the data parts concatenated in order
are the payload, so the ranges are disjoint, contiguous and cover it. -/
theorem fragment_frame_slicing (abi : Abi) (info : FrameInfo) (fseq32 ts : Nat)
    (payload : List Byte) (opts : SenderOptions) (rolls : Nat → ℚ) (reorder : ReorderBuffer)
    (hty : InputsTyped info fseq32 ts opts)
    (hpos : 0 < payload.length) (hmax : payload.length ≤ kMaxFrameBytes)
    (hc : 1 ≤ opts.fragment_payload)
    (hloss : opts.loss_percent = 0) (hdup : opts.duplicate_percent = 0)
    (hwin : opts.reorder_window = 0) (hrolls : RollsInRange rolls) :
    ∃ fh fds, fragment_frame abi info fseq32 ts payload opts rolls reorder
        = some (fh :: fds, reorder) ∧
      fh.is_fh = true ∧
      fds.length = (payload.length + opts.fragment_payload - 1) / opts.fragment_payload ∧
      (∀ i (hi : i < fds.length),
        fds[i].is_fh = false ∧
        rd_be32 fds[i].data 12 &&& 0x0FFFFFFF = i * opts.fragment_payload ∧
        rd_be16 fds[i].data 6
          = min opts.fragment_payload (payload.length - i * opts.fragment_payload) ∧
        fds[i].data.length = kFdHeaderSize
          + min opts.fragment_payload (payload.length - i * opts.fragment_payload) ∧
        fds[i].data.drop kFdHeaderSize
          = (payload.drop (i * opts.fragment_payload)).take
              (min opts.fragment_payload (payload.length - i * opts.fragment_payload))) ∧
      (fds.map (fun p => p.data.drop kFdHeaderSize)).flatten = payload := by
  refine ⟨_, _, fragment_frame_lossfree abi info fseq32 ts payload opts rolls reorder hpos hmax
    hc hloss hdup hwin hrolls, rfl, ?_, ?_, ?_⟩
  · simp [fd_packets, nchunks]
  · intro i hi
    have hi1 : i < nchunks payload.length opts.fragment_payload := by
      simpa [fd_packets] using hi
    have hlt := (lt_nchunks _ _ _ hc).1 hi1
    have hoff : i * opts.fragment_payload < 2 ^ 28 := by
      unfold kMaxFrameBytes at hmax; omega
    have hsz : chunk_size payload.length opts.fragment_payload i < 2 ^ 16 := by
      have := hty.frag_lt; unfold chunk_size; omega
    have hget : ((fd_packets abi info fseq32 payload opts).map
        (fun d => ({ data := d, is_fh := false } : FramePacket)))[i]
        = { data := fd_packet abi info fseq32 payload opts i, is_fh := false } := by
      simp [fd_packets]
    rw [hget]
    refine ⟨rfl, ?_, ?_, ?_, ?_⟩
    · have := field_low _ info.fmt hoff
      unfold offset_from_offs at this
      simp only [fd_packet]
      rw [fd_bytes_offs _ _ _ _ _ _ _ hoff]
      exact this
    · simp only [fd_packet]
      rw [fd_bytes_size _ _ _ _ _ _ _ hsz]
      rfl
    · simp only [fd_packet]
      rw [fd_bytes_length]
      unfold chunk_size
      omega
    · simp only [fd_packet]
      rw [fd_bytes_data]
      rfl
  · have h := slices_cover payload opts.fragment_payload hc
    refine Eq.trans ?_ h
    simp only [fd_packets, List.map_map]
    congr 1
    apply List.map_congr_left
    intro i _
    simp [fd_packet, fd_bytes_data]

/-- Witness of C10: the 64-byte frame of the reorder test in 12-byte
fragments gives six FD packets. -/
theorem fragment_frame_slicing_witness :
    ∃ fh fds, fragment_frame ex_abi ex_info 2 77 ex_payload ex_opts ex_rolls ex_reorder
        = some (fh :: fds, ex_reorder) ∧ fds.length = 6 ∧
      (fds.map (fun p => p.data.drop kFdHeaderSize)).flatten = ex_payload := by
  obtain ⟨fh, fds, h, _, hl, _, hj⟩ := fragment_frame_slicing ex_abi ex_info 2 77 ex_payload
    ex_opts ex_rolls ex_reorder ex_typed (by decide) (by decide) (by decide) rfl rfl rfl
    ex_rolls_in_range
  exact ⟨fh, fds, h, by rw [hl]; decide, hj⟩

/-- C9 (fragmenter FH packet).  For a non-empty payload of at most 32 MiB and
every setting of loss, duplication and reorder window (reorder buffer empty on
entry, `fragment_payload ≥ 1` so that the loop terminates), `fragment_frame`
returns, its first packet is the frame header, of exactly the FH header size,
and decodes (the `lid` word read as the receiver reads it) to the type bit set,
`flow_id = opts.flow_id & 0x7FFFFFFF`, `fseq = fseq32`, `ts = timestamp_us`,
`x_dim`/`y_dim` the frame dimensions, `fsize` low 28 bits the payload size and
top nibble `encode_sample_format(info.fmt)`, `osize = 0`; no other returned
packet is an FH. -/
theorem fragment_frame_fh_first (abi : Abi) (info : FrameInfo) (fseq32 ts : Nat)
    (payload : List Byte) (opts : SenderOptions) (rolls : Nat → ℚ) (reorder : ReorderBuffer)
    (hty : InputsTyped info fseq32 ts opts)
    (hpos : 0 < payload.length) (hmax : payload.length ≤ kMaxFrameBytes)
    (hc : 1 ≤ opts.fragment_payload) (hempty : reorder.pending = []) :
    ∃ fh rest reorder1, fragment_frame abi info fseq32 ts payload opts rolls reorder
        = some (fh :: rest, reorder1) ∧
      fh.is_fh = true ∧
      fh.data.length = kFhHeaderSize ∧
      rd_host32 abi fh.data 0 &&& LID_TYPE ≠ 0 ∧
      rd_host32 abi fh.data 0 &&& 0x7FFFFFFF = opts.flow_id &&& 0x7FFFFFFF ∧
      rd_be32 fh.data 4 = fseq32 ∧
      rd_be64 fh.data 8 = ts ∧
      rd_be16 fh.data 16 = info.width ∧
      rd_be16 fh.data 18 = info.height ∧
      rd_be32 fh.data 20 &&& 0x0FFFFFFF = payload.length ∧
      rd_be32 fh.data 20 &&& 0xF0000000 = encode_sample_format info.fmt ∧
      rd_host32 abi fh.data 24 = 0 ∧
      ∀ p ∈ rest, p.is_fh = false ∧ rd_host32 abi p.data 0 &&& LID_TYPE = 0 := by
  have hL : payload.length < 2 ^ 32 := by unfold kMaxFrameBytes at hmax; omega
  have hL28 : payload.length < 2 ^ 28 := by unfold kMaxFrameBytes at hmax; omega
  have hQ : ∀ offset chunk,
      rd_host32 abi (fd_bytes abi info fseq32 payload opts offset chunk) 0 &&& LID_TYPE = 0 := by
    intro offset chunk
    rw [fd_bytes_lid, LID_TYPE, and_type_bit]
    omega
  obtain ⟨ps, q, hloop, hps, hq⟩ := fd_loop_returns abi info fseq32 payload opts rolls
    (fun d => rd_host32 abi d 0 &&& LID_TYPE = 0) hQ hc hL payload.length 0 0 reorder.pending
    (by omega) (by omega) (by simp [hempty])
  have hfields : 
      (fh_bytes abi info fseq32 ts payload.length opts).length = kFhHeaderSize ∧
      rd_host32 abi (fh_bytes abi info fseq32 ts payload.length opts) 0 &&& LID_TYPE ≠ 0 ∧
      rd_host32 abi (fh_bytes abi info fseq32 ts payload.length opts) 0 &&& 0x7FFFFFFF
        = opts.flow_id &&& 0x7FFFFFFF ∧
      rd_be32 (fh_bytes abi info fseq32 ts payload.length opts) 4 = fseq32 ∧
      rd_be64 (fh_bytes abi info fseq32 ts payload.length opts) 8 = ts ∧
      rd_be16 (fh_bytes abi info fseq32 ts payload.length opts) 16 = info.width ∧
      rd_be16 (fh_bytes abi info fseq32 ts payload.length opts) 18 = info.height ∧
      rd_be32 (fh_bytes abi info fseq32 ts payload.length opts) 20 &&& 0x0FFFFFFF
        = payload.length ∧
      rd_be32 (fh_bytes abi info fseq32 ts payload.length opts) 20 &&& 0xF0000000
        = encode_sample_format info.fmt ∧
      rd_host32 abi (fh_bytes abi info fseq32 ts payload.length opts) 24 = 0 := by
    refine ⟨fh_bytes_length _ _ _ _ _ _, ?_, ?_, fh_bytes_fseq _ _ _ _ _ _ hty.fseq_lt,
      fh_bytes_ts _ _ _ _ _ _ hty.ts_lt, fh_bytes_width _ _ _ _ _ _ hty.width_lt,
      fh_bytes_height _ _ _ _ _ _ hty.height_lt, ?_, ?_, fh_bytes_osize _ _ _ _ _ _⟩
    · rw [fh_bytes_lid, LID_TYPE, and_type_bit]; omega
    · rw [fh_bytes_lid, and_low31, and_low31]; omega
    · rw [fh_bytes_fsize _ _ _ _ _ _ hL28]
      exact field_low _ _ hL28
    · rw [fh_bytes_fsize _ _ _ _ _ _ hL28]
      exact field_high _ _ hL28
  unfold fragment_frame
  rw [if_neg (by omega), hloop]
  by_cases hw : opts.reorder_window > 0
  · simp only [hw, if_true]
    refine ⟨_, _, _, rfl, rfl, ?_⟩
    obtain ⟨h1, h2, h3, h4, h5, h6, h7, h8, h9, h10⟩ := hfields
    refine ⟨h1, h2, h3, h4, h5, h6, h7, h8, h9, h10, ?_⟩
    intro p hp
    rcases List.mem_append.1 hp with h | h
    · exact hps p h
    · obtain ⟨d, hd, rfl⟩ := List.mem_map.1 h
      exact ⟨rfl, hq d hd⟩
  · simp only [hw, if_false]
    refine ⟨_, _, _, rfl, rfl, ?_⟩
    obtain ⟨h1, h2, h3, h4, h5, h6, h7, h8, h9, h10⟩ := hfields
    exact ⟨h1, h2, h3, h4, h5, h6, h7, h8, h9, h10, hps⟩


/-- Witness of C9: the frame of the reorder test sent with 25 % loss, 50 %
duplication and a reorder window of 3. -/
theorem fragment_frame_fh_first_witness :
    ∃ fh rest reorder1,
      fragment_frame ex_abi ex_info 2 77 ex_payload
        { ex_opts with loss_percent := 25, duplicate_percent := 50, reorder_window := 3 }
        ex_rolls ex_reorder = some (fh :: rest, reorder1) ∧
      fh.is_fh = true ∧ fh.data.length = 28 ∧ rd_be32 fh.data 4 = 2 ∧
      rd_be64 fh.data 8 = 77 ∧ ∀ p ∈ rest, p.is_fh = false := by
  obtain ⟨fh, rest, r1, h, h1, h2, _, _, h5, h6, _, _, _, _, _, h12⟩ :=
    fragment_frame_fh_first ex_abi ex_info 2 77 ex_payload
      { ex_opts with loss_percent := 25, duplicate_percent := 50, reorder_window := 3 }
      ex_rolls ex_reorder
      ⟨by decide, by decide, by decide, by decide, by decide, by decide⟩
      (by decide) (by decide) (by decide) rfl
  exact ⟨fh, rest, r1, h, h1, h2, h5, h6, fun p hp => (h12 p hp).1⟩

/-! ### The reassembler, one datagram at a time -/

/-- The function `handle_fd` is its length checks followed by its three phases. -/
theorem handle_fd_eq (abi : Abi) (now : Nat) (r : FrameReassembler) (packet : List Byte) :
    handle_fd abi now r packet =
      if packet.length < kFdHeaderSize then (r, none)
      else if kFdHeaderSize + rd_be16 packet 6 > packet.length then (r, none)
      else
        fd_commit now (fd_stats r (rd_be16 packet 6)) r.frames_
          ((packet.drop kFdHeaderSize).take (rd_be16 packet 6))
          (offset_from_offs (rd_be32 packet 12)) (rd_be16 packet 6)
          (sample_format_from_bits abi (rd_be32 packet 12)) (rd_be16 packet 8)
          (rd_be16 packet 10) (bayer_from_flag (rd8 packet 4))
          (fd_locate abi r.frames_ (rd8 packet 5) (rd_host32 abi packet 0 &&& 0x7FFFFFFF)
            (rd_be16 packet 8) (rd_be16 packet 10)
            (sample_format_from_bits abi (rd_be32 packet 12))) := by
  unfold handle_fd
  by_cases h1 : packet.length < kFdHeaderSize
  · rw [if_pos h1, if_pos h1]
  · rw [if_neg h1, if_neg h1]
    by_cases h2 : kFdHeaderSize + rd_be16 packet 6 > packet.length
    · simp only [h2, if_true]
    · simp only [h2, if_false]
      rfl
theorem bayer_roundtrip (p : BayerPattern) : bayer_from_flag (bayer_flag p) = p := by
  cases p <;> rfl

/-- What `handle_fd` decodes from an FD datagram of the fragmenter. -/
theorem handle_fd_fd_bytes (abi : Abi) (hw : abi.WF) (info : FrameInfo) (fseq32 ts : Nat)
    (payload : List Byte) (opts : SenderOptions) (hty : InputsTyped info fseq32 ts opts)
    (hfmt : info.fmt ∈ abi.formats) (offset chunk : Nat)
    (ho : offset < 2 ^ 28) (hck : chunk < 2 ^ 16) (hin : offset + chunk ≤ payload.length)
    (now : Nat) (r : FrameReassembler) :
    handle_fd abi now r (fd_bytes abi info fseq32 payload opts offset chunk)
      = fd_commit now (fd_stats r chunk) r.frames_ ((payload.drop offset).take chunk)
          offset chunk info.fmt info.width info.height info.pattern
          (fd_locate abi r.frames_ (fseq32 % 256) (opts.flow_id % 2 ^ 31) info.width
            info.height info.fmt) := by
  have hlen := fd_bytes_length abi info fseq32 payload opts offset chunk
  have hmin : min chunk (payload.length - offset) = chunk := by omega
  rw [hmin] at hlen
  have hfmt1 := sample_format_roundtrip abi hw offset info.fmt ho hfmt
  rw [handle_fd_eq, hlen, fd_bytes_size _ _ _ _ _ _ _ hck, if_neg (by omega), if_neg (by omega),
    fd_bytes_width _ _ _ _ _ _ _ hty.width_lt, fd_bytes_height _ _ _ _ _ _ _ hty.height_lt,
    fd_bytes_flags, fd_bytes_fseq, fd_bytes_offs _ _ _ _ _ _ _ ho, fd_bytes_lid, fd_bytes_data,
    field_low _ _ ho, hfmt1, bayer_roundtrip, and_low31, Nat.mod_mod, List.take_take,
    Nat.min_self]

/-- One FD of the frame arriving at a table that holds only the frame's
pending entry, or at an empty table (the entry is then synthesized). -/
theorem handle_fd_match (abi : Abi) (hw : abi.WF) (info : FrameInfo) (fseq32 ts : Nat)
    (payload : List Byte) (opts : SenderOptions) (hty : InputsTyped info fseq32 ts opts)
    (hfmt : info.fmt ∈ abi.formats) (offset chunk : Nat)
    (ho : offset < 2 ^ 28) (hck : chunk < 2 ^ 16) (hin : offset + chunk ≤ payload.length)
    (now : Nat) (st : FrameStats) (tbl : List (Nat × PendingFrame)) (pf : PendingFrame)
    (htbl : tbl = [(pf.fseq32, pf)] ∨ (tbl = [] ∧ pf = synth_pending abi info fseq32 opts))
    (h8 : pf.fseq8 = fseq32 % 256) (hflow : pf.info.flow_id = opts.flow_id % 2 ^ 31)
    (hfit : offset + chunk ≤ pf.data.length) (hrb : pf.received_bytes + chunk < 2 ^ 64)
    (hexp : 0 < pf.expected) (hcap : pf.expected ≤ kMaxFrameBytes) :
    ∃ st1, handle_fd abi now { frames_ := tbl, stats_ := st }
        (fd_bytes abi info fseq32 payload opts offset chunk)
      = if pf.expected ≤ pf.received_bytes + chunk then
          ({ frames_ := [], stats_ := st1 },
           some { info := (fd_write pf info offset ((payload.drop offset).take chunk)).info
                  fseq32 := pf.fseq32
                  timestamp := if pf.ts ≠ 0 then pf.ts else now
                  payload := (fd_write pf info offset ((payload.drop offset).take chunk)).data })
        else
          ({ frames_ := [(pf.fseq32, fd_write pf info offset ((payload.drop offset).take chunk))],
             stats_ := st1 }, none) := by
  have hsrc : ((payload.drop offset).take chunk).length = chunk := by
    simp only [List.length_take, List.length_drop]; omega
  have hwrap : wrap64 (pf.received_bytes + chunk) = pf.received_bytes + chunk := by
    unfold wrap64; omega
  have hloc : fd_locate abi tbl (fseq32 % 256) (opts.flow_id % 2 ^ 31) info.width
      info.height info.fmt = some ([], (pf.fseq32, pf), []) := by
    rcases htbl with h | ⟨h, hpf⟩
    · subst h
      simp [fd_locate, split_first, h8, hflow]
    · subst h
      have he : info.width * info.height * bytes_per_pixel abi info.fmt = pf.expected := by
        rw [hpf]; rfl
      simp only [fd_locate, split_first, he]
      rw [if_neg (by omega), hpf]
      rfl
  rw [handle_fd_fd_bytes abi hw info fseq32 ts payload opts hty hfmt offset chunk ho hck hin,
    hloc]
  simp only [fd_commit, hwrap, List.nil_append]
  rw [if_neg (by omega)]
  by_cases hdone : pf.expected ≤ pf.received_bytes + chunk
  · apply Exists.intro
    rw [if_pos hdone, if_pos (by simp [hexp, hdone])]
    simp only [fd_write, hsrc, map_erase]
    simp only [List.filter, beq_self_eq_true, Bool.not_true]
    rfl
  · apply Exists.intro
    rw [if_neg hdone, if_neg (by simp [hexp, hdone])]
    simp only [fd_write, hsrc]
    rfl

theorem chunk_facts (len c i : Nat) (hc : 1 ≤ c) (hi : i < nchunks len c) :
    1 ≤ chunk_size len c i ∧ i * c + chunk_size len c i ≤ len ∧ chunk_size len c i ≤ c := by
  have := (lt_nchunks len c i hc).1 hi
  unfold chunk_size
  omega

theorem memcpy_at_length (data src : List Byte) (offset : Nat)
    (h : offset + src.length ≤ data.length) :
    (memcpy_at data offset src).length = data.length := by
  simp only [memcpy_at, List.length_append, List.length_take, List.length_drop]
  omega

theorem fd_slice_length (payload : List Byte) (c i : Nat) (hc : 1 ≤ c)
    (hi : i < nchunks payload.length c) :
    (fd_slice payload c i).length = chunk_size payload.length c i := by
  have := chunk_facts payload.length c i hc hi
  simp only [fd_slice, List.length_take, List.length_drop]
  omega

/-- An FD datagram of the fragmenter is routed by `ingest` to `handle_fd`. -/
theorem ingest_fd_bytes (abi : Abi) (info : FrameInfo) (fseq32 : Nat) (payload : List Byte)
    (opts : SenderOptions) (offset chunk now : Nat) (r : FrameReassembler) :
    ingest abi now r (fd_bytes abi info fseq32 payload opts offset chunk)
      = ((handle_fd abi now r (fd_bytes abi info fseq32 payload opts offset chunk)).1,
         (handle_fd abi now r (fd_bytes abi info fseq32 payload opts offset chunk)).2.toList) := by
  have hlen := fd_bytes_length abi info fseq32 payload opts offset chunk
  have hbit : rd_host32 abi (fd_bytes abi info fseq32 payload opts offset chunk) 0 &&& LID_TYPE
      = 0 := by
    rw [fd_bytes_lid, LID_TYPE, and_type_bit]; omega
  unfold ingest
  rw [if_neg (by rw [hlen]; unfold kFdHeaderSize; omega)]
  simp only [hbit, ne_eq, not_true_eq_false, if_false]
  rcases handle_fd abi now r (fd_bytes abi info fseq32 payload opts offset chunk) with ⟨r1, o⟩
  cases o <;> rfl

/-- Feeding FDs of one frame, each at most needed once, to a table that holds
only the frame's pending entry (or is empty, the entry being synthesized by
the first FD): nothing is emitted while the byte count stays below the payload
size, and the frame is emitted by the FD that makes the count reach it. -/
theorem ingest_all_fds (abi : Abi) (hw : abi.WF) (info : FrameInfo) (fseq32 ts : Nat)
    (payload : List Byte) (opts : SenderOptions) (hty : InputsTyped info fseq32 ts opts)
    (hfmt : info.fmt ∈ abi.formats) (hmax : payload.length ≤ kMaxFrameBytes)
    (hc : 1 ≤ opts.fragment_payload) (clock : Nat → Nat) :
    ∀ (idx : List Nat) (k : Nat) (st : FrameStats) (tbl : List (Nat × PendingFrame))
      (pf : PendingFrame),
      (∀ i ∈ idx, i < nchunks payload.length opts.fragment_payload) →
      (tbl = [(pf.fseq32, pf)] ∨
        (idx ≠ [] ∧ tbl = [] ∧ pf = synth_pending abi info fseq32 opts)) →
      Tracks pf fseq32 opts.flow_id payload.length →
      pf.received_bytes < payload.length →
      pf.received_bytes + bytes_of payload.length opts.fragment_payload idx ≤ payload.length →
      ∃ st1 t,
        ingest_all abi clock k { frames_ := tbl, stats_ := st }
            (idx.map (fd_packet abi info fseq32 payload opts))
          = if pf.received_bytes + bytes_of payload.length opts.fragment_payload idx
                < payload.length then
              ({ frames_ := [(pf.fseq32, write_all info payload opts.fragment_payload pf idx)],
                 stats_ := st1 }, [])
            else
              ({ frames_ := [], stats_ := st1 },
               [{ info := (write_all info payload opts.fragment_payload pf idx).info
                  fseq32 := pf.fseq32
                  timestamp := if pf.ts ≠ 0 then pf.ts else t
                  payload := (write_all info payload opts.fragment_payload pf idx).data }]) := by
  intro idx
  induction idx with
  | nil =>
    intro k st tbl pf _ htbl _ hR _
    rcases htbl with h | ⟨h, _⟩
    · subst h
      refine ⟨st, 0, ?_⟩
      simp [ingest_all, bytes_of, write_all, hR]
    · exact absurd rfl h
  | cons i rest ih =>
    intro k st tbl pf hidx htbl htr hR hsum
    have hi : i < nchunks payload.length opts.fragment_payload := hidx i (by simp)
    obtain ⟨hc1, hc2, hc3⟩ := chunk_facts payload.length opts.fragment_payload i hc hi
    have hfr := hty.frag_lt
    have hbo : bytes_of payload.length opts.fragment_payload (i :: rest)
        = chunk_size payload.length opts.fragment_payload i
          + bytes_of payload.length opts.fragment_payload rest := by
      simp [bytes_of]
    rw [hbo] at hsum ⊢
    have hmax1 : payload.length ≤ 2 ^ 25 := by unfold kMaxFrameBytes at hmax; omega
    have htbl1 : tbl = [(pf.fseq32, pf)] ∨
        (tbl = [] ∧ pf = synth_pending abi info fseq32 opts) := by
      rcases htbl with h | ⟨_, h1, h2⟩
      · exact Or.inl h
      · exact Or.inr ⟨h1, h2⟩
    obtain ⟨st1, hstep⟩ := handle_fd_match abi hw info fseq32 ts payload opts hty hfmt
      (i * opts.fragment_payload) (chunk_size payload.length opts.fragment_payload i)
      (by omega) (by omega) hc2 (clock k) st tbl pf htbl1 htr.fseq8_eq htr.flow_eq
      (by rw [htr.data_len]; exact hc2) (by omega) (by rw [htr.expected_eq]; omega)
      (by rw [htr.expected_eq]; exact hmax)
    simp only [List.map_cons, ingest_all]
    rw [show fd_packet abi info fseq32 payload opts i
        = fd_bytes abi info fseq32 payload opts (i * opts.fragment_payload)
            (chunk_size payload.length opts.fragment_payload i) from rfl,
      ingest_fd_bytes, hstep, htr.expected_eq]
    by_cases hdone : payload.length
        ≤ pf.received_bytes + chunk_size payload.length opts.fragment_payload i
    · -- the frame completes here: nothing can follow
      have hrest : rest = [] := by
        cases rest with
        | nil => rfl
        | cons j t =>
          exfalso
          have hj := hidx j (by simp)
          have := (chunk_facts payload.length opts.fragment_payload j hc hj).1
          simp only [bytes_of, List.map_cons, List.sum_cons] at hsum
          omega
      subst hrest
      refine ⟨st1, clock k, ?_⟩
      rw [if_pos hdone]
      have hb0 : bytes_of payload.length opts.fragment_payload [] = 0 := rfl
      simp only [hb0, Nat.add_zero]
      rw [if_neg (not_lt.mpr hdone)]
      simp [ingest_all, write_all, fd_slice]
    · rw [if_neg hdone]
      have htr1 : Tracks (fd_write pf info (i * opts.fragment_payload)
          (fd_slice payload opts.fragment_payload i)) fseq32 opts.flow_id payload.length := by
        refine ⟨htr.fseq8_eq, htr.flow_eq, ?_, htr.expected_eq⟩
        simp only [fd_write]
        rw [memcpy_at_length _ _ _ (by
          rw [fd_slice_length _ _ _ hc hi, htr.data_len]; exact hc2), htr.data_len]
      have hslen := fd_slice_length payload opts.fragment_payload i hc hi
      obtain ⟨st2, t, hrec⟩ := ih (k + 1) st1
        [(pf.fseq32, fd_write pf info (i * opts.fragment_payload)
          (fd_slice payload opts.fragment_payload i))]
        (fd_write pf info (i * opts.fragment_payload) (fd_slice payload opts.fragment_payload i))
        (fun j hj => hidx j (by simp [hj])) (Or.inl rfl) htr1
        (by simp only [fd_write]; omega) (by simp only [fd_write]; omega)
      refine ⟨st2, t, ?_⟩
      have hfs : (fd_write pf info (i * opts.fragment_payload)
          (fd_slice payload opts.fragment_payload i)).fseq32 = pf.fseq32 := rfl
      have hts : (fd_write pf info (i * opts.fragment_payload)
          (fd_slice payload opts.fragment_payload i)).ts = pf.ts := rfl
      have hrb : (fd_write pf info (i * opts.fragment_payload)
          (fd_slice payload opts.fragment_payload i)).received_bytes
          = pf.received_bytes + chunk_size payload.length opts.fragment_payload i := by
        simp only [fd_write, hslen]
      rw [hfs, hts, hrb] at hrec
      simp only [Option.toList, List.nil_append]
      rw [show (List.take (chunk_size payload.length opts.fragment_payload i)
            (List.drop (i * opts.fragment_payload) payload))
          = fd_slice payload opts.fragment_payload i from rfl, hrec]
      simp only [write_all, List.foldl_cons, Nat.add_assoc]

/-! ### The buffer and the byte count after a selection of FDs -/

theorem write_all_info (info : FrameInfo) (payload : List Byte) (c : Nat) :
    ∀ (idx : List Nat) (pf : PendingFrame), idx ≠ [] →
      (write_all info payload c pf idx).info
        = { pf.info with fmt := info.fmt, width := info.width, height := info.height,
                         pattern := info.pattern } := by
  intro idx
  induction idx with
  | nil => intro pf h; exact absurd rfl h
  | cons i rest ih =>
    intro pf _
    cases rest with
    | nil => rfl
    | cons j t =>
      have := ih (fd_write pf info (i * c) (fd_slice payload c i)) (by simp)
      simp only [write_all, List.foldl_cons] at this ⊢
      rw [this]
      rfl

theorem memcpy_at_getElem? (data src : List Byte) (offset j : Nat)
    (h : offset + src.length ≤ data.length) :
    (memcpy_at data offset src)[j]?
      = if offset ≤ j ∧ j < offset + src.length then src[j - offset]? else data[j]? := by
  unfold memcpy_at
  have ht : (data.take offset).length = offset := by
    rw [List.length_take]; omega
  by_cases h1 : j < offset
  · rw [if_neg (by omega), List.append_assoc, List.getElem?_append_left (by omega),
      List.getElem?_take]
    simp [h1]
  · by_cases h2 : j < offset + src.length
    · rw [if_pos ⟨by omega, h2⟩, List.append_assoc, List.getElem?_append_right (by omega), ht,
        List.getElem?_append_left (by omega)]
    · rw [if_neg (by omega), List.getElem?_append_right (by
        rw [List.length_append, ht]; omega), List.length_append, ht, List.getElem?_drop]
      congr 1
      omega

theorem fd_slice_getElem? (payload : List Byte) (c i j : Nat)
    (h1 : i * c ≤ j) (h2 : j < i * c + chunk_size payload.length c i) :
    (fd_slice payload c i)[j - i * c]? = payload[j]? := by
  unfold fd_slice
  rw [List.getElem?_take, if_pos (by omega), List.getElem?_drop]
  congr 1
  omega

/-- Writes keep, and extend, the agreement of the buffer with the payload. -/
theorem write_all_agrees (info : FrameInfo) (payload : List Byte) (c : Nat) (hc : 1 ≤ c) :
    ∀ (idx : List Nat) (pf : PendingFrame),
      (∀ i ∈ idx, i < nchunks payload.length c) →
      pf.data.length = payload.length →
      (write_all info payload c pf idx).data.length = payload.length ∧
      ∀ j, (pf.data[j]? = payload[j]? ∨
            ∃ i ∈ idx, i * c ≤ j ∧ j < i * c + chunk_size payload.length c i) →
        (write_all info payload c pf idx).data[j]? = payload[j]? := by
  intro idx
  induction idx with
  | nil =>
    intro pf _ hlen
    refine ⟨hlen, ?_⟩
    intro j hj
    rcases hj with h | ⟨i, hi, _⟩
    · exact h
    · simp at hi
  | cons i rest ih =>
    intro pf hidx hlen
    have hi : i < nchunks payload.length c := hidx i (by simp)
    obtain ⟨hc1, hc2, hc3⟩ := chunk_facts payload.length c i hc hi
    have hsl := fd_slice_length payload c i hc hi
    have hfit : i * c + (fd_slice payload c i).length ≤ pf.data.length := by
      rw [hsl, hlen]; exact hc2
    have hlen1 : (fd_write pf info (i * c) (fd_slice payload c i)).data.length
        = payload.length := by
      simp only [fd_write]
      rw [memcpy_at_length _ _ _ hfit, hlen]
    obtain ⟨h1, h2⟩ := ih (fd_write pf info (i * c) (fd_slice payload c i))
      (fun j hj => hidx j (by simp [hj])) hlen1
    simp only [write_all, List.foldl_cons] at h1 h2 ⊢
    refine ⟨h1, ?_⟩
    intro j hj
    apply h2
    have hget : (fd_write pf info (i * c) (fd_slice payload c i)).data[j]?
        = if i * c ≤ j ∧ j < i * c + chunk_size payload.length c i then payload[j]?
          else pf.data[j]? := by
      simp only [fd_write]
      rw [memcpy_at_getElem? _ _ _ _ hfit, hsl]
      by_cases hin : i * c ≤ j ∧ j < i * c + chunk_size payload.length c i
      · rw [if_pos hin, if_pos hin, fd_slice_getElem? payload c i j hin.1 hin.2]
      · rw [if_neg hin, if_neg hin]
    rcases hj with h | ⟨i1, hi1, hr⟩
    · left
      rw [hget]
      split_ifs
      · rfl
      · exact h
    · rcases List.mem_cons.1 hi1 with heq | hmem
      · subst heq
        left
        rw [hget, if_pos hr]
      · right
        exact ⟨i1, hmem, hr⟩

/-- Once every slice has been written the buffer is the payload. -/
theorem write_all_complete (info : FrameInfo) (payload : List Byte) (c : Nat) (hc : 1 ≤ c)
    (idx : List Nat) (pf : PendingFrame)
    (hidx : ∀ i ∈ idx, i < nchunks payload.length c)
    (hall : ∀ i, i < nchunks payload.length c → i ∈ idx)
    (hlen : pf.data.length = payload.length) :
    (write_all info payload c pf idx).data = payload := by
  obtain ⟨h1, h2⟩ := write_all_agrees info payload c hc idx pf hidx hlen
  apply List.ext_getElem?
  intro j
  by_cases hj : j < payload.length
  · apply h2
    right
    have hdm := Nat.div_add_mod j c
    have hml := Nat.mod_lt j (show 0 < c by omega)
    have hmul : j / c * c = c * (j / c) := Nat.mul_comm _ _
    have hin : j / c < nchunks payload.length c := by
      rw [lt_nchunks _ _ _ hc]; omega
    refine ⟨j / c, hall _ hin, by omega, ?_⟩
    unfold chunk_size
    omega
  · rw [List.getElem?_eq_none (by omega), List.getElem?_eq_none (by omega)]

theorem bytes_of_range (len c : Nat) (m : Nat) :
    bytes_of len c (List.range m) = min (m * c) len := by
  induction m with
  | zero => simp [bytes_of]
  | succ m ih =>
    unfold bytes_of at ih ⊢
    rw [List.range_succ, List.map_append, List.sum_append, ih, Nat.add_mul]
    simp only [List.map_cons, List.map_nil, List.sum_cons, List.sum_nil, chunk_size]
    omega

theorem bytes_of_all (len c : Nat) (hc : 1 ≤ c) :
    bytes_of len c (List.range (nchunks len c)) = len := by
  rw [bytes_of_range]
  have := lt_nchunks len c (nchunks len c) hc
  omega

theorem bytes_of_perm (len c : Nat) (l1 l2 : List Nat) (h : l1.Perm l2) :
    bytes_of len c l1 = bytes_of len c l2 := by
  unfold bytes_of
  exact (h.map _).sum_eq

/-- A duplicate-free selection of fewer than all the FDs carries fewer bytes
than the payload has. -/
theorem bytes_of_strict (len c : Nat) (hc : 1 ≤ c) (idx : List Nat) (hnd : idx.Nodup)
    (hidx : ∀ i ∈ idx, i < nchunks len c) (hlt : idx.length < nchunks len c) :
    bytes_of len c idx < len := by
  have hsub : idx.toFinset ⊆ Finset.range (nchunks len c) := by
    intro i hi
    rw [List.mem_toFinset] at hi
    exact Finset.mem_range.2 (hidx i hi)
  have hcard : idx.toFinset.card < (Finset.range (nchunks len c)).card := by
    rw [List.toFinset_card_of_nodup hnd, Finset.card_range]; exact hlt
  have hss : idx.toFinset ⊂ Finset.range (nchunks len c) :=
    Finset.ssubset_iff_subset_ne.2 ⟨hsub, fun h => by rw [h] at hcard; exact lt_irrefl _ hcard⟩
  obtain ⟨j, hj1, hj2⟩ := Finset.exists_of_ssubset hss
  have hjn : j < nchunks len c := Finset.mem_range.1 hj1
  have hpos := (chunk_facts len c j hc hjn).1
  have hsum : ∑ i in idx.toFinset, chunk_size len c i
      < ∑ i in Finset.range (nchunks len c), chunk_size len c i :=
    Finset.sum_lt_sum_of_subset hsub hj1 hj2 (by omega) (fun _ _ _ => Nat.zero_le _)
  have h1 : bytes_of len c idx = ∑ i in idx.toFinset, chunk_size len c i := by
    unfold bytes_of
    rw [List.sum_toFinset _ hnd]
  have h3 : ∀ m, ∑ i in Finset.range m, chunk_size len c i = min (m * c) len := by
    intro m
    induction m with
    | zero => simp
    | succ m ih =>
      rw [Finset.sum_range_succ, ih, Nat.add_mul]
      unfold chunk_size
      omega
  have h2 : ∑ i in Finset.range (nchunks len c), chunk_size len c i = len := by
    rw [h3]
    have := lt_nchunks len c (nchunks len c) hc
    omega
  omega

theorem perm_map_preimage {α β : Type} (f : α → β) {l1 m : List β} (h : l1.Perm m) :
    ∀ l : List α, m = l.map f → ∃ l0 : List α, l0.Perm l ∧ l0.map f = l1 := by
  induction h with
  | nil =>
    intro l hl
    exact ⟨[], by simpa using hl.symm, rfl⟩
  | cons x _ ih =>
    intro l hl
    cases l with
    | nil => simp at hl
    | cons a t =>
      simp only [List.map_cons, List.cons.injEq] at hl
      obtain ⟨l0, h1, h2⟩ := ih t hl.2
      exact ⟨a :: l0, h1.cons a, by simp [h2, hl.1]⟩
  | swap x y l2 =>
    intro l hl
    cases l with
    | nil => simp at hl
    | cons a t =>
      cases t with
      | nil => simp at hl
      | cons b t =>
        simp only [List.map_cons, List.cons.injEq] at hl
        exact ⟨b :: a :: t, List.Perm.swap a b t, by simp [hl.1, hl.2.1, hl.2.2]⟩
  | trans _ _ ih1 ih2 =>
    intro l hl
    obtain ⟨l0, h1, h2⟩ := ih2 l hl
    obtain ⟨l00, h3, h4⟩ := ih1 l0 h2.symm
    exact ⟨l00, h3.trans h1, h4⟩

/-! ### Whole runs -/

theorem handle_fh_fh_bytes (abi : Abi) (hw : abi.WF) (info : FrameInfo) (fseq32 ts len : Nat)
    (opts : SenderOptions) (hty : InputsTyped info fseq32 ts opts)
    (hfmt : info.fmt ∈ abi.formats) (hpos : 0 < len) (hmax : len ≤ kMaxFrameBytes) :
    handle_fh abi (fh_bytes abi info fseq32 ts len opts)
      = some (fh_pending abi info fseq32 ts len opts) := by
  have hL28 : len < 2 ^ 28 := by unfold kMaxFrameBytes at hmax; omega
  have hlow := field_low len info.fmt hL28
  unfold offset_from_offs at hlow
  have hfmt1 := sample_format_roundtrip abi hw len info.fmt hL28 hfmt
  have hflow : (2 ^ 31 + opts.flow_id % 2 ^ 31) % 2 ^ 31 = opts.flow_id % 2 ^ 31 := by omega
  have h8 : fseq32 % 2 ^ 8 = fseq32 % 256 := by norm_num
  unfold handle_fh
  simp only [fh_bytes_length, fh_bytes_fseq _ _ _ _ _ _ hty.fseq_lt,
    fh_bytes_fsize _ _ _ _ _ _ hL28, fh_bytes_width _ _ _ _ _ _ hty.width_lt,
    fh_bytes_height _ _ _ _ _ _ hty.height_lt, fh_bytes_lid, fh_bytes_ts _ _ _ _ _ _ hty.ts_lt,
    hlow, hfmt1, and_low31, and_low8, hflow, h8, lt_irrefl, if_false]
  rw [if_neg (by omega)]
  rfl

/-- The FH of the fragmenter is stored under `fseq32`, and `ingest` returns
nothing for it. -/
theorem ingest_fh_bytes (abi : Abi) (hw : abi.WF) (info : FrameInfo) (fseq32 ts len : Nat)
    (opts : SenderOptions) (hty : InputsTyped info fseq32 ts opts)
    (hfmt : info.fmt ∈ abi.formats) (hpos : 0 < len) (hmax : len ≤ kMaxFrameBytes)
    (now : Nat) (r : FrameReassembler) :
    ∃ st1, ingest abi now r (fh_bytes abi info fseq32 ts len opts)
      = ({ frames_ := map_assign r.frames_ fseq32 (fh_pending abi info fseq32 ts len opts),
           stats_ := st1 }, []) := by
  have hbit : rd_host32 abi (fh_bytes abi info fseq32 ts len opts) 0 &&& LID_TYPE ≠ 0 := by
    rw [fh_bytes_lid, LID_TYPE, and_type_bit]; omega
  unfold ingest
  rw [fh_bytes_length, if_neg (by unfold kFhHeaderSize; omega), if_pos hbit,
    handle_fh_fh_bytes abi hw info fseq32 ts len opts hty hfmt hpos hmax]
  exact ⟨_, rfl⟩

theorem fh_pending_tracks (abi : Abi) (info : FrameInfo) (fseq32 ts len : Nat)
    (opts : SenderOptions) :
    Tracks (fh_pending abi info fseq32 ts len opts) fseq32 opts.flow_id len :=
  ⟨rfl, rfl, by simp [fh_pending], rfl⟩

theorem synth_pending_tracks (abi : Abi) (info : FrameInfo) (fseq32 len : Nat)
    (opts : SenderOptions) (hdim : info.width * info.height * bytes_per_pixel abi info.fmt = len) :
    Tracks (synth_pending abi info fseq32 opts) fseq32 opts.flow_id len :=
  ⟨rfl, rfl, by simp [synth_pending, hdim], hdim⟩

theorem nchunks_pos (len c : Nat) (hc : 1 ≤ c) (hpos : 0 < len) : 0 < nchunks len c := by
  rw [lt_nchunks _ _ _ hc]; omega

/-- Every FD of the frame fed once, in any order, to a table holding only
the frame's pending entry (or to an empty one when the FD dimensions give the
payload size): exactly one frame comes out, with the payload and the FD
metadata. -/
theorem ingest_all_fds_complete (abi : Abi) (hw : abi.WF) (info : FrameInfo) (fseq32 ts : Nat)
    (payload : List Byte) (opts : SenderOptions) (hty : InputsTyped info fseq32 ts opts)
    (hfmt : info.fmt ∈ abi.formats) (hpos : 0 < payload.length)
    (hmax : payload.length ≤ kMaxFrameBytes)
    (hc : 1 ≤ opts.fragment_payload) (clock : Nat → Nat)
    (idx : List Nat) (hperm : idx.Perm (List.range (nchunks payload.length opts.fragment_payload)))
    (k : Nat) (st : FrameStats) (tbl : List (Nat × PendingFrame)) (pf : PendingFrame)
    (htbl : tbl = [(pf.fseq32, pf)] ∨ (tbl = [] ∧ pf = synth_pending abi info fseq32 opts))
    (htr : Tracks pf fseq32 opts.flow_id payload.length) (hR : pf.received_bytes = 0) :
    ∃ st1 t,
      ingest_all abi clock k { frames_ := tbl, stats_ := st }
          (idx.map (fd_packet abi info fseq32 payload opts))
        = ({ frames_ := [], stats_ := st1 },
           [{ info := { pf.info with fmt := info.fmt, width := info.width,
                                     height := info.height, pattern := info.pattern }
              fseq32 := pf.fseq32
              timestamp := if pf.ts ≠ 0 then pf.ts else t
              payload := payload }]) := by
  have hn := nchunks_pos payload.length opts.fragment_payload hc hpos
  have hne : idx ≠ [] := by
    intro h
    subst h
    have := hperm.length_eq
    simp at this
    omega
  have hidx : ∀ i ∈ idx, i < nchunks payload.length opts.fragment_payload := by
    intro i hi
    exact List.mem_range.1 (hperm.mem_iff.1 hi)
  have hall : ∀ i, i < nchunks payload.length opts.fragment_payload → i ∈ idx := by
    intro i hi
    exact hperm.mem_iff.2 (List.mem_range.2 hi)
  have hbytes : bytes_of payload.length opts.fragment_payload idx = payload.length := by
    rw [bytes_of_perm _ _ _ _ hperm, bytes_of_all _ _ hc]
  obtain ⟨st1, t, h⟩ := ingest_all_fds abi hw info fseq32 ts payload opts hty hfmt hmax hc clock
    idx k st tbl pf hidx
    (by rcases htbl with h | ⟨h1, h2⟩
        · exact Or.inl h
        · exact Or.inr ⟨hne, h1, h2⟩)
    htr (by omega) (by omega)
  rw [if_neg (by omega)] at h
  refine ⟨st1, t, ?_⟩
  rw [h, write_all_info info payload _ idx pf hne,
    write_all_complete info payload _ hc idx pf hidx hall htr.data_len]

theorem map_assign_nil (k : Nat) (pf : PendingFrame) : map_assign [] k pf = [(k, pf)] := rfl

/-- The FH of a frame and then all its FDs, in any order, into a fresh
reassembler. -/
theorem run_fh_then_fds (abi : Abi) (hw : abi.WF) (info : FrameInfo) (fseq32 ts : Nat)
    (payload : List Byte) (opts : SenderOptions) (hty : InputsTyped info fseq32 ts opts)
    (hfmt : info.fmt ∈ abi.formats) (hpos : 0 < payload.length)
    (hmax : payload.length ≤ kMaxFrameBytes)
    (hc : 1 ≤ opts.fragment_payload) (clock : Nat → Nat)
    (idx : List Nat)
    (hperm : idx.Perm (List.range (nchunks payload.length opts.fragment_payload))) :
    ∃ st1 t,
      ingest_all abi clock 0 FrameReassembler.fresh
          (fh_bytes abi info fseq32 ts payload.length opts ::
            idx.map (fd_packet abi info fseq32 payload opts))
        = ({ frames_ := [], stats_ := st1 },
           [{ info := { width := info.width, height := info.height, fmt := info.fmt,
                        pattern := info.pattern, orientation := 0, mirror := false,
                        flow_id := opts.flow_id % 2 ^ 31 }
              fseq32 := fseq32
              timestamp := if ts ≠ 0 then ts else t
              payload := payload }]) := by
  obtain ⟨st0, hfh⟩ := ingest_fh_bytes abi hw info fseq32 ts payload.length opts hty hfmt hpos
    hmax (clock 0) FrameReassembler.fresh
  obtain ⟨st1, t, hrun⟩ := ingest_all_fds_complete abi hw info fseq32 ts payload opts hty hfmt
    hpos hmax hc clock idx hperm 1 st0 [(fseq32, fh_pending abi info fseq32 ts payload.length opts)]
    (fh_pending abi info fseq32 ts payload.length opts) (Or.inl rfl)
    (fh_pending_tracks abi info fseq32 ts payload.length opts) rfl
  refine ⟨st1, t, ?_⟩
  simp only [ingest_all]
  rw [hfh]
  simp only [FrameReassembler.fresh, map_assign_nil, Nat.zero_add, List.nil_append]
  rw [hrun]
  rfl

/-- C1 (round-trip identity, FH first).  For a frame whose format is one of
the five sample formats, a non-empty payload of at most 32 MiB and
`fragment_payload ≥ 1`, with no loss, duplication or reordering, feeding the
packets returned by `fragment_frame`, in the order returned, to a fresh
reassembler makes the `ingest` calls return in total exactly one
`CompletedFrame`, whose payload is the input payload and whose width, height,
format and pattern are those of the input. -/
theorem roundtrip_fh_first (abi : Abi) (hw : abi.WF) (info : FrameInfo) (fseq32 ts : Nat)
    (payload : List Byte) (opts : SenderOptions) (rolls : Nat → ℚ) (reorder : ReorderBuffer)
    (clock : Nat → Nat)
    (hty : InputsTyped info fseq32 ts opts) (hfmt : info.fmt ∈ abi.formats)
    (hpos : 0 < payload.length) (hmax : payload.length ≤ kMaxFrameBytes)
    (hc : 1 ≤ opts.fragment_payload)
    (hloss : opts.loss_percent = 0) (hdup : opts.duplicate_percent = 0)
    (hwin : opts.reorder_window = 0) (hrolls : RollsInRange rolls) :
    ∃ pkts reorder1 cf,
      fragment_frame abi info fseq32 ts payload opts rolls reorder = some (pkts, reorder1) ∧
      (ingest_all abi clock 0 FrameReassembler.fresh (pkts.map (fun p => p.data))).2 = [cf] ∧
      cf.payload = payload ∧ cf.info.width = info.width ∧ cf.info.height = info.height ∧
      cf.info.fmt = info.fmt ∧ cf.info.pattern = info.pattern := by
  obtain ⟨st1, t, hrun⟩ := run_fh_then_fds abi hw info fseq32 ts payload opts hty hfmt hpos hmax
    hc clock (List.range (nchunks payload.length opts.fragment_payload)) (List.Perm.refl _)
  refine ⟨_, _,
    ({ info := { width := info.width, height := info.height, fmt := info.fmt,
                 pattern := info.pattern, orientation := 0, mirror := false,
                 flow_id := opts.flow_id % 2 ^ 31 }
       fseq32 := fseq32
       timestamp := if ts ≠ 0 then ts else t
       payload := payload } : CompletedFrame),
    fragment_frame_lossfree abi info fseq32 ts payload opts rolls reorder hpos
      hmax hc hloss hdup hwin hrolls, ?_, rfl, rfl, rfl, rfl, rfl⟩
  simp only [List.map_cons, List.map_map, fd_packets]
  rw [show ((fun p : FramePacket => p.data) ∘
        ((fun d => ({ data := d, is_fh := false } : FramePacket)) ∘
          fd_packet abi info fseq32 payload opts))
      = fd_packet abi info fseq32 payload opts from rfl]
  rw [hrun]

/-- Witness of C1: the 64-byte frame of the reorder test. -/
theorem roundtrip_fh_first_witness :
    ∃ pkts reorder1 cf,
      fragment_frame ex_abi ex_info 2 77 ex_payload ex_opts ex_rolls ex_reorder
        = some (pkts, reorder1) ∧
      (ingest_all ex_abi (fun _ => 0) 0 FrameReassembler.fresh (pkts.map (fun p => p.data))).2
        = [cf] ∧
      cf.payload = ex_payload ∧ cf.info.width = 16 ∧ cf.info.height = 4 := by
  obtain ⟨pkts, r1, cf, h1, h2, h3, h4, h5, _⟩ := roundtrip_fh_first ex_abi (by decide) ex_info
    2 77 ex_payload ex_opts ex_rolls ex_reorder (fun _ => 0) ex_typed (by decide) (by decide)
    (by decide) (by decide) rfl rfl rfl ex_rolls_in_range
  exact ⟨pkts, r1, cf, h1, h2, h3, h4, h5⟩

/-- C2 (reorder tolerance).  Under the preconditions of the round trip, for
every permutation of the FD packets produced by `fragment_frame`, ingesting
the FH first and then the FD packets in the permuted order into a fresh
reassembler yields in total exactly one `CompletedFrame`, whose payload is the
input payload. -/
theorem roundtrip_reordered (abi : Abi) (hw : abi.WF) (info : FrameInfo) (fseq32 ts : Nat)
    (payload : List Byte) (opts : SenderOptions) (rolls : Nat → ℚ) (reorder : ReorderBuffer)
    (clock : Nat → Nat)
    (hty : InputsTyped info fseq32 ts opts) (hfmt : info.fmt ∈ abi.formats)
    (hpos : 0 < payload.length) (hmax : payload.length ≤ kMaxFrameBytes)
    (hc : 1 ≤ opts.fragment_payload)
    (hloss : opts.loss_percent = 0) (hdup : opts.duplicate_percent = 0)
    (hwin : opts.reorder_window = 0) (hrolls : RollsInRange rolls) :
    ∃ fh fds reorder1,
      fragment_frame abi info fseq32 ts payload opts rolls reorder
        = some (fh :: fds, reorder1) ∧
      fh.is_fh = true ∧ (∀ p ∈ fds, p.is_fh = false) ∧
      ∀ perm : List FramePacket, perm.Perm fds →
        ∃ cf, (ingest_all abi clock 0 FrameReassembler.fresh
                (fh.data :: perm.map (fun p => p.data))).2 = [cf] ∧
          cf.payload = payload := by
  refine ⟨_, _, _, fragment_frame_lossfree abi info fseq32 ts payload opts rolls reorder hpos
    hmax hc hloss hdup hwin hrolls, rfl, ?_, ?_⟩
  · intro p hp
    obtain ⟨d, _, rfl⟩ := List.mem_map.1 hp
    rfl
  · intro perm hperm
    simp only [fd_packets, List.map_map] at hperm
    obtain ⟨idx, hidx, hmap⟩ := perm_map_preimage _ hperm _ rfl
    obtain ⟨st1, t, hrun⟩ := run_fh_then_fds abi hw info fseq32 ts payload opts hty hfmt hpos
      hmax hc clock idx hidx
    refine ⟨
      ({ info := { width := info.width, height := info.height, fmt := info.fmt,
                   pattern := info.pattern, orientation := 0, mirror := false,
                   flow_id := opts.flow_id % 2 ^ 31 },
         fseq32 := fseq32,
         timestamp := if ts ≠ 0 then ts else t,
         payload := payload } : CompletedFrame), ?_, rfl⟩
    rw [← hmap, List.map_map]
    rw [show ((fun p : FramePacket => p.data) ∘
          ((fun d => ({ data := d, is_fh := false } : FramePacket)) ∘
            fd_packet abi info fseq32 payload opts))
        = fd_packet abi info fseq32 payload opts from rfl]
    simp only
    rw [hrun]

/-- Witness of C2: the reorder test, the FD packets reversed. -/
theorem roundtrip_reordered_witness :
    ∃ fh fds reorder1,
      fragment_frame ex_abi ex_info 2 77 ex_payload ex_opts ex_rolls ex_reorder
        = some (fh :: fds, reorder1) ∧
      ∃ cf, (ingest_all ex_abi (fun _ => 0) 0 FrameReassembler.fresh
              (fh.data :: fds.reverse.map (fun p => p.data))).2 = [cf] ∧
        cf.payload = ex_payload := by
  obtain ⟨fh, fds, r1, h1, _, _, h4⟩ := roundtrip_reordered ex_abi (by decide) ex_info
    2 77 ex_payload ex_opts ex_rolls ex_reorder (fun _ => 0) ex_typed (by decide) (by decide)
    (by decide) (by decide) rfl rfl rfl ex_rolls_in_range
  exact ⟨fh, fds, r1, h1, h4 fds.reverse (List.reverse_perm fds)⟩

/-- All the FDs of a frame, in any order, into a fresh reassembler that never
sees the FH, when the dimensions and format in the FD headers give the payload
size. -/
theorem run_fds_only (abi : Abi) (hw : abi.WF) (info : FrameInfo) (fseq32 ts : Nat)
    (payload : List Byte) (opts : SenderOptions) (hty : InputsTyped info fseq32 ts opts)
    (hfmt : info.fmt ∈ abi.formats) (hpos : 0 < payload.length)
    (hmax : payload.length ≤ kMaxFrameBytes)
    (hdim : info.width * info.height * bytes_per_pixel abi info.fmt = payload.length)
    (hc : 1 ≤ opts.fragment_payload) (clock : Nat → Nat) (k : Nat) (st : FrameStats)
    (idx : List Nat)
    (hperm : idx.Perm (List.range (nchunks payload.length opts.fragment_payload))) :
    ∃ st1 t,
      ingest_all abi clock k { frames_ := [], stats_ := st }
          (idx.map (fd_packet abi info fseq32 payload opts))
        = ({ frames_ := [], stats_ := st1 },
           [{ info := { width := info.width, height := info.height, fmt := info.fmt,
                        pattern := info.pattern, orientation := 0, mirror := false,
                        flow_id := opts.flow_id % 2 ^ 31 }
              fseq32 := fseq32 % 256
              timestamp := t
              payload := payload }]) := by
  obtain ⟨st1, t, hrun⟩ := ingest_all_fds_complete abi hw info fseq32 ts payload opts hty hfmt
    hpos hmax hc clock idx hperm k st [] (synth_pending abi info fseq32 opts) (Or.inr ⟨rfl, rfl⟩)
    (synth_pending_tracks abi info fseq32 payload.length opts hdim) rfl
  exact ⟨st1, t, hrun⟩

/-- C5 (missing FH).  For a frame with
`payload_size = width * height * bytes_per_pixel(fmt)`, `0 < payload_size ≤ 32 MiB`,
ingesting only the FD packets produced by `fragment_frame` (no loss,
duplication or reordering), in order and without the FH, into a fresh
reassembler yields exactly one `CompletedFrame`: its payload is the input, its
width, height and format are those carried by the FD headers, its pattern is
`bayer_from_flag` of the FD flags, and its `fseq32` is `fseq32 & 0xFF`. -/
theorem missing_fh (abi : Abi) (hw : abi.WF) (info : FrameInfo) (fseq32 ts : Nat)
    (payload : List Byte) (opts : SenderOptions) (rolls : Nat → ℚ) (reorder : ReorderBuffer)
    (clock : Nat → Nat)
    (hty : InputsTyped info fseq32 ts opts) (hfmt : info.fmt ∈ abi.formats)
    (hpos : 0 < payload.length) (hmax : payload.length ≤ kMaxFrameBytes)
    (hdim : payload.length = info.width * info.height * bytes_per_pixel abi info.fmt)
    (hc : 1 ≤ opts.fragment_payload)
    (hloss : opts.loss_percent = 0) (hdup : opts.duplicate_percent = 0)
    (hwin : opts.reorder_window = 0) (hrolls : RollsInRange rolls) :
    ∃ fh fds reorder1 cf,
      fragment_frame abi info fseq32 ts payload opts rolls reorder
        = some (fh :: fds, reorder1) ∧
      fh.is_fh = true ∧
      (ingest_all abi clock 0 FrameReassembler.fresh (fds.map (fun p => p.data))).2 = [cf] ∧
      cf.payload = payload ∧
      cf.fseq32 = fseq32 &&& 0xFF ∧
      (∀ p ∈ fds,
        p.is_fh = false ∧
        cf.info.width = rd_be16 p.data 8 ∧ cf.info.height = rd_be16 p.data 10 ∧
        cf.info.fmt = sample_format_from_bits abi (rd_be32 p.data 12) ∧
        cf.info.pattern = bayer_from_flag (rd8 p.data 4)) ∧
      cf.info.width = info.width ∧ cf.info.height = info.height ∧
      cf.info.fmt = info.fmt ∧ cf.info.pattern = info.pattern := by
  obtain ⟨st1, t, hrun⟩ := run_fds_only abi hw info fseq32 ts payload opts hty hfmt hpos hmax
    hdim.symm hc clock 0 FrameReassembler.fresh.stats_
    (List.range (nchunks payload.length opts.fragment_payload)) (List.Perm.refl _)
  refine ⟨_, _, _,
    ({ info := { width := info.width, height := info.height, fmt := info.fmt,
                 pattern := info.pattern, orientation := 0, mirror := false,
                 flow_id := opts.flow_id % 2 ^ 31 },
       fseq32 := fseq32 % 256,
       timestamp := t,
       payload := payload } : CompletedFrame),
    fragment_frame_lossfree abi info fseq32 ts payload opts rolls reorder hpos
      hmax hc hloss hdup hwin hrolls, rfl, ?_, rfl, ?_, ?_, rfl, rfl, rfl, rfl⟩
  · simp only [List.map_map, fd_packets]
    rw [show ((fun p : FramePacket => p.data) ∘
          ((fun d => ({ data := d, is_fh := false } : FramePacket)) ∘
            fd_packet abi info fseq32 payload opts))
        = fd_packet abi info fseq32 payload opts from rfl]
    exact congrArg Prod.snd hrun
  · simp only
    rw [and_low8]
    norm_num
  · intro p hp
    obtain ⟨d, hd, rfl⟩ := List.mem_map.1 hp
    obtain ⟨i, hi, rfl⟩ := List.mem_map.1 hd
    have hin : i < nchunks payload.length opts.fragment_payload := List.mem_range.1 hi
    have hlt := (lt_nchunks _ _ _ hc).1 hin
    have hoff : i * opts.fragment_payload < 2 ^ 28 := by
      unfold kMaxFrameBytes at hmax; omega
    refine ⟨rfl, ?_, ?_, ?_, ?_⟩
    · simp only [fd_packet]
      rw [fd_bytes_width _ _ _ _ _ _ _ hty.width_lt]
    · simp only [fd_packet]
      rw [fd_bytes_height _ _ _ _ _ _ _ hty.height_lt]
    · simp only [fd_packet]
      rw [fd_bytes_offs _ _ _ _ _ _ _ hoff, sample_format_roundtrip abi hw _ _ hoff hfmt]
    · simp only [fd_packet]
      rw [fd_bytes_flags, bayer_roundtrip]

/-- Witness of C5: the 16×4 8-bit frame of the reorder test without its FH. -/
theorem missing_fh_witness :
    ∃ fh fds reorder1 cf,
      fragment_frame ex_abi ex_info 2 77 ex_payload ex_opts ex_rolls ex_reorder
        = some (fh :: fds, reorder1) ∧
      (ingest_all ex_abi (fun _ => 0) 0 FrameReassembler.fresh (fds.map (fun p => p.data))).2
        = [cf] ∧
      cf.payload = ex_payload ∧ cf.fseq32 = 2 ∧ cf.info.pattern = BayerPattern.MONO := by
  obtain ⟨fh, fds, r1, cf, h1, _, h3, h4, h5, _, _, _, _, h9⟩ := missing_fh ex_abi (by decide)
    ex_info 2 77 ex_payload ex_opts ex_rolls ex_reorder (fun _ => 0) ex_typed (by decide)
    (by decide) (by decide) (by decide) (by decide) rfl rfl rfl ex_rolls_in_range
  exact ⟨fh, fds, r1, cf, h1, h3, h4, h5, h9⟩

theorem ingest_all_append (abi : Abi) (clock : Nat → Nat) :
    ∀ (a b : List (List Byte)) (k : Nat) (r : FrameReassembler),
      ingest_all abi clock k r (a ++ b)
        = ((ingest_all abi clock (k + a.length) (ingest_all abi clock k r a).1 b).1,
           (ingest_all abi clock k r a).2
            ++ (ingest_all abi clock (k + a.length) (ingest_all abi clock k r a).1 b).2) := by
  intro a
  induction a with
  | nil => intro b k r; simp [ingest_all]
  | cons p ps ih =>
    intro b k r
    rw [List.cons_append]
    simp only [ingest_all, List.length_cons]
    rw [ih]
    simp only [List.append_assoc, Nat.add_assoc, Nat.add_comm 1]

/-- C3 as amended (FH-late tolerance).  For a frame whose format is one of the
five sample formats and whose non-empty payload of at most 32 MiB has
`payload_size = width * height * bytes_per_pixel(fmt)` (`fragment_payload ≥ 1`,
no loss, duplication or reordering), ingesting all FD packets produced by
`fragment_frame` in order and then the FH packet last into a fresh reassembler
yields in total exactly one `CompletedFrame`, whose payload is the input
payload and whose width, height, format and pattern are the input's. -/
theorem fh_late (abi : Abi) (hw : abi.WF) (info : FrameInfo) (fseq32 ts : Nat)
    (payload : List Byte) (opts : SenderOptions) (rolls : Nat → ℚ) (reorder : ReorderBuffer)
    (clock : Nat → Nat)
    (hty : InputsTyped info fseq32 ts opts) (hfmt : info.fmt ∈ abi.formats)
    (hpos : 0 < payload.length) (hmax : payload.length ≤ kMaxFrameBytes)
    (hdim : payload.length = info.width * info.height * bytes_per_pixel abi info.fmt)
    (hc : 1 ≤ opts.fragment_payload)
    (hloss : opts.loss_percent = 0) (hdup : opts.duplicate_percent = 0)
    (hwin : opts.reorder_window = 0) (hrolls : RollsInRange rolls) :
    ∃ fh fds reorder1 cf,
      fragment_frame abi info fseq32 ts payload opts rolls reorder
        = some (fh :: fds, reorder1) ∧
      fh.is_fh = true ∧ (∀ p ∈ fds, p.is_fh = false) ∧
      (ingest_all abi clock 0 FrameReassembler.fresh
        (fds.map (fun p => p.data) ++ [fh.data])).2 = [cf] ∧
      cf.payload = payload ∧ cf.info.width = info.width ∧ cf.info.height = info.height ∧
      cf.info.fmt = info.fmt ∧ cf.info.pattern = info.pattern := by
  obtain ⟨st1, t, hrun⟩ := run_fds_only abi hw info fseq32 ts payload opts hty hfmt hpos hmax
    hdim.symm hc clock 0 FrameReassembler.fresh.stats_
    (List.range (nchunks payload.length opts.fragment_payload)) (List.Perm.refl _)
  obtain ⟨st2, hfh⟩ := ingest_fh_bytes abi hw info fseq32 ts payload.length opts hty hfmt hpos
    hmax (clock (0 + ((List.range (nchunks payload.length opts.fragment_payload)).map
      (fd_packet abi info fseq32 payload opts)).length)) { frames_ := [], stats_ := st1 }
  refine ⟨_, _, _,
    ({ info := { width := info.width, height := info.height, fmt := info.fmt,
                 pattern := info.pattern, orientation := 0, mirror := false,
                 flow_id := opts.flow_id % 2 ^ 31 },
       fseq32 := fseq32 % 256,
       timestamp := t,
       payload := payload } : CompletedFrame),
    fragment_frame_lossfree abi info fseq32 ts payload opts rolls reorder hpos
      hmax hc hloss hdup hwin hrolls, rfl, ?_, ?_, rfl, rfl, rfl, rfl, rfl⟩
  · intro p hp
    obtain ⟨d, _, rfl⟩ := List.mem_map.1 hp
    rfl
  · simp only [List.map_map, fd_packets]
    rw [show ((fun p : FramePacket => p.data) ∘
          ((fun d => ({ data := d, is_fh := false } : FramePacket)) ∘
            fd_packet abi info fseq32 payload opts))
        = fd_packet abi info fseq32 payload opts from rfl]
    rw [ingest_all_append]
    have h0 : ({ frames_ := [], stats_ := FrameReassembler.fresh.stats_ } : FrameReassembler)
        = FrameReassembler.fresh := rfl
    rw [h0] at hrun
    rw [hrun]
    simp only [ingest_all]
    rw [hfh]
    rfl

/-- Witness of amended C3: the 16×4 8-bit frame of the reorder test, FH last. -/
theorem fh_late_witness :
    ∃ fh fds reorder1 cf,
      fragment_frame ex_abi ex_info 2 77 ex_payload ex_opts ex_rolls ex_reorder
        = some (fh :: fds, reorder1) ∧
      (ingest_all ex_abi (fun _ => 0) 0 FrameReassembler.fresh
        (fds.map (fun p => p.data) ++ [fh.data])).2 = [cf] ∧
      cf.payload = ex_payload := by
  obtain ⟨fh, fds, r1, cf, h1, _, _, h3, h4, _⟩ := fh_late ex_abi (by decide)
    ex_info 2 77 ex_payload ex_opts ex_rolls ex_reorder (fun _ => 0) ex_typed (by decide)
    (by decide) (by decide) (by decide) (by decide) rfl rfl rfl ex_rolls_in_range
  exact ⟨fh, fds, r1, cf, h1, h3, h4⟩

/-- Counterexample to C3 as stated.  A 2×2 8-bit frame description sent with a
two-byte payload: ingesting its FD and then its FH into a fresh reassembler
yields no `CompletedFrame` at all, because without the FH the expected size is
taken from the dimensions in the FD (four bytes) and the late FH starts a new,
empty pending frame. -/
theorem fh_late_counterexample :
    ∃ fh fds reorder1,
      fragment_frame ex_abi ex_info_small 2 77 [0x5A, 0x5A] ex_opts_small ex_rolls ex_reorder
        = some (fh :: fds, reorder1) ∧
      (ingest_all ex_abi (fun _ => 0) 0 FrameReassembler.fresh
        (fds.map (fun p => p.data) ++ [fh.data])).2 = [] :=
  ⟨_, _, _, fragment_frame_lossfree ex_abi ex_info_small 2 77 [0x5A, 0x5A] ex_opts_small
    ex_rolls ex_reorder (by decide) (by decide) (by decide) rfl rfl rfl ex_rolls_in_range,
    by decide⟩

theorem fd_loop_dup_all (abi : Abi) (info : FrameInfo) (fseq32 : Nat) (payload : List Byte)
    (opts : SenderOptions) (rolls : Nat → ℚ)
    (hc : 1 ≤ opts.fragment_payload) (hL : payload.length < 2 ^ 32)
    (hloss : opts.loss_percent = 0) (hdup : opts.duplicate_percent = 100)
    (hwin : opts.reorder_window = 0) (hrolls : RollsInRange rolls) :
    ∀ (fuel k : Nat) (pending : List (List Byte)),
      nchunks payload.length opts.fragment_payload - k ≤ fuel →
      k ≤ nchunks payload.length opts.fragment_payload →
      fd_loop abi info fseq32 payload opts rolls fuel
          (min (k * opts.fragment_payload) payload.length) k pending
        = some (((List.range' k (nchunks payload.length opts.fragment_payload - k)).map
            (fun i =>
              [({ data := fd_packet abi info fseq32 payload opts i, is_fh := false } : FramePacket),
               { data := fd_packet abi info fseq32 payload opts i, is_fh := false }])).flatten,
            pending) := by
  intro fuel
  induction fuel with
  | zero =>
    intro k pending hf hk
    have hkn : ¬ k < nchunks payload.length opts.fragment_payload := by omega
    rw [lt_nchunks _ _ _ hc] at hkn
    have h0 : nchunks payload.length opts.fragment_payload - k = 0 := by omega
    simp only [fd_loop, h0, List.range'_zero, List.map_nil, List.flatten_nil]
    rw [if_neg (by omega)]
  | succ fuel ih =>
    intro k pending hf hk
    by_cases hkn : k < nchunks payload.length opts.fragment_payload
    · have hlt := (lt_nchunks _ _ _ hc).1 hkn
      have hmin : min (k * opts.fragment_payload) payload.length = k * opts.fragment_payload := by
        omega
      have hchunk : min opts.fragment_payload
          (wrap32 (payload.length - k * opts.fragment_payload))
          = chunk_size payload.length opts.fragment_payload k := by
        unfold wrap32 chunk_size; omega
      have hnext : wrap32 (k * opts.fragment_payload
            + chunk_size payload.length opts.fragment_payload k)
          = min ((k + 1) * opts.fragment_payload) payload.length := by
        unfold wrap32 chunk_size; rw [Nat.add_mul]; omega
      have hr : ¬ rolls k < 0 := not_lt.mpr (hrolls k).1
      have hr2 : rolls k < double_add 0 100 := by rw [zero_double_add]; exact (hrolls k).2
      have hsplit : nchunks payload.length opts.fragment_payload - k
          = (nchunks payload.length opts.fragment_payload - (k + 1)) + 1 := by omega
      rw [hmin]
      simp only [fd_loop]
      rw [if_pos hlt]
      simp only [hchunk, hnext, hloss, hdup, hwin, hr, hr2, if_false, if_true, lt_irrefl]
      rw [ih (k + 1) pending (by omega) (by omega), hsplit, List.range'_succ]
      simp [fd_packet]
    · rw [lt_nchunks _ _ _ hc] at hkn
      have h0 : nchunks payload.length opts.fragment_payload - k = 0 := by
        have := (lt_nchunks payload.length opts.fragment_payload k hc)
        omega
      simp only [fd_loop, h0, List.range'_zero, List.map_nil, List.flatten_nil]
      rw [if_neg (by omega)]

/-- With `duplicate_percent = 100` and no loss or reordering, `fragment_frame`
returns the FH followed by every FD twice. -/
theorem fragment_frame_dup_all (abi : Abi) (info : FrameInfo) (fseq32 ts : Nat)
    (payload : List Byte) (opts : SenderOptions) (rolls : Nat → ℚ) (reorder : ReorderBuffer)
    (hpos : 0 < payload.length) (hmax : payload.length ≤ kMaxFrameBytes)
    (hc : 1 ≤ opts.fragment_payload)
    (hloss : opts.loss_percent = 0) (hdup : opts.duplicate_percent = 100)
    (hwin : opts.reorder_window = 0) (hrolls : RollsInRange rolls) :
    fragment_frame abi info fseq32 ts payload opts rolls reorder
      = some ({ data := fh_bytes abi info fseq32 ts payload.length opts, is_fh := true } ::
          ((fd_packets abi info fseq32 payload opts).map
            (fun d => [({ data := d, is_fh := false } : FramePacket),
                       { data := d, is_fh := false }])).flatten, reorder) := by
  have hL : payload.length < 2 ^ 32 := by unfold kMaxFrameBytes at hmax; omega
  have h := fd_loop_dup_all abi info fseq32 payload opts rolls hc hL hloss hdup hwin
    hrolls payload.length 0 reorder.pending
    (by have := nchunks_le payload.length opts.fragment_payload hc; omega) (by omega)
  simp only [Nat.zero_mul, Nat.zero_min, Nat.sub_zero] at h
  unfold fragment_frame
  rw [if_neg (by omega), h]
  simp [hwin, fd_packets, List.range_eq_range']
  rfl

/-- C4, the code at the failing input.  The 64-byte frame of the reorder test
sent in 12-byte fragments with `duplicate_percent = 100`: the reassembler emits
one frame, after the second copy of the third fragment, whose payload has only
its first 36 bytes filled. -/
theorem duplicate_completes_early :
    ∃ pkts reorder1,
      fragment_frame ex_abi ex_info 2 77 ex_payload { ex_opts with duplicate_percent := 100 }
        ex_rolls ex_reorder = some (pkts, reorder1) ∧
      ((ingest_all ex_abi (fun _ => 0) 0 FrameReassembler.fresh
        (pkts.map (fun p => p.data))).2.map (fun cf => cf.payload))
        = [List.replicate 36 0x5A ++ List.replicate 28 0] :=
  ⟨_, _, fragment_frame_dup_all ex_abi ex_info 2 77 ex_payload
    { ex_opts with duplicate_percent := 100 } ex_rolls ex_reorder (by decide) (by decide)
    (by decide) rfl rfl rfl ex_rolls_in_range, by decide⟩

/-! ### The invariant of reachable states -/

theorem split_first_some (p : Nat × PendingFrame → Bool) :
    ∀ (m pre post : List (Nat × PendingFrame)) (hit : Nat × PendingFrame),
      split_first p m = some (pre, hit, post) →
      m = pre ++ hit :: post ∧ p hit = true ∧ ∀ x ∈ pre, p x = false := by
  intro m
  induction m with
  | nil => intro pre post hit h; simp [split_first] at h
  | cons kv m ih =>
    intro pre post hit h
    unfold split_first at h
    by_cases hp : p kv = true
    · rw [if_pos hp] at h
      simp only [Option.some.injEq, Prod.mk.injEq] at h
      obtain ⟨rfl, rfl, rfl⟩ := h
      exact ⟨rfl, hp, by simp⟩
    · rw [if_neg hp] at h
      cases hs : split_first p m with
      | none => rw [hs] at h; simp at h
      | some z =>
        obtain ⟨pre1, hit1, post1⟩ := z
        rw [hs] at h
        simp only [Option.some.injEq, Prod.mk.injEq] at h
        obtain ⟨rfl, rfl, rfl⟩ := h
        obtain ⟨h1, h2, h3⟩ := ih pre1 post1 hit1 hs
        refine ⟨by rw [h1]; rfl, h2, ?_⟩
        intro x hx
        rcases List.mem_cons.1 hx with rfl | hx
        · simpa using hp
        · exact h3 x hx

theorem split_first_none (p : Nat × PendingFrame → Bool) :
    ∀ (m : List (Nat × PendingFrame)), split_first p m = none → ∀ x ∈ m, p x = false := by
  intro m
  induction m with
  | nil => intro _ x hx; simp at hx
  | cons kv m ih =>
    intro h x hx
    unfold split_first at h
    by_cases hp : p kv = true
    · rw [if_pos hp] at h; simp at h
    · rw [if_neg hp] at h
      cases hs : split_first p m with
      | none =>
        rcases List.mem_cons.1 hx with rfl | hx
        · simpa using hp
        · exact ih hs x hx
      | some z =>
        obtain ⟨pre1, hit1, post1⟩ := z
        rw [hs] at h; simp at h

theorem tableOk_nil : TableOk [] := ⟨by simp, by simp⟩

theorem TableOk.replace {pre post : List (Nat × PendingFrame)} {key : Nat}
    {pf pf1 : PendingFrame} (h : TableOk (pre ++ (key, pf) :: post)) (h1 : EntryOk (key, pf1)) :
    TableOk (pre ++ (key, pf1) :: post) := by
  obtain ⟨ha, hb⟩ := h
  refine ⟨?_, ?_⟩
  · intro kv hkv
    rcases List.mem_append.1 hkv with hk | hk
    · exact ha kv (List.mem_append.2 (Or.inl hk))
    · rcases List.mem_cons.1 hk with rfl | hk
      · exact h1
      · exact ha kv (List.mem_append.2 (Or.inr (List.mem_cons_of_mem _ hk)))
  · simpa using hb

theorem TableOk.filter {m : List (Nat × PendingFrame)} (h : TableOk m)
    (q : Nat × PendingFrame → Bool) : TableOk (m.filter q) := by
  obtain ⟨ha, hb⟩ := h
  refine ⟨fun kv hkv => ha kv (List.mem_of_mem_filter hkv), ?_⟩
  exact List.Nodup.sublist ((List.filter_sublist m).map Prod.fst) hb

theorem TableOk.cons_new {m : List (Nat × PendingFrame)} (h : TableOk m) {key : Nat}
    {pf : PendingFrame} (h1 : EntryOk (key, pf)) (hnew : ∀ x ∈ m, x.1 ≠ key) :
    TableOk ((key, pf) :: m) := by
  obtain ⟨ha, hb⟩ := h
  refine ⟨?_, ?_⟩
  · intro kv hkv
    rcases List.mem_cons.1 hkv with rfl | hk
    · exact h1
    · exact ha kv hk
  · simp only [List.map_cons, List.nodup_cons]
    refine ⟨?_, hb⟩
    intro hmem
    obtain ⟨x, hx, hxk⟩ := List.mem_map.1 hmem
    exact hnew x hx hxk

/-- Erasing the key of a well-formed entry removes that entry and no other. -/
theorem map_erase_entry {pre post : List (Nat × PendingFrame)} {key : Nat}
    {pf : PendingFrame} (h : ((pre ++ (key, pf) :: post).map Prod.fst).Nodup) :
    map_erase (pre ++ (key, pf) :: post) key = pre ++ post := by
  have hkeys : ∀ x ∈ pre ++ post, x.1 ≠ key := by
    intro x hx hk
    simp only [List.map_append, List.map_cons] at h
    have h1 := List.nodup_append.1 h
    have h2 := List.nodup_cons.1 h1.2.1
    rcases List.mem_append.1 hx with hp | hp
    · exact h1.2.2 (List.mem_map.2 ⟨x, hp, hk⟩) (by simp)
    · exact h2.1 (List.mem_map.2 ⟨x, hp, hk⟩)
  unfold map_erase
  rw [List.filter_append, List.filter_cons]
  simp only [beq_self_eq_true, Bool.not_true, Bool.false_eq_true, if_false]
  rw [← List.filter_append]
  apply List.filter_eq_self.2
  intro x hx
  simpa using hkeys x hx

theorem rd8_lt (p : List Byte) (i : Nat) : rd8 p i < 256 := (p.getD i 0).isLt

theorem TableOk.remove {pre post : List (Nat × PendingFrame)} {kv : Nat × PendingFrame}
    (h : TableOk (pre ++ kv :: post)) : TableOk (pre ++ post) := by
  obtain ⟨ha, hb⟩ := h
  refine ⟨?_, ?_⟩
  · intro x hx
    rcases List.mem_append.1 hx with hk | hk
    · exact ha x (List.mem_append.2 (Or.inl hk))
    · exact ha x (List.mem_append.2 (Or.inr (List.mem_cons_of_mem _ hk)))
  · simp only [List.map_append, List.map_cons] at hb ⊢
    exact List.Nodup.sublist
      (List.Sublist.append (List.Sublist.refl _) (List.sublist_cons_self _ _)) hb

theorem fd_guess_ok (abi : Abi) (fseq8 flow_id width height fmt : Nat) (h8 : fseq8 < 256)
    (hexp : ¬ (width * height * bytes_per_pixel abi fmt = 0 ∨
      width * height * bytes_per_pixel abi fmt > kMaxFrameBytes)) :
    EntryOk (fseq8, fd_guess abi fseq8 flow_id width height fmt) := by
  refine ⟨rfl, ?_, fun _ => h8, ?_, ?_, ?_, ?_, ?_⟩
  · simp only [fd_guess]; omega
  · simp only [fd_guess]; omega
  · simp only [fd_guess]; omega
  · simp [fd_guess]
  · simp [fd_guess]
  · simp only [fd_guess]; omega

theorem fd_locate_ok (abi : Abi) (frames : List (Nat × PendingFrame))
    (fseq8 flow_id width height fmt : Nat) (h8 : fseq8 < 256) (hok : TableOk frames)
    (pre post : List (Nat × PendingFrame)) (kv : Nat × PendingFrame)
    (h : fd_locate abi frames fseq8 flow_id width height fmt = some (pre, kv, post)) :
    TableOk (pre ++ kv :: post) := by
  unfold fd_locate at h
  cases hs : split_first (fun kv => kv.2.fseq8 == fseq8 && kv.2.info.flow_id == flow_id) frames
    with
  | some z =>
    rw [hs] at h
    simp only [Option.some.injEq] at h
    subst h
    rw [← (split_first_some _ _ _ _ _ hs).1]
    exact hok
  | none =>
    rw [hs] at h
    simp only at h
    by_cases hexp : width * height * bytes_per_pixel abi fmt = 0 ∨
        width * height * bytes_per_pixel abi fmt > kMaxFrameBytes
    · rw [if_pos hexp] at h; simp at h
    · rw [if_neg hexp] at h
      cases hk : split_first (fun kv => kv.1 == fseq8) frames with
      | some z =>
        rw [hk] at h
        simp only [Option.some.injEq] at h
        subst h
        rw [← (split_first_some _ _ _ _ _ hk).1]
        exact hok
      | none =>
        rw [hk] at h
        simp only [Option.some.injEq, Prod.mk.injEq] at h
        obtain ⟨rfl, rfl, rfl⟩ := h
        have hnone := split_first_none _ _ hk
        exact hok.cons_new (fd_guess_ok abi fseq8 flow_id width height fmt h8 hexp)
          (fun x hx => by simpa using hnone x hx)

theorem fd_commit_ok (now : Nat) (stats1 : FrameStats) (frames0 : List (Nat × PendingFrame))
    (src : List Byte) (offset payload_size fmt width height : Nat) (pattern : BayerPattern)
    (located : Option (List (Nat × PendingFrame) × (Nat × PendingFrame) ×
      List (Nat × PendingFrame)))
    (h0 : TableOk frames0)
    (hloc : ∀ pre kv post, located = some (pre, kv, post) → TableOk (pre ++ kv :: post))
    (hsrc : src.length = payload_size) :
    TableOk (fd_commit now stats1 frames0 src offset payload_size fmt width height pattern
      located).1.frames_ := by
  unfold fd_commit
  cases located with
  | none => exact h0
  | some z =>
    obtain ⟨pre, ⟨key, pf⟩, post⟩ := z
    have hl := hloc pre (key, pf) post rfl
    have hpf : EntryOk (key, pf) := hl.1 (key, pf) (by simp)
    simp only
    by_cases hover : offset + payload_size > pf.data.length
    · rw [if_pos hover]; exact hl
    · rw [if_neg hover]
      by_cases hdone : (if pf.expected > 0 then
          decide (wrap64 (pf.received_bytes + payload_size) ≥ pf.expected) else false) = true
      · rw [if_pos hdone]
        simp only
        have hk : pf.fseq32 = key := hpf.key_eq.symm
        rw [hk, map_erase_entry (by simpa using hl.2)]
        exact hl.remove
      · rw [if_neg hdone]
        apply hl.replace
        have hpos := hpf.expected_pos
        simp only [hpos, if_true, decide_eq_true_eq, not_le, gt_iff_lt, ge_iff_le] at hdone
        refine ⟨hpf.key_eq, hpf.fseq8_eq, hpf.synth_lt, hpf.expected_pos, hpf.expected_le, ?_, ?_,
          hdone⟩
        · simp only
          rw [memcpy_at_length _ _ _ (by rw [hsrc]; omega)]
          exact hpf.data_len
        · simp only
          split_ifs
          · rw [List.length_set]; exact hpf.received_len
          · exact hpf.received_len

theorem handle_fd_ok (abi : Abi) (now : Nat) (r : FrameReassembler) (packet : List Byte)
    (hok : TableOk r.frames_) : TableOk (handle_fd abi now r packet).1.frames_ := by
  rw [handle_fd_eq]
  by_cases h1 : packet.length < kFdHeaderSize
  · rw [if_pos h1]; exact hok
  · rw [if_neg h1]
    by_cases h2 : kFdHeaderSize + rd_be16 packet 6 > packet.length
    · rw [if_pos h2]; exact hok
    · rw [if_neg h2]
      apply fd_commit_ok _ _ _ _ _ _ _ _ _ _ _ hok
      · intro pre kv post hl
        exact fd_locate_ok abi r.frames_ _ _ _ _ _ (rd8_lt packet 5) hok pre post kv hl
      · simp only [List.length_take, List.length_drop]
        omega

theorem handle_fh_ok (abi : Abi) (packet : List Byte) (pf : PendingFrame)
    (h : handle_fh abi packet = some pf) : EntryOk (pf.fseq32, pf) := by
  unfold handle_fh at h
  by_cases h1 : packet.length < kFhHeaderSize
  · rw [if_pos h1] at h; simp at h
  · rw [if_neg h1] at h
    simp only at h
    by_cases h2 : rd_be32 packet 20 &&& 0x0FFFFFFF = 0 ∨
        rd_be32 packet 20 &&& 0x0FFFFFFF > kMaxFrameBytes
    · rw [if_pos h2] at h; simp at h
    · rw [if_neg h2] at h
      simp only [Option.some.injEq] at h
      subst h
      refine ⟨rfl, ?_, ?_, ?_, ?_, ?_, ?_, ?_⟩
      · simp only; rw [and_low8]; norm_num
      · simp
      · simp only; omega
      · simp only; omega
      · simp
      · simp
      · simp only; omega

theorem map_assign_ok (m : List (Nat × PendingFrame)) (k : Nat) (pf : PendingFrame)
    (hok : TableOk m) (hpf : EntryOk (k, pf)) : TableOk (map_assign m k pf) := by
  unfold map_assign
  cases hs : split_first (fun kv => kv.1 == k) m with
  | some z =>
    obtain ⟨pre, hit, post⟩ := z
    obtain ⟨h1, h2, _⟩ := split_first_some _ _ _ _ _ hs
    simp only
    have hk : hit.1 = k := by simpa using h2
    have : TableOk (pre ++ (k, hit.2) :: post) := by
      rw [← hk, ← h1]; exact hok
    exact this.replace hpf
  | none =>
    have hnone := split_first_none _ _ hs
    exact hok.cons_new hpf (fun x hx => by simpa using hnone x hx)

theorem ingest_ok (abi : Abi) (now : Nat) (r : FrameReassembler) (packet : List Byte)
    (hok : TableOk r.frames_) : TableOk (ingest abi now r packet).1.frames_ := by
  unfold ingest
  by_cases h1 : packet.length < 4
  · rw [if_pos h1]; exact hok
  · rw [if_neg h1]
    simp only
    by_cases h2 : rd_host32 abi packet 0 &&& LID_TYPE ≠ 0
    · rw [if_pos h2]
      cases hfh : handle_fh abi packet with
      | none => exact hok
      | some pf => exact map_assign_ok _ _ _ hok (handle_fh_ok abi packet pf hfh)
    · rw [if_neg h2]
      have := handle_fd_ok abi now r packet hok
      rcases hfd : handle_fd abi now r packet with ⟨r1, o⟩
      rw [hfd] at this
      cases o <;> exact this

theorem expire_loop_frames (recent_fseq max_distance : Nat) :
    ∀ (m : List (Nat × PendingFrame)) (s : FrameStats),
      (expire_loop recent_fseq max_distance m s).1
        = m.filter (fun kv => !(expired recent_fseq max_distance kv.1)) := by
  intro m
  induction m with
  | nil => intro s; rfl
  | cons kv m ih =>
    intro s
    unfold expire_loop
    by_cases h : expired recent_fseq max_distance kv.1 = true
    · rw [if_pos h, ih, List.filter_cons]
      simp [h]
    · rw [if_neg h, List.filter_cons]
      simp only [h, Bool.not_false, if_true, Bool.false_eq_true]
      rw [ih]

theorem expire_ok (r : FrameReassembler) (recent_fseq max_distance : Nat)
    (hok : TableOk r.frames_) :
    TableOk (expire_older_than r recent_fseq max_distance).frames_ := by
  unfold expire_older_than
  simp only
  rw [expire_loop_frames]
  exact hok.filter _

/-- Every reachable state satisfies the table invariant. -/
theorem reachable_ok (abi : Abi) (r : FrameReassembler) (h : Reachable abi r) :
    TableOk r.frames_ := by
  induction h with
  | fresh => exact tableOk_nil
  | ingest r now packet _ ih => exact ingest_ok abi now r packet ih
  | expire r recent_fseq max_distance _ ih => exact expire_ok r recent_fseq max_distance ih

/-- C7 (overrun rejection).  In every reachable state, for every FD packet
that passes the two length checks, is matched by the scan to a pending frame
by `(fseq8, flow_id)` and has `offset + size` greater than the expected size
of that frame, `ingest` returns an empty list, `frames_dropped` increases by
exactly 1 (in its 64-bit counter), and the pending table is untouched: the
matched frame, with its data buffer and `received_bytes`, is still in it. -/
theorem overrun_rejected (abi : Abi) (now : Nat) (r : FrameReassembler)
    (hr : Reachable abi r) (packet : List Byte)
    (hlen : kFdHeaderSize ≤ packet.length)
    (hsize : kFdHeaderSize + rd_be16 packet 6 ≤ packet.length)
    (hfd : rd_host32 abi packet 0 &&& LID_TYPE = 0)
    (pre post : List (Nat × PendingFrame)) (key : Nat) (pf : PendingFrame)
    (hmatch : split_first
        (fun kv => kv.2.fseq8 == rd8 packet 5 &&
          kv.2.info.flow_id == (rd_host32 abi packet 0 &&& 0x7FFFFFFF))
        r.frames_ = some (pre, (key, pf), post))
    (hover : offset_from_offs (rd_be32 packet 12) + rd_be16 packet 6 > pf.expected) :
    (ingest abi now r packet).2 = [] ∧
    (ingest abi now r packet).1.stats_.frames_dropped = wrap64 (r.stats_.frames_dropped + 1) ∧
    (r.stats_.frames_dropped + 1 < 2 ^ 64 →
      (ingest abi now r packet).1.stats_.frames_dropped = r.stats_.frames_dropped + 1) ∧
    (ingest abi now r packet).1.frames_ = r.frames_ ∧
    (key, pf) ∈ (ingest abi now r packet).1.frames_ := by
  have hok := reachable_ok abi r hr
  obtain ⟨hm, _, _⟩ := split_first_some _ _ _ _ _ hmatch
  have hpf : EntryOk (key, pf) := hok.1 (key, pf) (by rw [hm]; simp)
  have hdl : pf.data.length = pf.expected := hpf.data_len
  have hloc : fd_locate abi r.frames_ (rd8 packet 5) (rd_host32 abi packet 0 &&& 0x7FFFFFFF)
      (rd_be16 packet 8) (rd_be16 packet 10) (sample_format_from_bits abi (rd_be32 packet 12))
      = some (pre, (key, pf), post) := by
    unfold fd_locate
    rw [hmatch]
  have hfdres : handle_fd abi now r packet
      = ({ frames_ := r.frames_, stats_ := (fd_stats r (rd_be16 packet 6)).drop }, none) := by
    rw [handle_fd_eq, if_neg (by omega), if_neg (by omega), hloc]
    unfold fd_commit
    simp only
    rw [if_pos (by rw [hdl]; exact hover), ← hm]
  have hing : ingest abi now r packet
      = ({ frames_ := r.frames_, stats_ := (fd_stats r (rd_be16 packet 6)).drop }, []) := by
    unfold ingest
    rw [if_neg (by unfold kFdHeaderSize at hlen; omega)]
    simp only [hfd, ne_eq, not_true_eq_false, if_false, hfdres]
  rw [hing]
  refine ⟨rfl, rfl, ?_, rfl, ?_⟩
  · intro h
    simp only [FrameStats.drop, fd_stats, wrap64]
    omega
  · simp only
    rw [hm]
    simp

/-- Witness of C7: after the FH of the 64-byte frame, an FD with offset 60 and
size 12 is rejected. -/
theorem overrun_rejected_witness :
    (ingest ex_abi 0 ex_state_fh ex_overrun_fd).2 = [] ∧
    (ingest ex_abi 0 ex_state_fh ex_overrun_fd).1.stats_.frames_dropped = 1 ∧
    (ingest ex_abi 0 ex_state_fh ex_overrun_fd).1.frames_ = ex_state_fh.frames_ := by
  obtain ⟨h1, h2, _, h4, _⟩ := overrun_rejected ex_abi 0 ex_state_fh
    (Reachable.ingest _ _ _ Reachable.fresh) ex_overrun_fd (by decide) (by decide) (by decide)
    [] [] 2 (fh_pending ex_abi ex_info 2 77 64 ex_opts) (by decide) (by decide)
  exact ⟨h1, by rw [h2]; decide, h4⟩

theorem expire_loop_stats (recent_fseq max_distance : Nat) :
    ∀ (m : List (Nat × PendingFrame)) (s : FrameStats),
      (expire_loop recent_fseq max_distance m s).1.length ≤ m.length ∧
      (expire_loop recent_fseq max_distance m s).2.frames_completed = s.frames_completed ∧
      (expire_loop recent_fseq max_distance m s).2.fd_packets = s.fd_packets ∧
      (expire_loop recent_fseq max_distance m s).2.fh_packets = s.fh_packets ∧
      (expire_loop recent_fseq max_distance m s).2.bytes = s.bytes ∧
      (expire_loop recent_fseq max_distance m s).2.reorder_depth = s.reorder_depth ∧
      wrap64 (expire_loop recent_fseq max_distance m s).2.frames_dropped
        = wrap64 (s.frames_dropped
            + (m.length - (expire_loop recent_fseq max_distance m s).1.length)) ∧
      (s.frames_dropped + (m.length - (expire_loop recent_fseq max_distance m s).1.length)
          < 2 ^ 64 →
        (expire_loop recent_fseq max_distance m s).2.frames_dropped
          = s.frames_dropped
            + (m.length - (expire_loop recent_fseq max_distance m s).1.length)) := by
  intro m
  induction m with
  | nil =>
    intro s
    simp [expire_loop]
  | cons kv m ih =>
    intro s
    unfold expire_loop
    by_cases h : expired recent_fseq max_distance kv.1 = true
    · rw [if_pos h]
      obtain ⟨h1, h2, h3, h4, h5, h6, h7, h8⟩ := ih s.drop
      have hd : s.drop.frames_dropped = (s.frames_dropped + 1) % 2 ^ 64 := rfl
      rw [hd] at h7 h8
      generalize expire_loop recent_fseq max_distance m s.drop = res at h1 h2 h3 h4 h5 h6 h7 h8 ⊢
      simp only [List.length_cons, wrap64] at h7 h8 ⊢
      refine ⟨by omega, h2, h3, h4, h5, h6, ?_, ?_⟩
      · rw [h7]
        omega
      · intro hb
        rw [h8 (by omega)]
        omega
    · rw [if_neg h]
      obtain ⟨h1, h2, h3, h4, h5, h6, h7, h8⟩ := ih s
      generalize expire_loop recent_fseq max_distance m s = res at h1 h2 h3 h4 h5 h6 h7 h8 ⊢
      simp only [List.length_cons, wrap64] at h7 h8 ⊢
      refine ⟨by omega, h2, h3, h4, h5, h6, ?_, ?_⟩
      · rw [h7]; congr 1; omega
      · intro hb
        rw [h8 (by omega)]
        omega

/-- C8 (expiration).  For every reassembler state, `recent_fseq` and
`max_distance`, after `expire_older_than` the table holds exactly the former
entries for which NOT (`recent_fseq ≥ fseq32` and
`recent_fseq - fseq32 > max_distance`), each unchanged and in the same order;
`frames_dropped` has increased by exactly the number of entries removed (in
its 64-bit counter; literally so when that does not overflow) and every other
counter is unchanged. -/
theorem expire_older_than_spec (r : FrameReassembler) (recent_fseq max_distance : Nat) :
    (expire_older_than r recent_fseq max_distance).frames_
      = r.frames_.filter
          (fun kv => !(decide (recent_fseq ≥ kv.1) &&
            decide (recent_fseq - kv.1 > max_distance))) ∧
    wrap64 (expire_older_than r recent_fseq max_distance).stats_.frames_dropped
      = wrap64 (r.stats_.frames_dropped
          + (r.frames_.length - (expire_older_than r recent_fseq max_distance).frames_.length)) ∧
    (r.stats_.frames_dropped
        + (r.frames_.length - (expire_older_than r recent_fseq max_distance).frames_.length)
        < 2 ^ 64 →
      (expire_older_than r recent_fseq max_distance).stats_.frames_dropped
        = r.stats_.frames_dropped
          + (r.frames_.length
              - (expire_older_than r recent_fseq max_distance).frames_.length)) ∧
    (expire_older_than r recent_fseq max_distance).stats_.frames_completed
      = r.stats_.frames_completed ∧
    (expire_older_than r recent_fseq max_distance).stats_.fd_packets = r.stats_.fd_packets ∧
    (expire_older_than r recent_fseq max_distance).stats_.fh_packets = r.stats_.fh_packets ∧
    (expire_older_than r recent_fseq max_distance).stats_.bytes = r.stats_.bytes ∧
    (expire_older_than r recent_fseq max_distance).stats_.reorder_depth
      = r.stats_.reorder_depth := by
  obtain ⟨_, h2, h3, h4, h5, h6, h7, h8⟩ :=
    expire_loop_stats recent_fseq max_distance r.frames_ r.stats_
  refine ⟨?_, h7, h8, h2, h3, h4, h5, h6⟩
  simp only [expire_older_than]
  rw [expire_loop_frames]
  rfl

/-- The example of C8: three pending frames with `fseq32` 1, 2, 3 and
`expire_older_than(10, 4)`: all three are erased and `frames_dropped` goes from
0 to 3. -/
theorem expire_older_than_spec_witness :
    ex_state_three.frames_.map Prod.fst = [3, 2, 1] ∧
    ex_state_three.stats_.frames_dropped = 0 ∧
    (expire_older_than ex_state_three 10 4).frames_ = [] ∧
    (expire_older_than ex_state_three 10 4).stats_.frames_dropped = 3 := by
  obtain ⟨h1, _, h3, _⟩ := expire_older_than_spec ex_state_three 10 4
  have hf : (expire_older_than ex_state_three 10 4).frames_ = [] := by
    rw [h1]; decide
  refine ⟨by decide, by decide, hf, ?_⟩
  rw [h3 (by rw [hf]; decide), hf]
  decide

theorem subset_map_preimage {α β : Type} (f : α → β) (l : List α) :
    ∀ sel : List β, sel ⊆ l.map f → ∃ idx : List α, (∀ i ∈ idx, i ∈ l) ∧ idx.map f = sel := by
  intro sel
  induction sel with
  | nil => intro _; exact ⟨[], by simp, rfl⟩
  | cons x t ih =>
    intro h
    obtain ⟨idx, h1, h2⟩ := ih (fun y hy => h (List.mem_cons_of_mem _ hy))
    obtain ⟨a, ha, hax⟩ := List.mem_map.1 (h (List.mem_cons_self x t))
    refine ⟨a :: idx, ?_, by simp [hax, h2]⟩
    intro i hi
    rcases List.mem_cons.1 hi with rfl | hi
    · exact ha
    · exact h1 i hi

/-- C6 (loss detection).  A fresh reassembler ingests the FH of a frame and
then any strict subset of the frame's FD packets, each at most once, in any
order: no `ingest` call returns a frame and the pending entry keyed by
`fseq32` stays in the table, still incomplete; a following
`expire_older_than(r, d)` with `r ≥ fseq32` and `r - fseq32 > d` removes that
entry and increases `frames_dropped` by exactly 1 (in its 64-bit counter). -/
theorem loss_detection (abi : Abi) (hw : abi.WF) (info : FrameInfo) (fseq32 ts : Nat)
    (payload : List Byte) (opts : SenderOptions) (rolls : Nat → ℚ) (reorder : ReorderBuffer)
    (clock : Nat → Nat)
    (hty : InputsTyped info fseq32 ts opts) (hfmt : info.fmt ∈ abi.formats)
    (hpos : 0 < payload.length) (hmax : payload.length ≤ kMaxFrameBytes)
    (hc : 1 ≤ opts.fragment_payload)
    (hloss : opts.loss_percent = 0) (hdup : opts.duplicate_percent = 0)
    (hwin : opts.reorder_window = 0) (hrolls : RollsInRange rolls)
    (recent_fseq max_distance : Nat)
    (hrecent : recent_fseq ≥ fseq32) (hdist : recent_fseq - fseq32 > max_distance) :
    ∃ fh fds reorder1,
      fragment_frame abi info fseq32 ts payload opts rolls reorder
        = some (fh :: fds, reorder1) ∧
      fh.is_fh = true ∧
      ∀ sel : List FramePacket, sel.Nodup → sel ⊆ fds → sel.length < fds.length →
        ∃ r pf,
          ingest_all abi clock 0 FrameReassembler.fresh (fh.data :: sel.map (fun p => p.data))
            = (r, []) ∧
          r.frames_ = [(fseq32, pf)] ∧ pf.received_bytes < pf.expected ∧
          (expire_older_than r recent_fseq max_distance).frames_ = [] ∧
          (expire_older_than r recent_fseq max_distance).stats_.frames_dropped
            = wrap64 (r.stats_.frames_dropped + 1) ∧
          (r.stats_.frames_dropped + 1 < 2 ^ 64 →
            (expire_older_than r recent_fseq max_distance).stats_.frames_dropped
              = r.stats_.frames_dropped + 1) := by
  refine ⟨_, _, _, fragment_frame_lossfree abi info fseq32 ts payload opts rolls reorder hpos
    hmax hc hloss hdup hwin hrolls, rfl, ?_⟩
  intro sel hnd hsub hlen
  simp only [fd_packets, List.map_map] at hsub hlen
  obtain ⟨idx, hidx, hmap⟩ := subset_map_preimage _ _ sel hsub
  have hidx1 : ∀ i ∈ idx, i < nchunks payload.length opts.fragment_payload :=
    fun i hi => List.mem_range.1 (hidx i hi)
  have hnd1 : idx.Nodup := by
    rw [← hmap] at hnd
    exact List.Nodup.of_map _ hnd
  have hlen1 : idx.length < nchunks payload.length opts.fragment_payload := by
    rw [← hmap] at hlen
    simpa using hlen
  have hbytes := bytes_of_strict payload.length opts.fragment_payload hc idx hnd1 hidx1 hlen1
  obtain ⟨st0, hfh⟩ := ingest_fh_bytes abi hw info fseq32 ts payload.length opts hty hfmt hpos
    hmax (clock 0) FrameReassembler.fresh
  obtain ⟨st1, t, hrun⟩ := ingest_all_fds abi hw info fseq32 ts payload opts hty hfmt hmax hc
    clock idx 1 st0 [(fseq32, fh_pending abi info fseq32 ts payload.length opts)]
    (fh_pending abi info fseq32 ts payload.length opts) hidx1 (Or.inl rfl)
    (fh_pending_tracks abi info fseq32 ts payload.length opts)
    (by simp only [fh_pending]; exact hpos) (by simp only [fh_pending]; omega)
  rw [if_pos (by simp only [fh_pending]; omega)] at hrun
  have htr := (write_all_agrees info payload opts.fragment_payload hc idx
    (fh_pending abi info fseq32 ts payload.length opts) hidx1 (by simp [fh_pending])).1
  have hrb : ∀ (l : List Nat) (pf : PendingFrame),
      (∀ i ∈ l, i < nchunks payload.length opts.fragment_payload) →
      (write_all info payload opts.fragment_payload pf l).received_bytes
        = pf.received_bytes + bytes_of payload.length opts.fragment_payload l ∧
      (write_all info payload opts.fragment_payload pf l).expected = pf.expected := by
    intro l
    induction l with
    | nil => intro pf _; simp [write_all, bytes_of]
    | cons i rest ih =>
      intro pf hl
      have h := ih (fd_write pf info (i * opts.fragment_payload)
        (fd_slice payload opts.fragment_payload i)) (fun j hj => hl j (by simp [hj]))
      have hs := fd_slice_length payload opts.fragment_payload i hc (hl i (by simp))
      simp only [write_all, List.foldl_cons] at h ⊢
      rw [h.1, h.2]
      simp only [fd_write, bytes_of, List.map_cons, List.sum_cons, hs]
      exact ⟨by omega, trivial⟩
  obtain ⟨hrb1, hrb2⟩ := hrb idx (fh_pending abi info fseq32 ts payload.length opts) hidx1
  have hexp : expire_older_than
        ⟨[(fseq32, write_all info payload opts.fragment_payload
            (fh_pending abi info fseq32 ts payload.length opts) idx)], st1⟩
        recent_fseq max_distance
      = ⟨[], st1.drop⟩ := by
    simp [expire_older_than, expire_loop, expired, hrecent, hdist]
  refine ⟨{ frames_ := [(fseq32, write_all info payload opts.fragment_payload
      (fh_pending abi info fseq32 ts payload.length opts) idx)], stats_ := st1 }, _, ?_, rfl, ?_,
    ?_, ?_, ?_⟩
  · rw [← hmap, List.map_map]
    rw [show ((fun p : FramePacket => p.data) ∘
          ((fun d => ({ data := d, is_fh := false } : FramePacket)) ∘
            fd_packet abi info fseq32 payload opts))
        = fd_packet abi info fseq32 payload opts from rfl]
    simp only [ingest_all]
    rw [hfh]
    simp only [FrameReassembler.fresh, map_assign_nil, Nat.zero_add, List.nil_append]
    rw [hrun]
    rfl
  · rw [hrb1, hrb2]
    simp only [fh_pending]
    omega
  · rw [hexp]
  · rw [hexp]
    rfl
  · intro hb
    rw [hexp]
    simp only [FrameStats.drop, wrap64] at hb ⊢
    omega

/-- Witness of C6: the FH of the reorder-test frame and its first five FD
packets (the sixth is lost), then `expire_older_than(10, 4)`. -/
theorem loss_detection_witness :
    ∃ r pf,
      ingest_all ex_abi (fun _ => 0) 0 FrameReassembler.fresh
          (fh_bytes ex_abi ex_info 2 77 64 ex_opts ::
            (fd_packets ex_abi ex_info 2 ex_payload ex_opts).take 5) = (r, []) ∧
      r.frames_ = [(2, pf)] ∧ pf.received_bytes < pf.expected ∧
      (expire_older_than r 10 4).frames_ = [] := by
  obtain ⟨fh, fds, r1, h, _, hsel⟩ := loss_detection ex_abi (by decide) ex_info 2 77 ex_payload
    ex_opts ex_rolls ex_reorder (fun _ => 0) ex_typed (by decide) (by decide) (by decide)
    (by decide) rfl rfl rfl ex_rolls_in_range 10 4 (by decide) (by decide)
  rw [fragment_frame_lossfree ex_abi ex_info 2 77 ex_payload ex_opts ex_rolls ex_reorder
    (by decide) (by decide) (by decide) rfl rfl rfl ex_rolls_in_range] at h
  simp only [Option.some.injEq, Prod.mk.injEq, List.cons.injEq] at h
  obtain ⟨⟨rfl, rfl⟩, _⟩ := h
  obtain ⟨r, pf, h1, h2, h3, h4, _⟩ := hsel
    (((fd_packets ex_abi ex_info 2 ex_payload ex_opts).map
      (fun d => ({ data := d, is_fh := false } : FramePacket))).take 5)
    (by decide) (by decide) (by decide)
  refine ⟨r, pf, ?_, h2, h3, h4⟩
  rw [← h1]
  rfl

/-! ### Wire primitives and FD metadata (C11 to C15) -/

theorem fd_bytes_offs_any (abi : Abi) (info : FrameInfo) (fseq32 : Nat) (payload : List Byte)
    (opts : SenderOptions) (offset chunk : Nat) :
    rd_be32 (fd_bytes abi info fseq32 payload opts offset chunk) 12
      = offset % 2 ^ 28 + encode_sample_format info.fmt := by
  have hv : offset % 2 ^ 28 < 2 ^ 28 := Nat.mod_lt _ (by norm_num)
  have h1 := field_or_eq (offset % 2 ^ 28) info.fmt hv
  rw [and_low28, Nat.mod_mod] at h1
  have h0 := and_low28 offset
  have h2 := encode_sample_format_eq info.fmt
  have h3 : rd_be32 (fd_bytes abi info fseq32 payload opts offset chunk) 12
      = ((offset &&& 0x0FFFFFFF) ||| encode_sample_format info.fmt) % 2 ^ 32 := by
    cases h : abi.little_endian <;>
    simp [fd_bytes, host32, h, le32, be32, be16, rd_be32, rd8, toByte_val] <;> omega
  rw [h3, h0, h1]
  omega

theorem bayer_flag_lt (p : BayerPattern) : bayer_flag p < 256 := by
  cases p <;> decide

/-- One iteration of the loop of `fragment_frame`, with the `match` on the
rest of the loop written as a map. -/
theorem fd_loop_succ (abi : Abi) (info : FrameInfo) (fseq32 : Nat) (payload : List Byte)
    (opts : SenderOptions) (rolls : Nat → ℚ) (fuel offset i : Nat) (pending : List (List Byte)) :
    fd_loop abi info fseq32 payload opts rolls (fuel + 1) offset i pending =
      let chunk := min opts.fragment_payload (wrap32 (payload.length - offset))
      let d := fd_bytes abi info fseq32 payload opts offset chunk
      let q1 := pending ++ [d]
      let dup : List FramePacket :=
        if rolls i < double_add opts.loss_percent opts.duplicate_percent then [⟨d, false⟩] else []
      if offset < payload.length then
        if rolls i < opts.loss_percent then
          fd_loop abi info fseq32 payload opts rolls fuel (wrap32 (offset + chunk)) (i + 1) pending
        else if opts.reorder_window > 0 then
          if q1.length > opts.reorder_window then
            (fd_loop abi info fseq32 payload opts rolls fuel (wrap32 (offset + chunk)) (i + 1)
              q1.tail).map (fun res => (dup ++ [⟨q1.headD [], false⟩] ++ res.1, res.2))
          else
            (fd_loop abi info fseq32 payload opts rolls fuel (wrap32 (offset + chunk)) (i + 1)
              q1).map (fun res => (dup ++ res.1, res.2))
        else
          (fd_loop abi info fseq32 payload opts rolls fuel (wrap32 (offset + chunk)) (i + 1)
            pending).map (fun res => (dup ++ [⟨d, false⟩] ++ res.1, res.2))
      else some ([], pending) := by
  simp only [fd_loop]
  by_cases h1 : offset < payload.length
  · rw [if_pos h1, if_pos h1]
    by_cases h2 : rolls i < opts.loss_percent
    · rw [if_pos h2, if_pos h2]
    · rw [if_neg h2, if_neg h2]
      by_cases hw : opts.reorder_window > 0
      · simp only [hw, if_true]
        by_cases hq : (pending ++ [fd_bytes abi info fseq32 payload opts offset
            (min opts.fragment_payload (wrap32 (payload.length - offset)))]).length
            > opts.reorder_window
        · simp only [hq, if_true]
          cases fd_loop abi info fseq32 payload opts rolls fuel _ (i + 1) _ <;> simp
        · simp only [hq, if_false]
          cases fd_loop abi info fseq32 payload opts rolls fuel _ (i + 1) _ <;> simp
      · simp only [hw, if_false]
        cases fd_loop abi info fseq32 payload opts rolls fuel _ (i + 1) _ <;> simp
  · rw [if_neg h1, if_neg h1]

/-- The double sum of the 25 % and 50 % of `ex_opts_mix` is 75. -/
theorem ex_sum_mix :
    double_add ex_opts_mix.loss_percent ex_opts_mix.duplicate_percent = 75 := by
  have h := double_add_natCast 25 50 (by norm_num)
  norm_num at h
  exact h

/-- In `double` arithmetic `2^-60 + 60.734… = 60.734…`: the sum of the
percentages of `ex_opts_absorb` is its `duplicate_percent`. -/
theorem ex_sum_absorb :
    double_add ex_opts_absorb.loss_percent ex_opts_absorb.duplicate_percent
      = 8547569345421975 / 2 ^ 47 := by
  show double_add (1 / 2 ^ 60) (8547569345421975 / 2 ^ 47) = 8547569345421975 / 2 ^ 47
  unfold double_add
  rw [if_neg (by norm_num), if_neg (by norm_num)]
  unfold round_double
  rw [if_neg (by norm_num)]
  have hlog : Int.log 2 |(1 / 2 ^ 60 + 8547569345421975 / 2 ^ 47 : ℚ)| = 5 := by
    rw [abs_of_pos (by norm_num)]
    exact int_log_eq _ 5 (by norm_num) (by norm_num) (by norm_num)
  simp only [hlog]
  have hq : ((2 : ℚ) ^ ((max (5 : ℤ) (-1022)) - 52)) = 1 / 2 ^ 47 := by
    have : (max (5 : ℤ) (-1022)) - 52 = -47 := by decide
    rw [this]
    norm_num
  rw [hq]
  have hfl : ⌊((1 / 2 ^ 60 + 8547569345421975 / 2 ^ 47 : ℚ) / (1 / 2 ^ 47))⌋
      = 8547569345421975 := by
    rw [Int.floor_eq_iff]
    constructor <;> norm_num
  have hr : round_half_even ((1 / 2 ^ 60 + 8547569345421975 / 2 ^ 47 : ℚ) / (1 / 2 ^ 47))
      = 8547569345421975 := by
    unfold round_half_even
    rw [hfl, if_pos (by norm_num)]
  rw [hr]
  norm_num

/-- The loop of `fragment_frame` on the frame of the reorder test with the
options `ex_opts_mix` and the rolls `ex_rolls_mt`: fragment 0 is duplicated,
fragment 3 is lost, the window of 3 releases fragments 0 and 1 and holds
fragments 2, 4 and 5 at the end. -/
theorem ex_run_mix :
    fd_loop ex_abi ex_info 2 ex_payload ex_opts_mix ex_rolls_mt 64 0 0
        []
      = some ([⟨fd_bytes ex_abi ex_info 2 ex_payload ex_opts_mix 0 12, false⟩,
          ⟨fd_bytes ex_abi ex_info 2 ex_payload ex_opts_mix 0 12, false⟩,
          ⟨fd_bytes ex_abi ex_info 2 ex_payload ex_opts_mix 12 12, false⟩],
        [fd_bytes ex_abi ex_info 2 ex_payload ex_opts_mix 24 12,
          fd_bytes ex_abi ex_info 2 ex_payload ex_opts_mix 48 12,
          fd_bytes ex_abi ex_info 2 ex_payload ex_opts_mix 60 4]) := by
  have hl : ex_payload.length = 64 := by decide
  have hw : ex_opts_mix.reorder_window = 3 := rfl
  have hf : ex_opts_mix.fragment_payload = 12 := rfl
  have l0 : ¬ ex_rolls_mt 0 < ex_opts_mix.loss_percent := by norm_num [ex_rolls_mt, ex_opts_mix]
  have l1 : ¬ ex_rolls_mt 1 < ex_opts_mix.loss_percent := by norm_num [ex_rolls_mt, ex_opts_mix]
  have l2 : ¬ ex_rolls_mt 2 < ex_opts_mix.loss_percent := by norm_num [ex_rolls_mt, ex_opts_mix]
  have l3 : ex_rolls_mt 3 < ex_opts_mix.loss_percent := by norm_num [ex_rolls_mt, ex_opts_mix]
  have l4 : ¬ ex_rolls_mt 4 < ex_opts_mix.loss_percent := by norm_num [ex_rolls_mt, ex_opts_mix]
  have l5 : ¬ ex_rolls_mt 5 < ex_opts_mix.loss_percent := by norm_num [ex_rolls_mt, ex_opts_mix]
  have d0 : ex_rolls_mt 0
      < double_add ex_opts_mix.loss_percent ex_opts_mix.duplicate_percent := by
    rw [ex_sum_mix]; norm_num [ex_rolls_mt]
  have d1 : ¬ ex_rolls_mt 1
      < double_add ex_opts_mix.loss_percent ex_opts_mix.duplicate_percent := by
    rw [ex_sum_mix]; norm_num [ex_rolls_mt]
  have d2 : ¬ ex_rolls_mt 2
      < double_add ex_opts_mix.loss_percent ex_opts_mix.duplicate_percent := by
    rw [ex_sum_mix]; norm_num [ex_rolls_mt]
  have d4 : ¬ ex_rolls_mt 4
      < double_add ex_opts_mix.loss_percent ex_opts_mix.duplicate_percent := by
    rw [ex_sum_mix]; norm_num [ex_rolls_mt]
  have d5 : ¬ ex_rolls_mt 5
      < double_add ex_opts_mix.loss_percent ex_opts_mix.duplicate_percent := by
    rw [ex_sum_mix]; norm_num [ex_rolls_mt]
  have s6 : ∀ q, fd_loop ex_abi ex_info 2 ex_payload ex_opts_mix ex_rolls_mt 58 64 6 q
      = some ([], q) := by
    intro q
    rw [fd_loop_succ]
    simp only [hl, lt_irrefl, if_false]
  have s5 : fd_loop ex_abi ex_info 2 ex_payload ex_opts_mix ex_rolls_mt 59 60 5
        [fd_bytes ex_abi ex_info 2 ex_payload ex_opts_mix 12 12,
          fd_bytes ex_abi ex_info 2 ex_payload ex_opts_mix 24 12,
          fd_bytes ex_abi ex_info 2 ex_payload ex_opts_mix 48 12]
      = some ([⟨fd_bytes ex_abi ex_info 2 ex_payload ex_opts_mix 12 12, false⟩],
        [fd_bytes ex_abi ex_info 2 ex_payload ex_opts_mix 24 12,
          fd_bytes ex_abi ex_info 2 ex_payload ex_opts_mix 48 12,
          fd_bytes ex_abi ex_info 2 ex_payload ex_opts_mix 60 4]) := by
    rw [fd_loop_succ]
    simp [hl, hw, hf, wrap32, l5, d5, s6]
  have s4 : fd_loop ex_abi ex_info 2 ex_payload ex_opts_mix ex_rolls_mt 60 48 4
        [fd_bytes ex_abi ex_info 2 ex_payload ex_opts_mix 0 12,
          fd_bytes ex_abi ex_info 2 ex_payload ex_opts_mix 12 12,
          fd_bytes ex_abi ex_info 2 ex_payload ex_opts_mix 24 12]
      = some ([⟨fd_bytes ex_abi ex_info 2 ex_payload ex_opts_mix 0 12, false⟩,
          ⟨fd_bytes ex_abi ex_info 2 ex_payload ex_opts_mix 12 12, false⟩],
        [fd_bytes ex_abi ex_info 2 ex_payload ex_opts_mix 24 12,
          fd_bytes ex_abi ex_info 2 ex_payload ex_opts_mix 48 12,
          fd_bytes ex_abi ex_info 2 ex_payload ex_opts_mix 60 4]) := by
    rw [fd_loop_succ]
    simp [hl, hw, hf, wrap32, l4, d4, s5]
  have s3 : fd_loop ex_abi ex_info 2 ex_payload ex_opts_mix ex_rolls_mt 61 36 3
        [fd_bytes ex_abi ex_info 2 ex_payload ex_opts_mix 0 12,
          fd_bytes ex_abi ex_info 2 ex_payload ex_opts_mix 12 12,
          fd_bytes ex_abi ex_info 2 ex_payload ex_opts_mix 24 12]
      = some ([⟨fd_bytes ex_abi ex_info 2 ex_payload ex_opts_mix 0 12, false⟩,
          ⟨fd_bytes ex_abi ex_info 2 ex_payload ex_opts_mix 12 12, false⟩],
        [fd_bytes ex_abi ex_info 2 ex_payload ex_opts_mix 24 12,
          fd_bytes ex_abi ex_info 2 ex_payload ex_opts_mix 48 12,
          fd_bytes ex_abi ex_info 2 ex_payload ex_opts_mix 60 4]) := by
    rw [fd_loop_succ]
    simp [hl, hw, hf, wrap32, l3, s4]
  have s2 : fd_loop ex_abi ex_info 2 ex_payload ex_opts_mix ex_rolls_mt 62 24 2
        [fd_bytes ex_abi ex_info 2 ex_payload ex_opts_mix 0 12,
          fd_bytes ex_abi ex_info 2 ex_payload ex_opts_mix 12 12]
      = some ([⟨fd_bytes ex_abi ex_info 2 ex_payload ex_opts_mix 0 12, false⟩,
          ⟨fd_bytes ex_abi ex_info 2 ex_payload ex_opts_mix 12 12, false⟩],
        [fd_bytes ex_abi ex_info 2 ex_payload ex_opts_mix 24 12,
          fd_bytes ex_abi ex_info 2 ex_payload ex_opts_mix 48 12,
          fd_bytes ex_abi ex_info 2 ex_payload ex_opts_mix 60 4]) := by
    rw [fd_loop_succ]
    simp [hl, hw, hf, wrap32, l2, d2, s3]
  have s1 : fd_loop ex_abi ex_info 2 ex_payload ex_opts_mix ex_rolls_mt 63 12 1
        [fd_bytes ex_abi ex_info 2 ex_payload ex_opts_mix 0 12]
      = some ([⟨fd_bytes ex_abi ex_info 2 ex_payload ex_opts_mix 0 12, false⟩,
          ⟨fd_bytes ex_abi ex_info 2 ex_payload ex_opts_mix 12 12, false⟩],
        [fd_bytes ex_abi ex_info 2 ex_payload ex_opts_mix 24 12,
          fd_bytes ex_abi ex_info 2 ex_payload ex_opts_mix 48 12,
          fd_bytes ex_abi ex_info 2 ex_payload ex_opts_mix 60 4]) := by
    rw [fd_loop_succ]
    simp [hl, hw, hf, wrap32, l1, d1, s2]
  rw [fd_loop_succ]
  simp [hl, hw, hf, wrap32, l0, d0, s1]

/-- The call of `fragment_frame` of which `ex_run_mix` is the loop: the FH,
then six FDs, of the fragments 0, 0, 1, 2, 4 and 5. -/
theorem ex_fragment_mix :
    fragment_frame ex_abi ex_info 2 77 ex_payload ex_opts_mix ex_rolls_mt ex_reorder
      = some (⟨fh_bytes ex_abi ex_info 2 77 64 ex_opts_mix, true⟩ ::
          [⟨fd_bytes ex_abi ex_info 2 ex_payload ex_opts_mix 0 12, false⟩,
          ⟨fd_bytes ex_abi ex_info 2 ex_payload ex_opts_mix 0 12, false⟩,
          ⟨fd_bytes ex_abi ex_info 2 ex_payload ex_opts_mix 12 12, false⟩,
          ⟨fd_bytes ex_abi ex_info 2 ex_payload ex_opts_mix 24 12, false⟩,
          ⟨fd_bytes ex_abi ex_info 2 ex_payload ex_opts_mix 48 12, false⟩,
          ⟨fd_bytes ex_abi ex_info 2 ex_payload ex_opts_mix 60 4, false⟩],
        ⟨[], 0⟩) := by
  unfold fragment_frame
  rw [if_neg (by decide)]
  have hl : ex_payload.length = 64 := by decide
  have hp : ex_reorder.pending = [] := rfl
  rw [hl, hp, ex_run_mix]
  rfl

/-- C11 (FD header metadata).  For a frame whose format is one of the five
sample formats, under every setting of loss, duplication and reorder window
and every roll stream (reorder buffer empty on entry, as it is after every
call; `fragment_payload ≥ 1` and `payload_size < 2^32` so that the loop
terminates), every packet that `fragment_frame` returns after the FH is an FD
that carries `fseq = fseq32 & 0xFF`, `flags = bayer_flag(info.pattern)`,
`x_dim = info.width`, `y_dim = info.height`, the top nibble of `offs` equal to
`encode_sample_format(info.fmt)`, hence `sample_format_from_bits(offs) = info.fmt`
and `bayer_from_flag(flags) = info.pattern`, the type bit clear and
`flow_id = opts.flow_id & 0x7FFFFFFF`. -/
theorem fragment_frame_fd_metadata (abi : Abi) (hw : abi.WF) (info : FrameInfo)
    (fseq32 ts : Nat) (payload : List Byte) (opts : SenderOptions) (rolls : Nat → ℚ)
    (reorder : ReorderBuffer)
    (hty : InputsTyped info fseq32 ts opts) (hfmt : info.fmt ∈ abi.formats)
    (hpos : 0 < payload.length) (hlen : payload.length < 2 ^ 32)
    (hc : 1 ≤ opts.fragment_payload) (hempty : reorder.pending = []) :
    ∃ fh rest reorder1,
      fragment_frame abi info fseq32 ts payload opts rolls reorder
        = some (fh :: rest, reorder1) ∧
      fh.is_fh = true ∧
      ∀ p ∈ rest,
        p.is_fh = false ∧
        rd8 p.data 5 = fseq32 &&& 0xFF ∧
        rd8 p.data 4 = bayer_flag info.pattern ∧
        rd_be16 p.data 8 = info.width ∧
        rd_be16 p.data 10 = info.height ∧
        rd_be32 p.data 12 &&& 0xF0000000 = encode_sample_format info.fmt ∧
        sample_format_from_bits abi (rd_be32 p.data 12) = info.fmt ∧
        bayer_from_flag (rd8 p.data 4) = info.pattern ∧
        rd_host32 abi p.data 0 &&& LID_TYPE = 0 ∧
        rd_host32 abi p.data 0 &&& 0x7FFFFFFF = opts.flow_id &&& 0x7FFFFFFF := by
  have hQ : ∀ offset chunk,
      (fun d : List Byte =>
        rd8 d 5 = fseq32 &&& 0xFF ∧
        rd8 d 4 = bayer_flag info.pattern ∧
        rd_be16 d 8 = info.width ∧
        rd_be16 d 10 = info.height ∧
        rd_be32 d 12 &&& 0xF0000000 = encode_sample_format info.fmt ∧
        sample_format_from_bits abi (rd_be32 d 12) = info.fmt ∧
        bayer_from_flag (rd8 d 4) = info.pattern ∧
        rd_host32 abi d 0 &&& LID_TYPE = 0 ∧
        rd_host32 abi d 0 &&& 0x7FFFFFFF = opts.flow_id &&& 0x7FFFFFFF)
      (fd_bytes abi info fseq32 payload opts offset chunk) := by
    intro offset chunk
    have hv : offset % 2 ^ 28 < 2 ^ 28 := Nat.mod_lt _ (by norm_num)
    refine ⟨?_, fd_bytes_flags _ _ _ _ _ _ _, fd_bytes_width _ _ _ _ _ _ _ hty.width_lt,
      fd_bytes_height _ _ _ _ _ _ _ hty.height_lt, ?_, ?_, ?_, ?_, ?_⟩
    · rw [fd_bytes_fseq, and_low8]; norm_num
    · rw [fd_bytes_offs_any]; exact field_high _ _ hv
    · rw [fd_bytes_offs_any]; exact sample_format_roundtrip abi hw _ _ hv hfmt
    · rw [fd_bytes_flags, bayer_roundtrip]
    · rw [fd_bytes_lid, LID_TYPE, and_type_bit]; omega
    · rw [fd_bytes_lid, and_low31, and_low31]; omega
  obtain ⟨ps, q, hloop, hps, hq⟩ := fd_loop_returns abi info fseq32 payload opts rolls
    (fun d : List Byte =>
        rd8 d 5 = fseq32 &&& 0xFF ∧
        rd8 d 4 = bayer_flag info.pattern ∧
        rd_be16 d 8 = info.width ∧
        rd_be16 d 10 = info.height ∧
        rd_be32 d 12 &&& 0xF0000000 = encode_sample_format info.fmt ∧
        sample_format_from_bits abi (rd_be32 d 12) = info.fmt ∧
        bayer_from_flag (rd8 d 4) = info.pattern ∧
        rd_host32 abi d 0 &&& LID_TYPE = 0 ∧
        rd_host32 abi d 0 &&& 0x7FFFFFFF = opts.flow_id &&& 0x7FFFFFFF) hQ hc
    hlen payload.length 0 0 reorder.pending (by omega) (by omega) (by simp [hempty])
  unfold fragment_frame
  rw [if_neg (by omega), hloop]
  by_cases hwin : opts.reorder_window > 0
  · simp only [hwin, if_true]
    refine ⟨_, _, _, rfl, rfl, ?_⟩
    intro p hp
    rcases List.mem_append.1 hp with h | h
    · exact hps p h
    · obtain ⟨d, hd, rfl⟩ := List.mem_map.1 h
      exact ⟨rfl, hq d hd⟩
  · simp only [hwin, if_false]
    exact ⟨_, _, _, rfl, rfl, hps⟩

/-- Witness of C11: the frame of the reorder test sent with 25 % loss, 50 %
duplication and a reorder window of 3, with the rolls that the code draws for
it: six FDs follow the FH (fragment 0 twice, fragment 3 lost), at the offsets
0, 0, 12, 24, 48 and 60, and each carries the metadata of the frame. -/
theorem fragment_frame_fd_metadata_witness :
    ∃ fh rest reorder1,
      fragment_frame ex_abi ex_info 2 77 ex_payload ex_opts_mix ex_rolls_mt ex_reorder
        = some (fh :: rest, reorder1) ∧
      rest.map (fun p => offset_from_offs (rd_be32 p.data 12)) = [0, 0, 12, 24, 48, 60] ∧
      ∀ p ∈ rest, p.is_fh = false ∧ rd8 p.data 5 = 2 ∧ rd8 p.data 4 = 4 ∧
        rd_be16 p.data 8 = 16 ∧ rd_be16 p.data 10 = 4 ∧
        rd_be32 p.data 12 &&& 0xF0000000 = 0 ∧
        sample_format_from_bits ex_abi (rd_be32 p.data 12) = ex_abi.sf_8bit ∧
        bayer_from_flag (rd8 p.data 4) = BayerPattern.MONO ∧
        rd_host32 ex_abi p.data 0 &&& LID_TYPE = 0 ∧
        rd_host32 ex_abi p.data 0 &&& 0x7FFFFFFF = 1 := by
  obtain ⟨fh, rest, r1, h, _, hall⟩ :=
    fragment_frame_fd_metadata ex_abi (by decide) ex_info 2 77 ex_payload ex_opts_mix
      ex_rolls_mt ex_reorder
      ⟨by decide, by decide, by decide, by decide, by decide, by decide⟩
      (by decide) (by decide) (by decide) (by decide) rfl
  refine ⟨fh, rest, r1, h, ?_, fun p hp => ?_⟩
  · rw [ex_fragment_mix] at h
    simp only [Option.some.injEq, Prod.mk.injEq, List.cons.injEq] at h
    rw [← h.1.2]
    decide
  · obtain ⟨h1, h2, h3, h4, h5, h6, h7, h8, h9, h10⟩ := hall p hp
    exact ⟨h1, h2, h3, h4, h5, h6, h7, h8, h9, h10⟩

/-- C12 (offs/fsize field round trip).  For each of the five sample formats
`fmt` and every value `v < 2^28`,
`sample_format_from_bits(v | encode_sample_format(fmt)) = fmt` and
`(v | encode_sample_format(fmt)) & 0x0FFFFFFF = v`; `encode_sample_format(fmt)`
has no bit set below bit 28 and
`sample_format_from_bits(encode_sample_format(fmt)) = fmt`. -/
theorem field_roundtrip (abi : Abi) (hw : abi.WF) (fmt v : Nat) (hfmt : fmt ∈ abi.formats)
    (hv : v < 2 ^ 28) :
    sample_format_from_bits abi (v ||| encode_sample_format fmt) = fmt ∧
    (v ||| encode_sample_format fmt) &&& 0x0FFFFFFF = v ∧
    offset_from_offs (v ||| encode_sample_format fmt) = v ∧
    encode_sample_format fmt &&& 0x0FFFFFFF = 0 ∧
    (v ||| encode_sample_format fmt) &&& 0xF0000000 = encode_sample_format fmt ∧
    sample_format_from_bits abi (encode_sample_format fmt) = fmt := by
  have hor : v ||| encode_sample_format fmt = v + encode_sample_format fmt :=
    or_high_eq_add 28 _ _ hv (encode_sample_format_low fmt)
  have hlow := field_low v fmt hv
  have h0 := sample_format_roundtrip abi hw 0 fmt (by norm_num) hfmt
  rw [Nat.zero_add] at h0
  refine ⟨?_, ?_, ?_, ?_, ?_, h0⟩
  · rw [hor]; exact sample_format_roundtrip abi hw v fmt hv hfmt
  · rw [hor]; exact hlow
  · rw [hor]; exact hlow
  · rw [and_low28]; exact encode_sample_format_low fmt
  · rw [hor]; exact field_high v fmt hv

/-- Witness of C12: the 12-bit code of the example ABI with `v = 0x0abcdef`. -/
theorem field_roundtrip_witness :
    sample_format_from_bits ex_abi (0x0abcdef ||| encode_sample_format 0x20000000) = 0x20000000 ∧
    (0x0abcdef ||| encode_sample_format 0x20000000) &&& 0x0FFFFFFF = 0x0abcdef := by
  obtain ⟨h1, h2, _⟩ := field_roundtrip ex_abi (by decide) 0x20000000 0x0abcdef (by decide)
    (by decide)
  exact ⟨h1, h2⟩

/-- C13 (Bayer flag round trip).  For each of the five `BayerPattern` values
`p`, `bayer_from_flag(bayer_flag(p)) = p`; the flag fits the `uint8_t` it is
returned in. -/
theorem bayer_flag_roundtrip (p : BayerPattern) :
    bayer_from_flag (bayer_flag p) = p ∧ bayer_flag p < 256 := by
  cases p <;> exact ⟨rfl, by decide⟩

theorem bayer_from_flag_cases (n : Nat) :
    bayer_from_flag n =
      if n &&& 0x1F = 0 then BayerPattern.BAYER_G1RG2B
      else if n &&& 0x1F = 1 then BayerPattern.BAYER_RG1BG2
      else if n &&& 0x1F = 2 then BayerPattern.BAYER_G1BG2R
      else if n &&& 0x1F = 3 then BayerPattern.BAYER_BG1RG2
      else BayerPattern.MONO := by
  unfold bayer_from_flag
  generalize n &&& 0x1F = m
  match m with
  | 0 => rfl
  | 1 => rfl
  | 2 => rfl
  | 3 => rfl
  | k + 4 => simp

/-- C14 (Bayer decoding).  For every flag value `f` (in particular every
8-bit one), `bayer_from_flag(f)` depends only on `f & 0x1F`; it is G1RG2B,
RG1BG2, G1BG2R, BG1RG2 for `f & 0x1F` = 0, 1, 2, 3 respectively and MONO for
every other value. -/
theorem bayer_from_flag_spec (f : Nat) :
    (∀ g : Nat, f &&& 0x1F = g &&& 0x1F → bayer_from_flag f = bayer_from_flag g) ∧
    (f &&& 0x1F = 0 → bayer_from_flag f = BayerPattern.BAYER_G1RG2B) ∧
    (f &&& 0x1F = 1 → bayer_from_flag f = BayerPattern.BAYER_RG1BG2) ∧
    (f &&& 0x1F = 2 → bayer_from_flag f = BayerPattern.BAYER_G1BG2R) ∧
    (f &&& 0x1F = 3 → bayer_from_flag f = BayerPattern.BAYER_BG1RG2) ∧
    (f &&& 0x1F ≠ 0 → f &&& 0x1F ≠ 1 → f &&& 0x1F ≠ 2 → f &&& 0x1F ≠ 3 →
      bayer_from_flag f = BayerPattern.MONO) := by
  refine ⟨?_, ?_, ?_, ?_, ?_, ?_⟩
  · intro g h
    rw [bayer_from_flag_cases f, bayer_from_flag_cases g, h]
  · intro h; rw [bayer_from_flag_cases, if_pos h]
  · intro h; rw [bayer_from_flag_cases, h]; rfl
  · intro h; rw [bayer_from_flag_cases, h]; rfl
  · intro h; rw [bayer_from_flag_cases, h]; rfl
  · intro h0 h1 h2 h3
    rw [bayer_from_flag_cases, if_neg h0, if_neg h1, if_neg h2, if_neg h3]

/-- C15 (unrecognised sample format).  For every field value `x` (in
particular every 32-bit one), `sample_format_from_bits(x)` depends only on
`x & 0xF0000000`, is always one of the five known formats, and is the 8-bit
format whenever `x & 0xF0000000` is not the encoding of the 10-, 12-, 14- or
16-bit format. -/
theorem sample_format_from_bits_spec (abi : Abi) (hw : abi.WF) (x : Nat) :
    (∀ y : Nat, x &&& 0xF0000000 = y &&& 0xF0000000 →
      sample_format_from_bits abi x = sample_format_from_bits abi y) ∧
    sample_format_from_bits abi x ∈ abi.formats ∧
    (x &&& 0xF0000000 ≠ encode_sample_format abi.sf_10bit →
      x &&& 0xF0000000 ≠ encode_sample_format abi.sf_12bit →
      x &&& 0xF0000000 ≠ encode_sample_format abi.sf_14bit →
      x &&& 0xF0000000 ≠ encode_sample_format abi.sf_16bit →
      sample_format_from_bits abi x = abi.sf_8bit) := by
  obtain ⟨⟨_, a2, a3, a4, a5⟩, ⟨_, b2, b3, b4, b5⟩, _⟩ := hw
  refine ⟨?_, ?_, ?_⟩
  · intro y h
    unfold sample_format_from_bits
    simp only [h]
  · rw [mem_formats]
    unfold sample_format_from_bits
    simp only
    split_ifs <;> simp
  · rw [encode_sample_format_of_top _ a2 b2, encode_sample_format_of_top _ a3 b3,
      encode_sample_format_of_top _ a4 b4, encode_sample_format_of_top _ a5 b5]
    intro h1 h2 h3 h4
    unfold sample_format_from_bits
    simp only [h1, h2, h3, h4, if_false]
    split_ifs <;> rfl

/-- Witness of C15: in the example ABI the nibble 0xF is no known code and
decodes to the 8-bit format. -/
theorem sample_format_from_bits_spec_witness :
    sample_format_from_bits ex_abi 0xF1234567 = ex_abi.sf_8bit ∧
    sample_format_from_bits ex_abi 0xF1234567 ∈ ex_abi.formats := by
  obtain ⟨_, h2, h3⟩ := sample_format_from_bits_spec ex_abi (by decide) 0xF1234567
  exact ⟨h3 (by decide) (by decide) (by decide) (by decide), h2⟩

/-! ### Packets that `ingest` rejects or stores (C16 to C20) -/

theorem map_get_map_assign_self (m : List (Nat × PendingFrame)) (k : Nat) (pf : PendingFrame) :
    map_get (map_assign m k pf) k = some pf := by
  unfold map_get map_assign
  cases h : split_first (fun kv => kv.1 == k) m with
  | none => simp
  | some z =>
    obtain ⟨pre, hit, post⟩ := z
    obtain ⟨hm, hhit, hpre⟩ := split_first_some _ _ _ _ _ h
    have hnone : pre.find? (fun kv => kv.1 == k) = none := by
      rw [List.find?_eq_none]
      intro x hx
      simpa using hpre x hx
    simp [List.find?_append, hnone]

theorem map_get_map_assign_other (m : List (Nat × PendingFrame)) (k j : Nat) (pf : PendingFrame)
    (hj : j ≠ k) : map_get (map_assign m k pf) j = map_get m j := by
  unfold map_get map_assign
  cases h : split_first (fun kv => kv.1 == k) m with
  | none =>
    have hk : ¬ (k = j) := fun e => hj e.symm
    simp [List.find?_cons, hk]
  | some z =>
    obtain ⟨pre, hit, post⟩ := z
    obtain ⟨hm, hhit, hpre⟩ := split_first_some _ _ _ _ _ h
    have hk : ¬ (k = j) := fun e => hj e.symm
    have hh : ¬ (hit.1 = j) := by
      have : hit.1 = k := by simpa using hhit
      rw [this]; exact hk
    subst hm
    simp [List.find?_append, List.find?_cons, hk, hh]

theorem handle_fh_none_of_short (abi : Abi) (packet : List Byte)
    (h : packet.length < kFhHeaderSize) : handle_fh abi packet = none := by
  unfold handle_fh
  rw [if_pos h]

theorem handle_fh_none_of_size (abi : Abi) (packet : List Byte)
    (h : rd_be32 packet 20 &&& 0x0FFFFFFF = 0 ∨ rd_be32 packet 20 &&& 0x0FFFFFFF > kMaxFrameBytes) :
    handle_fh abi packet = none := by
  unfold handle_fh
  by_cases hl : packet.length < kFhHeaderSize
  · rw [if_pos hl]
  · rw [if_neg hl]
    simp only []
    rw [if_pos h]

theorem ingest_fh_none (abi : Abi) (now : Nat) (r : FrameReassembler) (packet : List Byte)
    (hbit : rd_host32 abi packet 0 &&& LID_TYPE ≠ 0) (hfh : handle_fh abi packet = none) :
    ingest abi now r packet = (r, []) := by
  unfold ingest
  by_cases h4 : packet.length < 4
  · rw [if_pos h4]
  · rw [if_neg h4]
    simp only []
    rw [if_pos hbit, hfh]

theorem ingest_fd_eq (abi : Abi) (now : Nat) (r : FrameReassembler) (packet : List Byte)
    (h4 : ¬ packet.length < 4) (hbit : rd_host32 abi packet 0 &&& LID_TYPE = 0) :
    ingest abi now r packet =
      ((handle_fd abi now r packet).1, (handle_fd abi now r packet).2.toList) := by
  unfold ingest
  rw [if_neg h4]
  simp only []
  rw [if_neg (by simpa using hbit)]
  rcases h : handle_fd abi now r packet with ⟨r1, o⟩
  cases o <;> rfl

/-- C17 (silent drops).  A packet shorter than 4 bytes, or with the type bit
of `lid` set and shorter than the FH header, or with the type bit clear and
shorter than the FD header, or with the type bit clear and
`kFdHeaderSize + size` above the packet length, makes `ingest` return the
empty list and leaves the whole reassembler (pending table and every
counter) as it was. -/
theorem ingest_silent_drop (abi : Abi) (now : Nat) (r : FrameReassembler) (packet : List Byte)
    (h : packet.length < 4 ∨
         (rd_host32 abi packet 0 &&& LID_TYPE ≠ 0 ∧ packet.length < kFhHeaderSize) ∨
         (rd_host32 abi packet 0 &&& LID_TYPE = 0 ∧ packet.length < kFdHeaderSize) ∨
         (rd_host32 abi packet 0 &&& LID_TYPE = 0 ∧
           kFdHeaderSize + rd_be16 packet 6 > packet.length)) :
    (ingest abi now r packet).2 = [] ∧
    (ingest abi now r packet).1.frames_ = r.frames_ ∧
    (ingest abi now r packet).1.stats_ = r.stats_ ∧
    stats (ingest abi now r packet).1 = stats r := by
  have key : ingest abi now r packet = (r, []) := by
    by_cases h4 : packet.length < 4
    · unfold ingest
      rw [if_pos h4]
    · rcases h with h | ⟨hbit, hl⟩ | ⟨hbit, hl⟩ | ⟨hbit, hl⟩
      · exact absurd h h4
      · exact ingest_fh_none abi now r packet hbit (handle_fh_none_of_short abi packet hl)
      · rw [ingest_fd_eq abi now r packet h4 hbit]
        unfold handle_fd
        rw [if_pos hl]
        rfl
      · rw [ingest_fd_eq abi now r packet h4 hbit]
        unfold handle_fd
        by_cases hs : packet.length < kFdHeaderSize
        · rw [if_pos hs]
          rfl
        · rw [if_neg hs]
          simp only []
          rw [if_pos hl]
          rfl
  rw [key]
  exact ⟨rfl, rfl, rfl, rfl⟩

/-- Witness of C17: an FD whose size field says 12 while only 4 payload bytes
follow the header, received while a frame is pending. -/
theorem ingest_silent_drop_witness :
    (rd_host32 ex_abi ex_truncated_fd 0 &&& LID_TYPE = 0 ∧
      kFdHeaderSize + rd_be16 ex_truncated_fd 6 > ex_truncated_fd.length) ∧
    (ingest ex_abi 0 ex_state_fh ex_truncated_fd).2 = [] ∧
    (ingest ex_abi 0 ex_state_fh ex_truncated_fd).1.frames_ = ex_state_fh.frames_ ∧
    (ingest ex_abi 0 ex_state_fh ex_truncated_fd).1.stats_ = ex_state_fh.stats_ ∧
    stats (ingest ex_abi 0 ex_state_fh ex_truncated_fd).1 = stats ex_state_fh :=
  ⟨by decide,
   ingest_silent_drop ex_abi 0 ex_state_fh ex_truncated_fd
     (Or.inr (Or.inr (Or.inr (by decide))))⟩

/-- An FH of at least header size whose expected size is 0 or above
`kMaxFrameBytes` leaves the reassembler untouched: nothing is returned,
nothing is inserted, and no counter moves. -/
theorem ingest_fh_invalid_size (abi : Abi) (now : Nat) (r : FrameReassembler)
    (packet : List Byte) (hbit : rd_host32 abi packet 0 &&& LID_TYPE ≠ 0)
    (h : rd_be32 packet 20 &&& 0x0FFFFFFF = 0 ∨ rd_be32 packet 20 &&& 0x0FFFFFFF > kMaxFrameBytes) :
    ingest abi now r packet = (r, []) :=
  ingest_fh_none abi now r packet hbit (handle_fh_none_of_size abi packet h)

/-- C18 (invalid FH size), failing input.  The FH that `fragment_frame`
builds for a 40 MiB frame has the type bit set, is `kFhHeaderSize` bytes long
and carries an expected size above 32 MiB.  `ingest` on a fresh reassembler
returns the empty list and inserts nothing, but `frames_dropped` stays 0
where the claim says it becomes 1. -/
theorem ingest_fh_oversize_not_counted :
    rd_host32 ex_abi ex_fh_oversize 0 &&& LID_TYPE ≠ 0 ∧
    kFhHeaderSize ≤ ex_fh_oversize.length ∧
    rd_be32 ex_fh_oversize 20 &&& 0x0FFFFFFF > kMaxFrameBytes ∧
    (ingest ex_abi 0 FrameReassembler.fresh ex_fh_oversize).2 = [] ∧
    (ingest ex_abi 0 FrameReassembler.fresh ex_fh_oversize).1.frames_ = [] ∧
    (stats (ingest ex_abi 0 FrameReassembler.fresh ex_fh_oversize).1).frames_dropped = 0 ∧
    (stats (ingest ex_abi 0 FrameReassembler.fresh ex_fh_oversize).1).frames_dropped
      ≠ (stats FrameReassembler.fresh).frames_dropped + 1 := by
  decide

theorem handle_fh_some (abi : Abi) (packet : List Byte)
    (hlen : kFhHeaderSize ≤ packet.length)
    (hpos : 0 < rd_be32 packet 20 &&& 0x0FFFFFFF)
    (hmax : rd_be32 packet 20 &&& 0x0FFFFFFF ≤ kMaxFrameBytes) :
    ∃ pf : PendingFrame, handle_fh abi packet = some pf ∧
      pf.fseq32 = rd_be32 packet 4 ∧
      pf.fseq8 = rd_be32 packet 4 &&& 0xFF ∧
      pf.ts = rd_be64 packet 8 ∧
      pf.info.width = rd_be16 packet 16 ∧
      pf.info.height = rd_be16 packet 18 ∧
      pf.info.fmt = sample_format_from_bits abi (rd_be32 packet 20) ∧
      pf.info.flow_id = rd_host32 abi packet 0 &&& 0x7FFFFFFF ∧
      pf.info.pattern = BayerPattern.MONO ∧
      pf.has_fh = true ∧
      pf.received_bytes = 0 ∧
      pf.expected = rd_be32 packet 20 &&& 0x0FFFFFFF ∧
      pf.data = List.replicate (rd_be32 packet 20 &&& 0x0FFFFFFF) 0 ∧
      pf.received = List.replicate (((rd_be32 packet 20 &&& 0x0FFFFFFF) + 1023) / 1024) false := by
  unfold handle_fh
  rw [if_neg (Nat.not_lt.mpr hlen)]
  simp only []
  rw [if_neg (by omega)]
  exact ⟨_, rfl, rfl, rfl, rfl, rfl, rfl, rfl, rfl, rfl, rfl, rfl, rfl, rfl, rfl⟩

theorem ingest_fh_some (abi : Abi) (now : Nat) (r : FrameReassembler) (packet : List Byte)
    (pf : PendingFrame) (h4 : ¬ packet.length < 4)
    (hbit : rd_host32 abi packet 0 &&& LID_TYPE ≠ 0) (hfh : handle_fh abi packet = some pf) :
    ingest abi now r packet =
      ({ frames_ := map_assign r.frames_ pf.fseq32 pf
         stats_ := { r.stats_ with
           fh_packets := wrap64 (r.stats_.fh_packets + 1)
           reorder_depth :=
             if (map_assign r.frames_ pf.fseq32 pf).length > r.stats_.reorder_depth then
               wrap32 (map_assign r.frames_ pf.fseq32 pf).length
             else r.stats_.reorder_depth } }, []) := by
  unfold ingest
  rw [if_neg h4]
  simp only []
  rw [if_pos hbit, hfh]

/-- C19 (valid FH ingestion).  For an FH of at least header size with
`0 < expected ≤ 32 MiB`, `ingest` returns the empty list and assigns a new
pending frame `pf` to key `fseq32`: the lookup of `fseq32` gives `pf`, the
lookup of every other key is as before, and `pf` has the listed fields
(`fseq8`, dimensions, format, flow, MONO, `has_fh`, no bytes received,
`expected` zero bytes, a cleared bitmap of `ceil(expected/1024)` blocks).
`fh_packets` grows by 1 as a 64-bit counter, `reorder_depth` becomes the
table size if that is larger (the maximum of both when the size fits 32
bits), and the other four counters keep their values. -/
theorem ingest_valid_fh (abi : Abi) (now : Nat) (r : FrameReassembler) (packet : List Byte)
    (hbit : rd_host32 abi packet 0 &&& LID_TYPE ≠ 0)
    (hlen : kFhHeaderSize ≤ packet.length)
    (hpos : 0 < rd_be32 packet 20 &&& 0x0FFFFFFF)
    (hmax : rd_be32 packet 20 &&& 0x0FFFFFFF ≤ kMaxFrameBytes) :
    ∃ pf : PendingFrame,
      (ingest abi now r packet).2 = [] ∧
      (ingest abi now r packet).1.frames_ = map_assign r.frames_ (rd_be32 packet 4) pf ∧
      map_get (ingest abi now r packet).1.frames_ (rd_be32 packet 4) = some pf ∧
      (∀ k, k ≠ rd_be32 packet 4 →
        map_get (ingest abi now r packet).1.frames_ k = map_get r.frames_ k) ∧
      pf.fseq32 = rd_be32 packet 4 ∧
      pf.fseq8 = rd_be32 packet 4 &&& 0xFF ∧
      pf.info.width = rd_be16 packet 16 ∧
      pf.info.height = rd_be16 packet 18 ∧
      pf.info.fmt = sample_format_from_bits abi (rd_be32 packet 20) ∧
      pf.info.flow_id = rd_host32 abi packet 0 &&& 0x7FFFFFFF ∧
      pf.info.pattern = BayerPattern.MONO ∧
      pf.has_fh = true ∧
      pf.received_bytes = 0 ∧
      pf.expected = rd_be32 packet 20 &&& 0x0FFFFFFF ∧
      pf.data = List.replicate (rd_be32 packet 20 &&& 0x0FFFFFFF) 0 ∧
      pf.received = List.replicate (((rd_be32 packet 20 &&& 0x0FFFFFFF) + 1023) / 1024) false ∧
      (stats (ingest abi now r packet).1).fh_packets = wrap64 ((stats r).fh_packets + 1) ∧
      ((stats r).fh_packets + 1 < 2 ^ 64 →
        (stats (ingest abi now r packet).1).fh_packets = (stats r).fh_packets + 1) ∧
      (stats (ingest abi now r packet).1).reorder_depth =
        (if (ingest abi now r packet).1.frames_.length > (stats r).reorder_depth then
          wrap32 (ingest abi now r packet).1.frames_.length
         else (stats r).reorder_depth) ∧
      ((ingest abi now r packet).1.frames_.length < 2 ^ 32 →
        (stats (ingest abi now r packet).1).reorder_depth =
          max (stats r).reorder_depth (ingest abi now r packet).1.frames_.length) ∧
      (stats (ingest abi now r packet).1).fd_packets = (stats r).fd_packets ∧
      (stats (ingest abi now r packet).1).bytes = (stats r).bytes ∧
      (stats (ingest abi now r packet).1).frames_completed = (stats r).frames_completed ∧
      (stats (ingest abi now r packet).1).frames_dropped = (stats r).frames_dropped := by
  obtain ⟨pf, hfh, h32, h8, _, hw, hh, hf, hfl, hp, hhas, hrb, hex, hd, hrc⟩ :=
    handle_fh_some abi packet hlen hpos hmax
  have h4 : ¬ packet.length < 4 := by
    have : kFhHeaderSize = 28 := rfl
    omega
  have key := ingest_fh_some abi now r packet pf h4 hbit hfh
  rw [h32] at key
  refine ⟨pf, ?_, ?_, ?_, ?_, h32, h8, hw, hh, hf, hfl, hp, hhas, hrb, hex, hd, hrc, ?_, ?_, ?_,
    ?_, ?_, ?_, ?_, ?_⟩
  · rw [key]
  · rw [key]
  · rw [key]; exact map_get_map_assign_self _ _ _
  · intro k hk
    rw [key]; exact map_get_map_assign_other _ _ _ _ hk
  · rw [key]; rfl
  · intro hlt
    rw [key]
    show wrap64 (r.stats_.fh_packets + 1) = r.stats_.fh_packets + 1
    exact Nat.mod_eq_of_lt hlt
  · rw [key]; rfl
  · intro hlt
    rw [key] at hlt ⊢
    show (if (map_assign r.frames_ (rd_be32 packet 4) pf).length > r.stats_.reorder_depth then
        wrap32 (map_assign r.frames_ (rd_be32 packet 4) pf).length
      else r.stats_.reorder_depth) = max r.stats_.reorder_depth _
    have hlt2 : (map_assign r.frames_ (rd_be32 packet 4) pf).length < 2 ^ 32 := hlt
    generalize (map_assign r.frames_ (rd_be32 packet 4) pf).length = n at hlt2 ⊢
    by_cases hn : n > r.stats_.reorder_depth
    · rw [if_pos hn]
      unfold wrap32
      rw [Nat.mod_eq_of_lt hlt2]
      omega
    · rw [if_neg hn]
      omega
  · rw [key]; rfl
  · rw [key]; rfl
  · rw [key]; rfl
  · rw [key]; rfl

/-- Witness of C19: a second FH for `fseq32 = 2`, announcing 48 bytes, arrives
while frames 1, 2 and 3 are pending. -/
theorem ingest_valid_fh_witness :
    ∃ pf : PendingFrame,
      map_get (ingest ex_abi 0 ex_state_three (fh_bytes ex_abi ex_info 2 80 48 ex_opts)).1.frames_ 2
        = some pf ∧
      pf.expected = 48 ∧ pf.has_fh = true ∧ pf.received_bytes = 0 ∧
      pf.data = List.replicate 48 0 := by
  obtain ⟨pf, _, _, hget, _, _, _, _, _, _, _, _, hhas, hrb, hex, hd, _⟩ :=
    ingest_valid_fh ex_abi 0 ex_state_three (fh_bytes ex_abi ex_info 2 80 48 ex_opts)
      (by decide) (by decide) (by decide) (by decide)
  have e4 : rd_be32 (fh_bytes ex_abi ex_info 2 80 48 ex_opts) 4 = 2 := by decide
  have e20 : rd_be32 (fh_bytes ex_abi ex_info 2 80 48 ex_opts) 20 &&& 0x0FFFFFFF = 48 := by decide
  rw [e4] at hget
  rw [e20] at hex hd
  exact ⟨pf, hget, hex, hhas, hrb, hd⟩

theorem fd_commit_completed (now : Nat) (stats1 : FrameStats)
    (frames0 : List (Nat × PendingFrame)) (src : List Byte)
    (offset payload_size fmt width height : Nat) (pattern : BayerPattern)
    (located : Option (List (Nat × PendingFrame) × (Nat × PendingFrame) ×
      List (Nat × PendingFrame))) :
    ((fd_commit now stats1 frames0 src offset payload_size fmt width height pattern located).2
        = none ∧
      (fd_commit now stats1 frames0 src offset payload_size fmt width height pattern
        located).1.stats_.frames_completed = stats1.frames_completed) ∨
    ((fd_commit now stats1 frames0 src offset payload_size fmt width height pattern
        located).2.isSome = true ∧
      (fd_commit now stats1 frames0 src offset payload_size fmt width height pattern
        located).1.stats_.frames_completed = wrap64 (stats1.frames_completed + 1)) := by
  unfold fd_commit
  rcases located with _ | ⟨pre, ⟨key, pf⟩, post⟩
  · left; exact ⟨rfl, rfl⟩
  · simp only []
    by_cases h1 : offset + payload_size > pf.data.length
    · rw [if_pos h1]
      left; exact ⟨rfl, rfl⟩
    · rw [if_neg h1]
      by_cases hdone : (if pf.expected > 0 then
          decide (wrap64 (pf.received_bytes + payload_size) ≥ pf.expected) else false) = true
      · rw [if_pos hdone]
        right; exact ⟨rfl, rfl⟩
      · rw [if_neg hdone]
        left; exact ⟨rfl, rfl⟩

theorem handle_fd_completed (abi : Abi) (now : Nat) (r : FrameReassembler)
    (packet : List Byte) :
    ((handle_fd abi now r packet).2 = none ∧
      (handle_fd abi now r packet).1.stats_.frames_completed = r.stats_.frames_completed) ∨
    ((handle_fd abi now r packet).2.isSome = true ∧
      (handle_fd abi now r packet).1.stats_.frames_completed
        = wrap64 (r.stats_.frames_completed + 1)) := by
  rw [handle_fd_eq]
  by_cases h1 : packet.length < kFdHeaderSize
  · rw [if_pos h1]
    left; exact ⟨rfl, rfl⟩
  · rw [if_neg h1]
    by_cases h2 : kFdHeaderSize + rd_be16 packet 6 > packet.length
    · rw [if_pos h2]
      left; exact ⟨rfl, rfl⟩
    · rw [if_neg h2]
      exact fd_commit_completed _ _ _ _ _ _ _ _ _ _ _

/-- C20 (at most one completion per packet).  For every state and every
packet the list returned by `ingest` has length 0 or 1; `frames_completed`
is unchanged when the list is empty and is the 64-bit successor of its old
value when the list has one element, so it grows by exactly the length of
the list unless the 64-bit counter overflows. -/
theorem ingest_at_most_one (abi : Abi) (now : Nat) (r : FrameReassembler)
    (packet : List Byte) :
    ((ingest abi now r packet).2.length = 0 ∨ (ingest abi now r packet).2.length = 1) ∧
    (stats (ingest abi now r packet).1).frames_completed =
      (if (ingest abi now r packet).2.length = 0 then (stats r).frames_completed
       else wrap64 ((stats r).frames_completed + 1)) ∧
    ((stats r).frames_completed + (ingest abi now r packet).2.length < 2 ^ 64 →
      (stats (ingest abi now r packet).1).frames_completed =
        (stats r).frames_completed + (ingest abi now r packet).2.length) := by
  have key : ((ingest abi now r packet).2.length = 0 ∧
        (ingest abi now r packet).1.stats_.frames_completed = r.stats_.frames_completed) ∨
      ((ingest abi now r packet).2.length = 1 ∧
        (ingest abi now r packet).1.stats_.frames_completed
          = wrap64 (r.stats_.frames_completed + 1)) := by
    by_cases h4 : packet.length < 4
    · left
      unfold ingest
      rw [if_pos h4]
      exact ⟨rfl, rfl⟩
    · by_cases hbit : rd_host32 abi packet 0 &&& LID_TYPE ≠ 0
      · left
        cases hfh : handle_fh abi packet with
        | none =>
          rw [ingest_fh_none abi now r packet hbit hfh]
          exact ⟨rfl, rfl⟩
        | some pf =>
          rw [ingest_fh_some abi now r packet pf h4 hbit hfh]
          exact ⟨rfl, rfl⟩
      · have hbit0 : rd_host32 abi packet 0 &&& LID_TYPE = 0 := by
          by_contra hne
          exact hbit hne
        rw [ingest_fd_eq abi now r packet h4 hbit0]
        rcases handle_fd_completed abi now r packet with ⟨hn, hc⟩ | ⟨hs, hc⟩
        · left
          refine ⟨?_, hc⟩
          show (handle_fd abi now r packet).2.toList.length = 0
          rw [hn]
          rfl
        · right
          refine ⟨?_, hc⟩
          show (handle_fd abi now r packet).2.toList.length = 1
          obtain ⟨cf, hcf⟩ := Option.isSome_iff_exists.mp hs
          rw [hcf]
          rfl
  unfold stats
  rcases key with ⟨hl, hc⟩ | ⟨hl, hc⟩
  · rw [hl, hc]
    refine ⟨Or.inl rfl, ?_, ?_⟩
    · rw [if_pos rfl]
    · intro _
      rfl
  · rw [hl, hc]
    refine ⟨Or.inr rfl, ?_, ?_⟩
    · rw [if_neg (by decide)]
    · intro hlt
      exact Nat.mod_eq_of_lt hlt

/-- C16 (flow isolation), failing input.  The state `ex_state_fh` is reached
by one `ingest` of an FH of flow 1 with `fseq32 = 2`; its only pending frame
belongs to flow 1 and has received nothing.  An FD of flow 2 with `fseq = 2`
and a valid synthesized size finds no `(fseq8, flow_id)` match, its
`emplace` under key 2 meets the entry of flow 1, and its twelve bytes are
written into that entry: the pending frame of flow 1 now counts 12 received
bytes and starts with twelve bytes 0xFF. -/
theorem flow_isolation_emplace_collision :
    Reachable ex_abi ex_state_fh ∧
    rd_host32 ex_abi ex_other_flow_fd 0 &&& LID_TYPE = 0 ∧
    rd_host32 ex_abi ex_other_flow_fd 0 &&& 0x7FFFFFFF = 2 ∧
    ex_state_fh.frames_.map
        (fun kv => (kv.1, kv.2.info.flow_id, kv.2.received_bytes, kv.2.data.take 12))
      = [(2, 1, 0, List.replicate 12 0)] ∧
    (ingest ex_abi 0 ex_state_fh ex_other_flow_fd).1.frames_.map
        (fun kv => (kv.1, kv.2.info.flow_id, kv.2.received_bytes, kv.2.data.take 12))
      = [(2, 1, 12, List.replicate 12 0xFF)] :=
  ⟨Reachable.ingest _ _ _ Reachable.fresh, by decide, by decide, by decide, by decide⟩

/-! ### Loss and duplication injection (C27, C28) -/

/-- With `reorder_window = 0` the loop pushes, for the `i`-th fragment,
nothing when its roll is below `loss_percent`, two copies when the roll is
not, and is below the double sum of `loss_percent` and `duplicate_percent`,
and one copy otherwise. -/
theorem fd_loop_window0 (abi : Abi) (info : FrameInfo) (fseq32 : Nat) (payload : List Byte)
    (opts : SenderOptions) (rolls : Nat → ℚ)
    (hc : 1 ≤ opts.fragment_payload) (hL : payload.length < 2 ^ 32)
    (hwin : opts.reorder_window = 0) :
    ∀ (fuel k : Nat) (pending : List (List Byte)),
      nchunks payload.length opts.fragment_payload - k ≤ fuel →
      k ≤ nchunks payload.length opts.fragment_payload →
      fd_loop abi info fseq32 payload opts rolls fuel
          (min (k * opts.fragment_payload) payload.length) k pending
        = some (((List.range' k (nchunks payload.length opts.fragment_payload - k)).map
            (fun i => List.replicate
              (if rolls i < opts.loss_percent then 0
               else if rolls i < double_add opts.loss_percent opts.duplicate_percent then 2 else 1)
              ({ data := fd_packet abi info fseq32 payload opts i, is_fh := false } :
                FramePacket))).flatten,
            pending) := by
  intro fuel
  induction fuel with
  | zero =>
    intro k pending hf hk
    have hkn : ¬ k < nchunks payload.length opts.fragment_payload := by omega
    rw [lt_nchunks _ _ _ hc] at hkn
    have h0 : nchunks payload.length opts.fragment_payload - k = 0 := by omega
    simp only [fd_loop, h0, List.range'_zero, List.map_nil, List.flatten_nil]
    rw [if_neg (by omega)]
  | succ fuel ih =>
    intro k pending hf hk
    by_cases hkn : k < nchunks payload.length opts.fragment_payload
    · have hlt := (lt_nchunks _ _ _ hc).1 hkn
      have hmin : min (k * opts.fragment_payload) payload.length = k * opts.fragment_payload := by
        omega
      have hchunk : min opts.fragment_payload
          (wrap32 (payload.length - k * opts.fragment_payload))
          = chunk_size payload.length opts.fragment_payload k := by
        unfold wrap32 chunk_size; omega
      have hnext : wrap32 (k * opts.fragment_payload
            + chunk_size payload.length opts.fragment_payload k)
          = min ((k + 1) * opts.fragment_payload) payload.length := by
        unfold wrap32 chunk_size; rw [Nat.add_mul]; omega
      have hsplit : nchunks payload.length opts.fragment_payload - k
          = (nchunks payload.length opts.fragment_payload - (k + 1)) + 1 := by omega
      rw [hmin]
      simp only [fd_loop]
      rw [if_pos hlt]
      simp only [hchunk, hnext, hwin, lt_irrefl, if_false]
      rw [ih (k + 1) pending (by omega) (by omega), hsplit, List.range'_succ]
      by_cases h1 : rolls k < opts.loss_percent
      · simp [h1]
      · by_cases h2 : rolls k < double_add opts.loss_percent opts.duplicate_percent
        · simp [h1, h2, fd_packet, List.replicate]
        · simp [h1, h2, fd_packet, List.replicate]
    · rw [lt_nchunks _ _ _ hc] at hkn
      have h0 : nchunks payload.length opts.fragment_payload - k = 0 := by
        have := (lt_nchunks payload.length opts.fragment_payload k hc)
        omega
      simp only [fd_loop, h0, List.range'_zero, List.map_nil, List.flatten_nil]
      rw [if_neg (by omega)]

theorem fragment_frame_window0 (abi : Abi) (info : FrameInfo) (fseq32 ts : Nat)
    (payload : List Byte) (opts : SenderOptions) (rolls : Nat → ℚ) (reorder : ReorderBuffer)
    (hpos : 0 < payload.length) (hL : payload.length < 2 ^ 32)
    (hc : 1 ≤ opts.fragment_payload) (hwin : opts.reorder_window = 0) :
    fragment_frame abi info fseq32 ts payload opts rolls reorder
      = some ({ data := fh_bytes abi info fseq32 ts payload.length opts, is_fh := true } ::
          ((List.range (nchunks payload.length opts.fragment_payload)).map
            (fun i => List.replicate
              (if rolls i < opts.loss_percent then 0
               else if rolls i < double_add opts.loss_percent opts.duplicate_percent then 2 else 1)
              ({ data := fd_packet abi info fseq32 payload opts i, is_fh := false } :
                FramePacket))).flatten, reorder) := by
  have h := fd_loop_window0 abi info fseq32 payload opts rolls hc hL hwin
    payload.length 0 reorder.pending
    (by have := nchunks_le payload.length opts.fragment_payload hc; omega) (by omega)
  simp only [Nat.zero_mul, Nat.zero_min, Nat.sub_zero] at h
  unfold fragment_frame
  rw [if_neg (by omega), h]
  simp [hwin, List.range_eq_range']




theorem flatten_replicate_keep {α : Type} (P : Nat → Prop) [DecidablePred P] (f : Nat → α) :
    ∀ l : List Nat,
      (l.map (fun i => List.replicate (if P i then 0 else 1) (f i))).flatten
        = (l.filter (fun i => decide (¬ P i))).map f := by
  intro l
  induction l with
  | nil => rfl
  | cons a l ih =>
    by_cases h : P a
    · simp [h, ih]
    · simp [h, ih, List.replicate]

/-- C27 (loss injection).  With `duplicate_percent = 0` and
`reorder_window = 0`, for every `loss_percent` and every sequence of rolls in
`[0,100)`: the loss-free fragmentation (the same call with `loss_percent = 0`)
is the FH followed by the FD datagrams `fd_packet 0 .. fd_packet (n-1)`, and
the call itself returns the FH followed by exactly those `fd_packet i` whose
roll `rolls i` is not below `loss_percent`, in increasing `i`; with
`loss_percent ≥ 100` it returns the FH alone.  The reorder buffer is left as
it was. -/
theorem fragment_frame_loss (abi : Abi) (info : FrameInfo) (fseq32 ts : Nat)
    (payload : List Byte) (opts : SenderOptions) (rolls : Nat → ℚ) (reorder : ReorderBuffer)
    (hpos : 0 < payload.length) (hL : payload.length < 2 ^ 32)
    (hc : 1 ≤ opts.fragment_payload)
    (hdup : opts.duplicate_percent = 0) (hwin : opts.reorder_window = 0)
    (hrolls : RollsInRange rolls) :
    fragment_frame abi info fseq32 ts payload { opts with loss_percent := 0 } rolls reorder
      = some ({ data := fh_bytes abi info fseq32 ts payload.length opts, is_fh := true } ::
          (List.range (nchunks payload.length opts.fragment_payload)).map
            (fun i => { data := fd_packet abi info fseq32 payload opts i, is_fh := false }),
          reorder) ∧
    fragment_frame abi info fseq32 ts payload opts rolls reorder
      = some ({ data := fh_bytes abi info fseq32 ts payload.length opts, is_fh := true } ::
          ((List.range (nchunks payload.length opts.fragment_payload)).filter
              (fun i => decide (¬ rolls i < opts.loss_percent))).map
            (fun i => { data := fd_packet abi info fseq32 payload opts i, is_fh := false }),
          reorder) ∧
    (100 ≤ opts.loss_percent →
      fragment_frame abi info fseq32 ts payload opts rolls reorder
        = some ([{ data := fh_bytes abi info fseq32 ts payload.length opts, is_fh := true }],
            reorder)) := by
  have hmain : fragment_frame abi info fseq32 ts payload opts rolls reorder
      = some ({ data := fh_bytes abi info fseq32 ts payload.length opts, is_fh := true } ::
          ((List.range (nchunks payload.length opts.fragment_payload)).filter
              (fun i => decide (¬ rolls i < opts.loss_percent))).map
            (fun i => { data := fd_packet abi info fseq32 payload opts i, is_fh := false }),
          reorder) := by
    rw [fragment_frame_window0 abi info fseq32 ts payload opts rolls reorder hpos hL hc hwin]
    have hcount : (fun i => List.replicate
          (if rolls i < opts.loss_percent then 0
           else if rolls i < double_add opts.loss_percent opts.duplicate_percent then 2 else 1)
          ({ data := fd_packet abi info fseq32 payload opts i, is_fh := false } : FramePacket))
        = (fun i => List.replicate (if rolls i < opts.loss_percent then 0 else 1)
          ({ data := fd_packet abi info fseq32 payload opts i, is_fh := false } : FramePacket)) := by
      funext i
      by_cases h : rolls i < opts.loss_percent
      · simp [h]
      · simp [h, hdup, double_add_zero]
    rw [hcount, flatten_replicate_keep (fun i => rolls i < opts.loss_percent)]
  refine ⟨?_, hmain, ?_⟩
  · rw [fragment_frame_window0 abi info fseq32 ts payload { opts with loss_percent := 0 } rolls
      reorder hpos hL hc hwin]
    have hcount : (fun i => List.replicate
          (if rolls i < (0 : ℚ) then 0
           else if rolls i < double_add (0 : ℚ) opts.duplicate_percent then 2 else 1)
          ({ data := fd_packet abi info fseq32 payload opts i, is_fh := false } : FramePacket))
        = (fun i => [({ data := fd_packet abi info fseq32 payload opts i, is_fh := false } :
            FramePacket)]) := by
      funext i
      have h0 : ¬ rolls i < 0 := not_lt.mpr (hrolls i).1
      simp [h0, hdup, double_add_zero, List.replicate]
    show some (_ :: (List.map (fun i => List.replicate
          (if rolls i < (0 : ℚ) then 0
           else if rolls i < double_add (0 : ℚ) opts.duplicate_percent then 2 else 1)
          ({ data := fd_packet abi info fseq32 payload opts i, is_fh := false } : FramePacket))
          (List.range (nchunks payload.length opts.fragment_payload))).flatten, reorder) = _
    rw [hcount]
    simp only [Option.some.injEq, Prod.mk.injEq, List.cons.injEq, and_true]
    refine ⟨rfl, ?_⟩
    generalize List.range (nchunks payload.length opts.fragment_payload) = l
    induction l with
    | nil => rfl
    | cons a l ih => simp [ih]
  · intro h100
    rw [hmain]
    have hnone : (List.range (nchunks payload.length opts.fragment_payload)).filter
        (fun i => decide (¬ rolls i < opts.loss_percent)) = [] := by
      rw [List.filter_eq_nil_iff]
      intro i _
      have := (hrolls i).2
      simp only [decide_eq_true_eq, not_not]
      exact lt_of_lt_of_le this h100
    rw [hnone]
    rfl



theorem ex_rolls_mix_in_range : RollsInRange ex_rolls_mix := by
  intro i
  unfold ex_rolls_mix
  split_ifs <;> norm_num

/-- Witness of C27: the 64-byte frame in six fragments with rolls 10, 60, 90,
10, 60, 90 and `loss_percent = 50`: fragments 0 and 3 are lost. -/
theorem fragment_frame_loss_witness :
    fragment_frame ex_abi ex_info 2 77 ex_payload { ex_opts with loss_percent := 50 }
        ex_rolls_mix ex_reorder
      = some ({ data := fh_bytes ex_abi ex_info 2 77 64 ex_opts, is_fh := true } ::
          [1, 2, 4, 5].map
            (fun i => { data := fd_packet ex_abi ex_info 2 ex_payload ex_opts i, is_fh := false }),
          ex_reorder) := by
  have h := (fragment_frame_loss ex_abi ex_info 2 77 ex_payload { ex_opts with loss_percent := 50 }
    ex_rolls_mix ex_reorder (by decide) (by decide) (by decide) rfl rfl ex_rolls_mix_in_range).2.1
  rw [h]
  have hn : nchunks ex_payload.length
      ({ ex_opts with loss_percent := 50 } : SenderOptions).fragment_payload = 6 := by decide
  rw [hn]
  have hf : (List.range 6).filter
      (fun i => decide (¬ ex_rolls_mix i < ({ ex_opts with loss_percent := 50 } : SenderOptions).loss_percent))
      = [1, 2, 4, 5] := by
    simp [List.range_succ, List.filter, ex_rolls_mix]
    norm_num
  rw [hf]
  rfl

theorem fd_packet_inj (abi : Abi) (info : FrameInfo) (fseq32 : Nat) (payload : List Byte)
    (opts : SenderOptions) (hc : 1 ≤ opts.fragment_payload) (h28 : payload.length ≤ 2 ^ 28)
    (i j : Nat) (hi : i < nchunks payload.length opts.fragment_payload)
    (hj : j < nchunks payload.length opts.fragment_payload)
    (h : fd_packet abi info fseq32 payload opts i = fd_packet abi info fseq32 payload opts j) :
    i = j := by
  have hi1 := (lt_nchunks _ _ _ hc).1 hi
  have hj1 := (lt_nchunks _ _ _ hc).1 hj
  have e := congrArg (fun p => rd_be32 p 12) h
  simp only [fd_packet, fd_bytes_offs_any] at e
  rw [Nat.mod_eq_of_lt (by omega), Nat.mod_eq_of_lt (by omega)] at e
  have e2 : i * opts.fragment_payload = j * opts.fragment_payload := by omega
  exact Nat.eq_of_mul_eq_mul_right (by omega) e2

theorem count_flatten_replicate {α : Type} [DecidableEq α] (f : Nat → α) (cnt : Nat → Nat) :
    ∀ (l : List Nat) (i : Nat), l.Nodup → i ∈ l → (∀ j ∈ l, f j = f i → j = i) →
      ((l.map (fun j => List.replicate (cnt j) (f j))).flatten).count (f i) = cnt i := by
  intro l
  induction l with
  | nil => intro i _ hi; simp at hi
  | cons a l ih =>
    intro i hnd hi hinj
    rw [List.nodup_cons] at hnd
    simp only [List.map_cons, List.flatten_cons, List.count_append]
    by_cases hai : a = i
    · subst hai
      have hrest : ((l.map (fun j => List.replicate (cnt j) (f j))).flatten).count (f a) = 0 := by
        rw [List.count_eq_zero]
        intro hmem
        rw [List.mem_flatten] at hmem
        obtain ⟨s, hs, hfs⟩ := hmem
        rw [List.mem_map] at hs
        obtain ⟨j, hj, rfl⟩ := hs
        have := (List.mem_replicate.mp hfs).2
        have hja := hinj j (List.mem_cons_of_mem _ hj) this.symm
        exact hnd.1 (hja ▸ hj)
      rw [hrest, List.count_replicate_self]
      rfl
    · have hil : i ∈ l := by
        rcases List.mem_cons.mp hi with h | h
        · exact absurd h.symm hai
        · exact h
      have hne : ¬ (f a = f i) := fun e => hai (hinj a (List.mem_cons_self _ _) e)
      rw [List.count_replicate]
      simp only [beq_iff_eq, hne, if_false, Nat.zero_add]
      exact ih i hnd.2 hil (fun j hj e => hinj j (List.mem_cons_of_mem _ hj) e)

/-- With `reorder_window = 0` the output of `fragment_frame` is the FH
followed, for `i = 0 .. n-1` in this order, by 0, 2 or 1 consecutive copies of
the `i`-th FD datagram, as its roll is below `loss_percent`, else below the
double sum of `loss_percent` and `duplicate_percent`, or neither; for a payload
of at most `2^28` bytes this number is the number of occurrences of the
datagram in the output. -/
theorem fragment_frame_copies (abi : Abi) (info : FrameInfo) (fseq32 ts : Nat)
    (payload : List Byte) (opts : SenderOptions) (rolls : Nat → ℚ) (reorder : ReorderBuffer)
    (hpos : 0 < payload.length) (hL : payload.length < 2 ^ 32)
    (hc : 1 ≤ opts.fragment_payload) (hwin : opts.reorder_window = 0) :
    fragment_frame abi info fseq32 ts payload opts rolls reorder
      = some ({ data := fh_bytes abi info fseq32 ts payload.length opts, is_fh := true } ::
        ((List.range (nchunks payload.length opts.fragment_payload)).map
          (fun i => List.replicate
            (if rolls i < opts.loss_percent then 0
             else if rolls i < double_add opts.loss_percent opts.duplicate_percent then 2 else 1)
            ({ data := fd_packet abi info fseq32 payload opts i, is_fh := false } :
              FramePacket))).flatten, reorder) ∧
    (payload.length ≤ 2 ^ 28 →
      ∀ i, i < nchunks payload.length opts.fragment_payload →
        List.count ({ data := fd_packet abi info fseq32 payload opts i, is_fh := false } :
            FramePacket)
          ({ data := fh_bytes abi info fseq32 ts payload.length opts, is_fh := true } ::
            ((List.range (nchunks payload.length opts.fragment_payload)).map
              (fun i => List.replicate
                (if rolls i < opts.loss_percent then 0
                 else if rolls i < double_add opts.loss_percent opts.duplicate_percent then 2
                 else 1)
                ({ data := fd_packet abi info fseq32 payload opts i, is_fh := false } :
                  FramePacket))).flatten)
          = (if rolls i < opts.loss_percent then 0
             else if rolls i < double_add opts.loss_percent opts.duplicate_percent then 2
             else 1)) := by
  refine ⟨fragment_frame_window0 abi info fseq32 ts payload opts rolls reorder hpos hL hc hwin,
    ?_⟩
  intro h28 i hi
  rw [List.count_cons]
  have hfh : (({ data := fh_bytes abi info fseq32 ts payload.length opts, is_fh := true } :
      FramePacket) == { data := fd_packet abi info fseq32 payload opts i, is_fh := false })
      = false := by
    simp
  rw [hfh]
  simp only [Bool.false_eq_true, if_false, Nat.add_zero]
  apply count_flatten_replicate
    (fun j => ({ data := fd_packet abi info fseq32 payload opts j, is_fh := false } :
      FramePacket))
    (fun i => if rolls i < opts.loss_percent then 0
      else if rolls i < double_add opts.loss_percent opts.duplicate_percent then 2 else 1)
  · exact List.nodup_range _
  · exact List.mem_range.mpr hi
  · intro j hj e
    have e2 : fd_packet abi info fseq32 payload opts j
        = fd_packet abi info fseq32 payload opts i := congrArg FramePacket.data e
    exact fd_packet_inj abi info fseq32 payload opts hc h28 j i (List.mem_range.mp hj) hi e2

/-- C28 (duplication injection), with the threshold the code tests.  With
`reorder_window = 0`, for every `loss_percent`, `duplicate_percent` and
sequence of rolls, `fragment_frame` returns the FH followed, for
`i = 0 .. n-1` in this order, by `copies i` consecutive copies of the `i`-th
FD datagram.  With `s` the sum of `loss_percent` and `duplicate_percent` as
the code computes it, in `double` arithmetic (`double_add`), `copies i` is 2
when `loss_percent ≤ rolls i < s`, 1 when `rolls i ≥ s` and
`rolls i ≥ loss_percent` (the latter follows from the former when
`loss_percent` is a double and `duplicate_percent ≥ 0`), and 0 when the roll
is below `loss_percent`.  When the exact sum is a `double`, `s` is the exact
sum.  For a payload of at most
`2^28` bytes the datagrams of different fragments differ, so `copies i` is the
number of occurrences of the `i`-th datagram in the output. -/
theorem fragment_frame_dup (abi : Abi) (info : FrameInfo) (fseq32 ts : Nat)
    (payload : List Byte) (opts : SenderOptions) (rolls : Nat → ℚ) (reorder : ReorderBuffer)
    (hpos : 0 < payload.length) (hL : payload.length < 2 ^ 32)
    (hc : 1 ≤ opts.fragment_payload) (hwin : opts.reorder_window = 0) :
    ∃ (copies : Nat → Nat) (out : List FramePacket),
      fragment_frame abi info fseq32 ts payload opts rolls reorder = some (out, reorder) ∧
      out = { data := fh_bytes abi info fseq32 ts payload.length opts, is_fh := true } ::
        ((List.range (nchunks payload.length opts.fragment_payload)).map
          (fun i => List.replicate (copies i)
            ({ data := fd_packet abi info fseq32 payload opts i, is_fh := false } :
              FramePacket))).flatten ∧
      (∀ i, opts.loss_percent ≤ rolls i →
        rolls i < double_add opts.loss_percent opts.duplicate_percent → copies i = 2) ∧
      (∀ i, opts.loss_percent ≤ rolls i →
        double_add opts.loss_percent opts.duplicate_percent ≤ rolls i → copies i = 1) ∧
      (round_double opts.loss_percent = opts.loss_percent → 0 ≤ opts.duplicate_percent →
        ∀ i, double_add opts.loss_percent opts.duplicate_percent ≤ rolls i → copies i = 1) ∧
      (∀ i, rolls i < opts.loss_percent → copies i = 0) ∧
      (round_double (opts.loss_percent + opts.duplicate_percent)
          = opts.loss_percent + opts.duplicate_percent →
        double_add opts.loss_percent opts.duplicate_percent
          = opts.loss_percent + opts.duplicate_percent) ∧
      (payload.length ≤ 2 ^ 28 →
        ∀ i, i < nchunks payload.length opts.fragment_payload →
          out.count { data := fd_packet abi info fseq32 payload opts i, is_fh := false }
            = copies i) := by
  refine ⟨fun i => if rolls i < opts.loss_percent then 0
      else if rolls i < double_add opts.loss_percent opts.duplicate_percent then 2 else 1, _,
    (fragment_frame_copies abi info fseq32 ts payload opts rolls reorder hpos hL hc hwin).1, rfl,
    ?_, ?_, ?_, ?_, ?_,
    (fragment_frame_copies abi info fseq32 ts payload opts rolls reorder hpos hL hc hwin).2⟩
  · intro i h1 h2
    simp only [not_lt.mpr h1, h2, if_false, if_true]
  · intro i h1 h2
    simp only [not_lt.mpr h1, not_lt.mpr h2, if_false]
  · intro hl hd i h2
    have h1 : opts.loss_percent ≤ rolls i := le_trans (double_add_ge _ _ hl hd) h2
    simp only [not_lt.mpr h1, not_lt.mpr h2, if_false]
  · intro i h1
    simp only [h1, if_true]
  · intro hexact
    exact double_add_exact _ _ hexact

/-- Witness of C28: the 64-byte frame in six fragments with rolls 10, 60, 90,
10, 60, 90, `loss_percent = 20` and `duplicate_percent = 50`, whose double
sum is 70: fragments 0 and 3 are lost, 1 and 4 are sent twice, 2 and 5 once. -/
theorem fragment_frame_dup_witness :
    ∃ (copies : Nat → Nat) (out : List FramePacket),
      fragment_frame ex_abi ex_info 2 77 ex_payload
          { ex_opts with loss_percent := 20, duplicate_percent := 50 } ex_rolls_mix ex_reorder
        = some (out, ex_reorder) ∧
      out = { data := fh_bytes ex_abi ex_info 2 77 64 ex_opts, is_fh := true } ::
        ((List.range 6).map
          (fun i => List.replicate (copies i)
            ({ data := fd_packet ex_abi ex_info 2 ex_payload ex_opts i, is_fh := false } :
              FramePacket))).flatten ∧
      copies 0 = 0 ∧ copies 1 = 2 ∧ copies 2 = 1 ∧ copies 3 = 0 ∧ copies 4 = 2 ∧ copies 5 = 1 := by
  obtain ⟨copies, out, h1, h2, hdup, hone, _, hloss, _⟩ := fragment_frame_dup ex_abi ex_info 2 77
    ex_payload { ex_opts with loss_percent := 20, duplicate_percent := 50 } ex_rolls_mix
    ex_reorder (by decide) (by decide) (by decide) rfl
  have hs : double_add (20 : ℚ) 50 = 70 := by
    have h := double_add_natCast 20 50 (by norm_num)
    norm_num at h
    exact h
  have hs2 : double_add
      ({ ex_opts with loss_percent := 20, duplicate_percent := 50 } : SenderOptions).loss_percent
      ({ ex_opts with loss_percent := 20, duplicate_percent := 50 } :
        SenderOptions).duplicate_percent = 70 := hs
  rw [hs2] at hdup hone
  refine ⟨copies, out, h1, h2, ?_, ?_, ?_, ?_, ?_, ?_⟩
  · exact hloss 0 (by norm_num [ex_rolls_mix])
  · exact hdup 1 (by norm_num [ex_rolls_mix]) (by norm_num [ex_rolls_mix])
  · exact hone 2 (by norm_num [ex_rolls_mix]) (by norm_num [ex_rolls_mix])
  · exact hloss 3 (by norm_num [ex_rolls_mix])
  · exact hdup 4 (by norm_num [ex_rolls_mix]) (by norm_num [ex_rolls_mix])
  · exact hone 5 (by norm_num [ex_rolls_mix]) (by norm_num [ex_rolls_mix])

/-- Counterexample to C28 as stated, with the exact sum.  The frame of the
reorder test is sent with the rolls that the code draws for it, no reordering,
`loss_percent = 2^-60` and `duplicate_percent` equal to the first roll,
60.734…; both are doubles.  The first roll `r` satisfies
`loss_percent ≤ r < loss_percent + duplicate_percent`, but the sum that the
code compares it with is the double nearest to the exact one, which is
`duplicate_percent` itself: the first FD is in the output once, not twice. -/
theorem fragment_frame_dup_counterexample :
    ex_opts_absorb.reorder_window = 0 ∧
    round_double ex_opts_absorb.loss_percent = ex_opts_absorb.loss_percent ∧
    round_double ex_opts_absorb.duplicate_percent = ex_opts_absorb.duplicate_percent ∧
    ex_opts_absorb.loss_percent ≤ ex_rolls_mt 0 ∧
    ex_rolls_mt 0 < ex_opts_absorb.loss_percent + ex_opts_absorb.duplicate_percent ∧
    double_add ex_opts_absorb.loss_percent ex_opts_absorb.duplicate_percent
      = round_double (ex_opts_absorb.loss_percent + ex_opts_absorb.duplicate_percent) ∧
    double_add ex_opts_absorb.loss_percent ex_opts_absorb.duplicate_percent
      = ex_opts_absorb.duplicate_percent ∧
    ∃ out,
      fragment_frame ex_abi ex_info 2 77 ex_payload ex_opts_absorb ex_rolls_mt ex_reorder
        = some (out, ex_reorder) ∧
      out.count { data := fd_packet ex_abi ex_info 2 ex_payload ex_opts_absorb 0, is_fh := false }
        = 1 := by
  have hloss : round_double ex_opts_absorb.loss_percent = ex_opts_absorb.loss_percent := by
    have h := round_double_normal (2 ^ 52) (-60) (le_refl _) (by norm_num) (by norm_num)
      (by norm_num)
    have e : (((2 ^ 52 : ℕ) : ℚ)) * 2 ^ ((-60 : ℤ) - 52) = 1 / 2 ^ 60 := by
      have : ((-60 : ℤ) - 52) = -112 := by decide
      rw [this]
      norm_num
    rw [e] at h
    exact h
  have hdup : round_double ex_opts_absorb.duplicate_percent
      = ex_opts_absorb.duplicate_percent := by
    have h := round_double_normal 8547569345421975 5 (by norm_num) (by norm_num) (by norm_num)
      (by norm_num)
    have e : (((8547569345421975 : ℕ) : ℚ)) * 2 ^ ((5 : ℤ) - 52) = 8547569345421975 / 2 ^ 47 := by
      have : ((5 : ℤ) - 52) = -47 := by decide
      rw [this]
      norm_num
    rw [e] at h
    exact h
  have hcp := fragment_frame_copies ex_abi ex_info 2 77 ex_payload ex_opts_absorb ex_rolls_mt
    ex_reorder (by decide) (by decide) (by decide) rfl
  refine ⟨rfl, hloss, hdup, ?_, ?_, double_add_eq_round _ _ hloss hdup, ex_sum_absorb,
    _, hcp.1, ?_⟩
  · norm_num [ex_opts_absorb, ex_rolls_mt]
  · norm_num [ex_opts_absorb, ex_rolls_mt]
  · rw [hcp.2 (by decide) 0 (by decide), ex_sum_absorb]
    norm_num [ex_opts_absorb, ex_rolls_mt]

/-! ### Emission, overrun and the table (C21 to C24) -/

theorem map_get_map_erase_self (m : List (Nat × PendingFrame)) (k : Nat) :
    map_get (map_erase m k) k = none := by
  unfold map_get map_erase
  rw [Option.map_eq_none', List.find?_eq_none]
  intro x hx hk
  have := (List.mem_filter.mp hx).2
  simp only [Bool.not_eq_true', beq_eq_false_iff_ne, ne_eq] at this
  exact this (by simpa using hk)

theorem map_get_map_erase_other (m : List (Nat × PendingFrame)) (k j : Nat) (hj : j ≠ k) :
    map_get (map_erase m k) j = map_get m j := by
  unfold map_get map_erase
  induction m with
  | nil => rfl
  | cons kv m ih =>
    by_cases h : kv.1 = k
    · have hkj : (kv.1 == j) = false := by
        rw [beq_eq_false_iff_ne]
        intro e
        exact hj (e.symm.trans h)
      rw [List.filter_cons_of_neg (by simp [h])]
      simp only [List.find?_cons, hkj]
      exact ih
    · rw [List.filter_cons_of_pos (by simp [h])]
      cases h2 : (kv.1 == j)
      · simp only [List.find?_cons, h2]
        exact ih
      · simp only [List.find?_cons, h2]

theorem map_erase_absent (m : List (Nat × PendingFrame)) (k : Nat) (h : ∀ x ∈ m, x.1 ≠ k) :
    map_erase m k = m := by
  unfold map_erase
  rw [List.filter_eq_self]
  intro x hx
  simpa using h x hx

theorem map_get_absent (m : List (Nat × PendingFrame)) (k : Nat) (h : ∀ x ∈ m, x.1 ≠ k) :
    map_get m k = none := by
  unfold map_get
  rw [Option.map_eq_none', List.find?_eq_none]
  intro x hx
  simpa using h x hx

theorem map_get_entry {pre post : List (Nat × PendingFrame)} {key : Nat} {pf : PendingFrame}
    (h : ((pre ++ (key, pf) :: post).map Prod.fst).Nodup) :
    map_get (pre ++ (key, pf) :: post) key = some pf := by
  unfold map_get
  have hpre : pre.find? (fun kv => kv.1 == key) = none := by
    rw [List.find?_eq_none]
    intro x hx hk
    rw [List.map_append, List.map_cons, List.nodup_append] at h
    have hxk : x.1 = key := by simpa using hk
    exact h.2.2 (List.mem_map_of_mem Prod.fst hx) (by simp [hxk])
  simp [List.find?_append, hpre]

/-- The pointer `pf` of `handle_fd` is either an entry of the table or the
entry just synthesized under a key that was free. -/
theorem fd_locate_cases (abi : Abi) (frames : List (Nat × PendingFrame))
    (fseq8 flow_id width height fmt : Nat)
    (pre post : List (Nat × PendingFrame)) (kv : Nat × PendingFrame)
    (h : fd_locate abi frames fseq8 flow_id width height fmt = some (pre, kv, post)) :
    frames = pre ++ kv :: post ∨
    (pre = [] ∧ post = frames ∧ kv = (fseq8, fd_guess abi fseq8 flow_id width height fmt) ∧
      (∀ x ∈ frames, x.1 ≠ fseq8) ∧
      ∀ x ∈ frames, ¬ (x.2.fseq8 = fseq8 ∧ x.2.info.flow_id = flow_id)) := by
  unfold fd_locate at h
  cases hs : split_first (fun kv => kv.2.fseq8 == fseq8 && kv.2.info.flow_id == flow_id) frames
    with
  | some z =>
    rw [hs] at h
    simp only [Option.some.injEq] at h
    subst h
    exact Or.inl (split_first_some _ _ _ _ _ hs).1
  | none =>
    rw [hs] at h
    simp only at h
    by_cases hexp : width * height * bytes_per_pixel abi fmt = 0 ∨
        width * height * bytes_per_pixel abi fmt > kMaxFrameBytes
    · rw [if_pos hexp] at h; simp at h
    · rw [if_neg hexp] at h
      cases hk : split_first (fun kv => kv.1 == fseq8) frames with
      | some z =>
        rw [hk] at h
        simp only [Option.some.injEq] at h
        subst h
        exact Or.inl (split_first_some _ _ _ _ _ hk).1
      | none =>
        rw [hk] at h
        simp only [Option.some.injEq, Prod.mk.injEq] at h
        obtain ⟨rfl, rfl, rfl⟩ := h
        refine Or.inr ⟨rfl, rfl, rfl, ?_, ?_⟩
        · intro x hx
          simpa using split_first_none _ _ hk x hx
        · intro x hx
          simpa using split_first_none _ _ hs x hx

/-- A completion in `fd_commit`: the frame is built from the entry pointed
to, and the table afterwards is the split table with `erase(pf->fseq32)`
applied. -/
theorem fd_commit_some (now : Nat) (stats1 : FrameStats) (frames0 : List (Nat × PendingFrame))
    (src : List Byte) (offset payload_size fmt width height : Nat) (pattern : BayerPattern)
    (located : Option (List (Nat × PendingFrame) × (Nat × PendingFrame) ×
      List (Nat × PendingFrame)))
    (r1 : FrameReassembler) (cf : CompletedFrame)
    (h : fd_commit now stats1 frames0 src offset payload_size fmt width height pattern located
      = (r1, some cf)) :
    ∃ pre key pf post pf1, located = some (pre, (key, pf), post) ∧
      cf.fseq32 = pf.fseq32 ∧ cf.payload = memcpy_at pf.data offset src ∧
      offset + payload_size ≤ pf.data.length ∧
      r1.frames_ = map_erase (pre ++ (key, pf1) :: post) pf.fseq32 := by
  unfold fd_commit at h
  cases located with
  | none => simp at h
  | some z =>
    obtain ⟨pre, ⟨key, pf⟩, post⟩ := z
    simp only at h
    by_cases hover : offset + payload_size > pf.data.length
    · rw [if_pos hover] at h; simp at h
    · rw [if_neg hover] at h
      by_cases hdone : (if pf.expected > 0 then
          decide (wrap64 (pf.received_bytes + payload_size) ≥ pf.expected) else false) = true
      · rw [if_pos hdone] at h
        simp only [Prod.mk.injEq, Option.some.injEq] at h
        obtain ⟨h1, h2⟩ := h
        subst h1 h2
        exact ⟨pre, key, pf, post, _, rfl, rfl, rfl, by omega, rfl⟩
      · rw [if_neg hdone] at h; simp at h

/-- When `handle_fd` completes a frame in a table with unique keys, the
table afterwards is the table before with the key of the frame erased. -/
theorem handle_fd_some (abi : Abi) (now : Nat) (r : FrameReassembler) (packet : List Byte)
    (hok : TableOk r.frames_) (r1 : FrameReassembler) (cf : CompletedFrame)
    (h : handle_fd abi now r packet = (r1, some cf)) :
    r1.frames_ = map_erase r.frames_ cf.fseq32 ∧
    ∃ pf : PendingFrame, cf.fseq32 = pf.fseq32 ∧
      cf.payload = memcpy_at pf.data (offset_from_offs (rd_be32 packet 12))
        ((packet.drop kFdHeaderSize).take (rd_be16 packet 6)) ∧
      (map_get r.frames_ cf.fseq32 = some pf ∨
        (map_get r.frames_ cf.fseq32 = none ∧
          pf = fd_guess abi (rd8 packet 5) (rd_host32 abi packet 0 &&& 0x7FFFFFFF)
            (rd_be16 packet 8) (rd_be16 packet 10)
            (sample_format_from_bits abi (rd_be32 packet 12)))) := by
  rw [handle_fd_eq] at h
  by_cases h1 : packet.length < kFdHeaderSize
  · rw [if_pos h1] at h; simp at h
  · rw [if_neg h1] at h
    by_cases h2 : kFdHeaderSize + rd_be16 packet 6 > packet.length
    · rw [if_pos h2] at h; simp at h
    · rw [if_neg h2] at h
      obtain ⟨pre, key, pf, post, pf1, hloc, hseq, hpay, _, hfr⟩ :=
        fd_commit_some _ _ _ _ _ _ _ _ _ _ _ _ _ h
      have hl := fd_locate_ok abi r.frames_ _ _ _ _ _ (rd8_lt packet 5) hok pre post (key, pf) hloc
      have hkey : key = pf.fseq32 := (hl.1 (key, pf) (by simp)).key_eq
      have hnd : ((pre ++ (key, pf1) :: post).map Prod.fst).Nodup := by
        have := hl.2
        simpa [List.map_append] using this
      rw [← hkey, map_erase_entry hnd] at hfr
      rw [hseq, ← hkey]
      rcases fd_locate_cases abi r.frames_ _ _ _ _ _ pre post (key, pf) hloc with hA | hB
      · refine ⟨?_, pf, hkey, hpay, Or.inl ?_⟩
        · rw [hfr, hA, map_erase_entry hl.2]
        · rw [hA]; exact map_get_entry hl.2
      · obtain ⟨hpre, hpost, hkv, habs, _⟩ := hB
        have hk8 : key = rd8 packet 5 := (Prod.mk.inj hkv).1
        have hpf : pf = _ := (Prod.mk.inj hkv).2
        rw [← hk8] at habs
        refine ⟨?_, pf, hkey, hpay, Or.inr ⟨map_get_absent _ _ habs, ?_⟩⟩
        · rw [hfr, hpre, hpost, map_erase_absent _ _ habs]
          rfl
        · rw [hpf]

theorem ingest_emits (abi : Abi) (now : Nat) (r : FrameReassembler) (packet : List Byte)
    (cf : CompletedFrame) (hout : (ingest abi now r packet).2 = [cf]) :
    handle_fd abi now r packet = ((ingest abi now r packet).1, some cf) := by
  by_cases h4 : packet.length < 4
  · unfold ingest at hout
    rw [if_pos h4] at hout
    simp at hout
  · by_cases hbit : rd_host32 abi packet 0 &&& LID_TYPE ≠ 0
    · cases hfh : handle_fh abi packet with
      | none =>
        rw [ingest_fh_none abi now r packet hbit hfh] at hout
        simp at hout
      | some pf =>
        rw [ingest_fh_some abi now r packet pf h4 hbit hfh] at hout
        simp at hout
    · have hbit0 : rd_host32 abi packet 0 &&& LID_TYPE = 0 := by
        by_contra hne
        exact hbit hne
      rw [ingest_fd_eq abi now r packet h4 hbit0] at hout ⊢
      simp only at hout ⊢
      cases ho : (handle_fd abi now r packet).2 with
      | none => rw [ho] at hout; simp at hout
      | some c =>
        rw [ho] at hout
        simp only [Option.toList, List.cons.injEq, and_true] at hout
        rw [← hout]
        exact Prod.ext rfl ho

/-- C21 (emission removes the entry).  In every reachable state, when
`ingest` returns a `CompletedFrame`, the table afterwards is the table before
with the key `fseq32` of that frame erased: the key is no longer present, the
lookup of every other key is unchanged, every other entry is still there and
no entry was added.  The frame was built from the pending frame `pf`, which
is either the entry stored under that key before the call, or the frame
synthesized and completed by this very FD, which was never in the table. -/
theorem emission_erases_entry (abi : Abi) (now : Nat) (r : FrameReassembler)
    (packet : List Byte) (cf : CompletedFrame) (hr : Reachable abi r)
    (hout : (ingest abi now r packet).2 = [cf]) :
    (ingest abi now r packet).1.frames_ = map_erase r.frames_ cf.fseq32 ∧
    map_get (ingest abi now r packet).1.frames_ cf.fseq32 = none ∧
    (∀ kv ∈ (ingest abi now r packet).1.frames_, kv.1 ≠ cf.fseq32) ∧
    (∀ k, k ≠ cf.fseq32 →
      map_get (ingest abi now r packet).1.frames_ k = map_get r.frames_ k) ∧
    (∀ kv ∈ r.frames_, kv.1 ≠ cf.fseq32 → kv ∈ (ingest abi now r packet).1.frames_) ∧
    (∀ kv ∈ (ingest abi now r packet).1.frames_, kv ∈ r.frames_) ∧
    ∃ pf : PendingFrame, cf.fseq32 = pf.fseq32 ∧
      cf.payload = memcpy_at pf.data (offset_from_offs (rd_be32 packet 12))
        ((packet.drop kFdHeaderSize).take (rd_be16 packet 6)) ∧
      (map_get r.frames_ cf.fseq32 = some pf ∨
        (map_get r.frames_ cf.fseq32 = none ∧
          pf = fd_guess abi (rd8 packet 5) (rd_host32 abi packet 0 &&& 0x7FFFFFFF)
            (rd_be16 packet 8) (rd_be16 packet 10)
            (sample_format_from_bits abi (rd_be32 packet 12)))) := by
  have hfd := ingest_emits abi now r packet cf hout
  obtain ⟨hfr, hpf⟩ := handle_fd_some abi now r packet (reachable_ok abi r hr) _ cf hfd
  refine ⟨hfr, ?_, ?_, ?_, ?_, ?_, hpf⟩
  · rw [hfr]; exact map_get_map_erase_self _ _
  · rw [hfr]
    intro kv hkv
    unfold map_erase at hkv
    simpa using (List.mem_filter.mp hkv).2
  · intro k hk
    rw [hfr]; exact map_get_map_erase_other _ _ _ hk
  · intro kv hkv hne
    rw [hfr]
    unfold map_erase
    exact List.mem_filter.mpr ⟨hkv, by simpa using hne⟩
  · intro kv hkv
    rw [hfr] at hkv
    unfold map_erase at hkv
    exact (List.mem_filter.mp hkv).1




theorem reachable_ingest_all (abi : Abi) (clock : Nat → Nat) :
    ∀ (ps : List (List Byte)) (k : Nat) (r : FrameReassembler),
      Reachable abi r → Reachable abi (ingest_all abi clock k r ps).1 := by
  intro ps
  induction ps with
  | nil => intro k r h; exact h
  | cons p ps ih =>
    intro k r h
    exact ih (k + 1) _ (Reachable.ingest r (clock k) p h)

theorem ex_state_three_reachable : Reachable ex_abi ex_state_three :=
  reachable_ingest_all ex_abi _ _ 0 _ Reachable.fresh

/-- Witness of C21: with frames 1, 2 and 3 pending, one FD carrying all 64
bytes of frame 2 completes it; key 2 is erased and keys 3 and 1 remain. -/
theorem emission_erases_entry_witness :
    (ingest ex_abi 0 ex_state_three ex_whole_fd).2
      = [{ info := ex_info, fseq32 := 2, timestamp := 78, payload := ex_payload }] ∧
    ex_state_three.frames_.map Prod.fst = [3, 2, 1] ∧
    (ingest ex_abi 0 ex_state_three ex_whole_fd).1.frames_ = map_erase ex_state_three.frames_ 2 ∧
    (map_erase ex_state_three.frames_ 2).map Prod.fst = [3, 1] :=
  ⟨by decide, by decide,
   (emission_erases_entry ex_abi 0 ex_state_three ex_whole_fd
     { info := ex_info, fseq32 := 2, timestamp := 78, payload := ex_payload }
     ex_state_three_reachable (by decide)).1, by decide⟩

/-- C22, as the code behaves (overrun keeps the frame).  In every reachable
state, for an FD that passes the two length checks, whose target `pf` (the
pointer `pf` of `handle_fd`) is a frame pending in the table before the call,
and whose `offset + size` exceeds the expected size of `pf`: `ingest` returns
nothing, adds 1 to `frames_dropped`, and leaves the table as it was before the
call; the targeted frame is still in it, under its key and unchanged. -/
theorem overrun_keeps_frame (abi : Abi) (now : Nat) (r : FrameReassembler)
    (hr : Reachable abi r) (packet : List Byte)
    (hfd : rd_host32 abi packet 0 &&& LID_TYPE = 0)
    (hlen : kFdHeaderSize ≤ packet.length)
    (hsize : kFdHeaderSize + rd_be16 packet 6 ≤ packet.length)
    (pre post : List (Nat × PendingFrame)) (key : Nat) (pf : PendingFrame)
    (hloc : fd_locate abi r.frames_ (rd8 packet 5) (rd_host32 abi packet 0 &&& 0x7FFFFFFF)
      (rd_be16 packet 8) (rd_be16 packet 10) (sample_format_from_bits abi (rd_be32 packet 12))
      = some (pre, (key, pf), post))
    (hin : (key, pf) ∈ r.frames_)
    (hover : offset_from_offs (rd_be32 packet 12) + rd_be16 packet 6 > pf.expected) :
    (ingest abi now r packet).2 = [] ∧
    (stats (ingest abi now r packet).1).frames_dropped = wrap64 ((stats r).frames_dropped + 1) ∧
    (ingest abi now r packet).1.frames_ = r.frames_ ∧
    (key, pf) ∈ (ingest abi now r packet).1.frames_ ∧
    map_get (ingest abi now r packet).1.frames_ key = some pf := by
  have hok := reachable_ok abi r hr
  have hl := fd_locate_ok abi r.frames_ _ _ _ _ _ (rd8_lt packet 5) hok pre post (key, pf) hloc
  have hdl : pf.data.length = pf.expected := (hl.1 (key, pf) (by simp)).data_len
  have hfdres : handle_fd abi now r packet
      = ({ frames_ := pre ++ (key, pf) :: post, stats_ := (fd_stats r (rd_be16 packet 6)).drop },
          none) := by
    rw [handle_fd_eq, if_neg (by omega), if_neg (by omega), hloc]
    unfold fd_commit
    simp only
    rw [if_pos (by rw [hdl]; exact hover)]
  have h4 : ¬ packet.length < 4 := by
    have : kFdHeaderSize = 16 := rfl
    omega
  have htab : r.frames_ = pre ++ (key, pf) :: post := by
    rcases fd_locate_cases abi r.frames_ _ _ _ _ _ pre post (key, pf) hloc with hA | hB
    · exact hA
    · exfalso
      have hk : key = rd8 packet 5 := congrArg Prod.fst hB.2.2.1
      exact hB.2.2.2.1 (key, pf) hin hk
  rw [ingest_fd_eq abi now r packet h4 hfd, hfdres]
  exact ⟨rfl, rfl, htab.symm, by simp, map_get_entry hl.2⟩

/-- Witness of C22 as amended: after the FH of the 64-byte frame, an FD with
offset 60 and size 12 is rejected and the frame stays pending; the table is
the one before the call. -/
theorem overrun_keeps_frame_witness :
    (fh_pending ex_abi ex_info 2 77 64 ex_opts).expected = 64 ∧
    offset_from_offs (rd_be32 ex_overrun_fd 12) + rd_be16 ex_overrun_fd 6 = 72 ∧
    map_get ex_state_fh.frames_ 2 = some (fh_pending ex_abi ex_info 2 77 64 ex_opts) ∧
    (ingest ex_abi 0 ex_state_fh ex_overrun_fd).2 = [] ∧
    (ingest ex_abi 0 ex_state_fh ex_overrun_fd).1.frames_ = ex_state_fh.frames_ ∧
    map_get (ingest ex_abi 0 ex_state_fh ex_overrun_fd).1.frames_ 2
      = some (fh_pending ex_abi ex_info 2 77 64 ex_opts) := by
  obtain ⟨h1, _, h3, _, h5⟩ := overrun_keeps_frame ex_abi 0 ex_state_fh
    (Reachable.ingest _ _ _ Reachable.fresh) ex_overrun_fd (by decide) (by decide) (by decide)
    [] [] 2 (fh_pending ex_abi ex_info 2 77 64 ex_opts) (by decide) (by decide) (by decide)
  exact ⟨by decide, by decide, by decide, h1, h3, h5⟩

/-- Counterexample to C22 as stated.  With frames 1, 2 and 3 pending (64
bytes each), an FD for frame 3 with offset 60 and size 12 is rejected by the
bounds check (`frames_dropped` goes from 0 to 1, nothing is returned), and
frame 3 is still in the table. -/
theorem overrun_keeps_frame_counterexample :
    rd_host32 ex_abi ex_overrun_fd3 0 &&& LID_TYPE = 0 ∧
    offset_from_offs (rd_be32 ex_overrun_fd3 12) + rd_be16 ex_overrun_fd3 6 = 72 ∧
    (map_get ex_state_three.frames_ 3).map (fun pf => pf.expected) = some 64 ∧
    (ingest ex_abi 0 ex_state_three ex_overrun_fd3).2 = [] ∧
    (stats ex_state_three).frames_dropped = 0 ∧
    (stats (ingest ex_abi 0 ex_state_three ex_overrun_fd3).1).frames_dropped = 1 ∧
    map_get (ingest ex_abi 0 ex_state_three ex_overrun_fd3).1.frames_ 3
      = map_get ex_state_three.frames_ 3 ∧
    map_get (ingest ex_abi 0 ex_state_three ex_overrun_fd3).1.frames_ 3 ≠ none := by
  decide

/-- C23 (overrun discards only the fragment), failing input.  A fresh
reassembler has an empty table.  An FD of a 16×4 8-bit frame (64 bytes) with
offset 60 and size 12 matches no pending frame; the frame synthesized from
its header is inserted before the bounds check rejects the fragment, so after
the call (nothing returned, `frames_dropped = 1`) the table holds one entry,
under key 2, with 64 bytes expected and none received. -/
theorem overrun_leaves_synthesized_entry :
    Reachable ex_abi FrameReassembler.fresh ∧
    FrameReassembler.fresh.frames_ = [] ∧
    rd_host32 ex_abi ex_overrun_fd 0 &&& LID_TYPE = 0 ∧
    offset_from_offs (rd_be32 ex_overrun_fd 12) + rd_be16 ex_overrun_fd 6 = 72 ∧
    (ingest ex_abi 0 FrameReassembler.fresh ex_overrun_fd).2 = [] ∧
    (stats (ingest ex_abi 0 FrameReassembler.fresh ex_overrun_fd).1).frames_dropped = 1 ∧
    (ingest ex_abi 0 FrameReassembler.fresh ex_overrun_fd).1.frames_.map
        (fun kv => (kv.1, kv.2.expected, kv.2.received_bytes, kv.2.has_fh))
      = [(2, 64, 0, false)] ∧
    (ingest ex_abi 0 FrameReassembler.fresh ex_overrun_fd).1.frames_
      ≠ FrameReassembler.fresh.frames_ :=
  ⟨Reachable.fresh, rfl, by decide, by decide, by decide, by decide, by decide, by decide⟩

/-- C24 (`reorder_depth` is the peak table size), failing input.  The first FD
of a 64-byte frame arrives at a fresh reassembler without its FH:
`handle_fd` compares `reorder_depth` with the table size before it inserts
the synthesized frame, so after the call the table holds one pending frame
while `reorder_depth` is still 0. -/
theorem reorder_depth_below_table_size :
    Reachable ex_abi (ingest ex_abi 0 FrameReassembler.fresh ex_first_fd).1 ∧
    (ingest ex_abi 0 FrameReassembler.fresh ex_first_fd).1.frames_.length = 1 ∧
    (stats (ingest ex_abi 0 FrameReassembler.fresh ex_first_fd).1).reorder_depth = 0 ∧
    ¬ ((ingest ex_abi 0 FrameReassembler.fresh ex_first_fd).1.frames_.length
        ≤ (stats (ingest ex_abi 0 FrameReassembler.fresh ex_first_fd).1).reorder_depth) :=
  ⟨Reachable.ingest _ _ _ Reachable.fresh, by decide, by decide, by decide⟩

/-! ### Byte order of `lid`, frame identity and the table invariants (C25 to C30) -/

theorem ingest_eq_routes (abi : Abi) (now : Nat) (r : FrameReassembler) (packet : List Byte) :
    ingest abi now r packet =
      if packet.length < 4 then (r, [])
      else if rd_host32 abi packet 0 &&& LID_TYPE ≠ 0 then ingest_fh_route abi r packet
      else ingest_fd_route abi now r packet := rfl

theorem host_type_bit (abi : Abi) (packet : List Byte) :
    rd_host32 abi packet 0 &&& LID_TYPE ≠ 0
      ↔ 128 ≤ rd8 packet (if abi.little_endian then 3 else 0) := by
  unfold LID_TYPE
  rw [and_type_bit]
  have h0 := rd8_lt packet 0
  have h1 := rd8_lt packet 1
  have h2 := rd8_lt packet 2
  have h3 := rd8_lt packet 3
  cases hle : abi.little_endian
  · simp only [rd_host32, hle, rd_be32, Bool.false_eq_true, if_false, Nat.zero_add]
    omega
  · simp only [rd_host32, hle, rd_le32, if_true, Nat.zero_add]
    omega

theorem handle_fh_flow (abi : Abi) (packet : List Byte) (pf : PendingFrame)
    (h : handle_fh abi packet = some pf) :
    pf.info.flow_id = rd_host32 abi packet 0 &&& 0x7FFFFFFF := by
  unfold handle_fh at h
  by_cases h1 : packet.length < kFhHeaderSize
  · rw [if_pos h1] at h; simp at h
  · rw [if_neg h1] at h
    simp only at h
    by_cases h2 : rd_be32 packet 20 &&& 0x0FFFFFFF = 0 ∨
        rd_be32 packet 20 &&& 0x0FFFFFFF > kMaxFrameBytes
    · rw [if_pos h2] at h; simp at h
    · rw [if_neg h2] at h
      simp only [Option.some.injEq] at h
      subst h
      rfl

/-- C25, as the code behaves (host-order `lid`).  For every packet of at
least 4 bytes, `ingest` takes the FH branch exactly when the most significant
bit of the 32-bit value of bytes 0..3 read in host byte order is set: bit 7
of byte 3 on a little-endian host, bit 7 of byte 0 on a big-endian host.  The
flow id that the FH handler records and the flow id that the FD handler looks
up and records are the low 31 bits of that host-order value.  On a big-endian
host the host-order value is the big-endian value of the claim. -/
theorem ingest_routes_by_host_lid (abi : Abi) (now : Nat) (r : FrameReassembler)
    (packet : List Byte) (h4 : 4 ≤ packet.length) :
    ingest abi now r packet =
      (if 128 ≤ rd8 packet (if abi.little_endian then 3 else 0) then
        ingest_fh_route abi r packet
       else ingest_fd_route abi now r packet) ∧
    (rd_host32 abi packet 0 &&& LID_TYPE ≠ 0
      ↔ 128 ≤ rd8 packet (if abi.little_endian then 3 else 0)) ∧
    rd_host32 abi packet 0 = (if abi.little_endian then rd_le32 packet 0 else rd_be32 packet 0) ∧
    (∀ pf, handle_fh abi packet = some pf →
      pf.info.flow_id = rd_host32 abi packet 0 &&& 0x7FFFFFFF ∧
      pf.info.flow_id = rd_host32 abi packet 0 % 2 ^ 31) ∧
    handle_fd abi now r packet =
      (if packet.length < kFdHeaderSize then (r, none)
       else if kFdHeaderSize + rd_be16 packet 6 > packet.length then (r, none)
       else
        fd_commit now (fd_stats r (rd_be16 packet 6)) r.frames_
          ((packet.drop kFdHeaderSize).take (rd_be16 packet 6))
          (offset_from_offs (rd_be32 packet 12)) (rd_be16 packet 6)
          (sample_format_from_bits abi (rd_be32 packet 12)) (rd_be16 packet 8)
          (rd_be16 packet 10) (bayer_from_flag (rd8 packet 4))
          (fd_locate abi r.frames_ (rd8 packet 5) (rd_host32 abi packet 0 &&& 0x7FFFFFFF)
            (rd_be16 packet 8) (rd_be16 packet 10)
            (sample_format_from_bits abi (rd_be32 packet 12)))) ∧
    (abi.little_endian = false →
      rd_host32 abi packet 0 = rd_be32 packet 0 ∧
      ingest abi now r packet =
        (if 128 ≤ rd8 packet 0 then ingest_fh_route abi r packet
         else ingest_fd_route abi now r packet)) := by
  have hroute : ingest abi now r packet =
      (if 128 ≤ rd8 packet (if abi.little_endian then 3 else 0) then
        ingest_fh_route abi r packet
       else ingest_fd_route abi now r packet) := by
    rw [ingest_eq_routes, if_neg (by omega)]
    by_cases hb : rd_host32 abi packet 0 &&& LID_TYPE ≠ 0
    · rw [if_pos hb, if_pos ((host_type_bit abi packet).mp hb)]
    · rw [if_neg hb, if_neg (fun h => hb ((host_type_bit abi packet).mpr h))]
  refine ⟨hroute, host_type_bit abi packet, rfl, ?_, handle_fd_eq abi now r packet, ?_⟩
  · intro pf hpf
    have h := handle_fh_flow abi packet pf hpf
    exact ⟨h, by rw [h, and_low31]⟩
  · intro hbe
    refine ⟨by simp [rd_host32, hbe], ?_⟩
    rw [hroute, hbe]
    rfl

/-- Witness of C25 as amended: on the little-endian example host, the packet
with bytes 80 00 00 01 in front has bit 7 of byte 3 clear and takes the FD
branch. -/
theorem ingest_routes_by_host_lid_witness :
    ingest ex_abi 0 FrameReassembler.fresh ex_be_lid_fh
      = ingest_fd_route ex_abi 0 FrameReassembler.fresh ex_be_lid_fh := by
  have h := (ingest_routes_by_host_lid ex_abi 0 FrameReassembler.fresh ex_be_lid_fh
    (by decide)).1
  rw [h]
  exact if_neg (by decide)

/-- Counterexample to C25 as stated, on a little-endian host.  A 28-byte
packet whose first four bytes are 80 00 00 01 has the most significant bit of
its big-endian `lid` set and would be a valid FH (64 bytes expected), yet
`ingest` hands it to the FD handler: `fh_packets` stays 0, `fd_packets`
becomes 1 and nothing is stored.  An FD whose first four bytes are
00 00 00 01 (big-endian flow id 1) is recorded with flow id 16777216. -/
theorem big_endian_lid_counterexample :
    ex_abi.little_endian = true ∧
    4 ≤ ex_be_lid_fh.length ∧
    rd_be32 ex_be_lid_fh 0 = 0x80000001 ∧
    128 ≤ rd8 ex_be_lid_fh 0 ∧
    (handle_fh ex_abi ex_be_lid_fh).map (fun pf => pf.expected) = some 64 ∧
    (stats (ingest ex_abi 0 FrameReassembler.fresh ex_be_lid_fh).1).fh_packets = 0 ∧
    (stats (ingest ex_abi 0 FrameReassembler.fresh ex_be_lid_fh).1).fd_packets = 1 ∧
    (ingest ex_abi 0 FrameReassembler.fresh ex_be_lid_fh).1.frames_ = [] ∧
    rd_be32 ex_be_lid_fd 0 &&& 0x7FFFFFFF = 1 ∧
    (ingest ex_abi 0 FrameReassembler.fresh ex_be_lid_fd).1.frames_.map
        (fun kv => kv.2.info.flow_id) = [16777216] := by
  decide

/-- C26 (frame identity is preserved).  In the FH-first round trip (fresh
reassembler, no loss, duplication or reordering, non-empty payload of at most
32 MiB, `fragment_payload ≥ 1`), the one `CompletedFrame` has the `fseq32`
given to `fragment_frame`, `info.flow_id = opts.flow_id & 0x7FFFFFFF`, and
`timestamp = timestamp_us` whenever `timestamp_us` is not 0. -/
theorem roundtrip_identity (abi : Abi) (hw : abi.WF) (info : FrameInfo) (fseq32 ts : Nat)
    (payload : List Byte) (opts : SenderOptions) (rolls : Nat → ℚ) (reorder : ReorderBuffer)
    (clock : Nat → Nat)
    (hty : InputsTyped info fseq32 ts opts) (hfmt : info.fmt ∈ abi.formats)
    (hpos : 0 < payload.length) (hmax : payload.length ≤ kMaxFrameBytes)
    (hc : 1 ≤ opts.fragment_payload)
    (hloss : opts.loss_percent = 0) (hdup : opts.duplicate_percent = 0)
    (hwin : opts.reorder_window = 0) (hrolls : RollsInRange rolls) :
    ∃ pkts reorder1 cf,
      fragment_frame abi info fseq32 ts payload opts rolls reorder = some (pkts, reorder1) ∧
      (ingest_all abi clock 0 FrameReassembler.fresh (pkts.map (fun p => p.data))).2 = [cf] ∧
      cf.fseq32 = fseq32 ∧
      cf.info.flow_id = opts.flow_id &&& 0x7FFFFFFF ∧
      (ts ≠ 0 → cf.timestamp = ts) := by
  obtain ⟨st1, t, hrun⟩ := run_fh_then_fds abi hw info fseq32 ts payload opts hty hfmt hpos hmax
    hc clock (List.range (nchunks payload.length opts.fragment_payload)) (List.Perm.refl _)
  refine ⟨_, _,
    ({ info := { width := info.width, height := info.height, fmt := info.fmt,
                 pattern := info.pattern, orientation := 0, mirror := false,
                 flow_id := opts.flow_id % 2 ^ 31 }
       fseq32 := fseq32
       timestamp := if ts ≠ 0 then ts else t
       payload := payload } : CompletedFrame),
    fragment_frame_lossfree abi info fseq32 ts payload opts rolls reorder hpos
      hmax hc hloss hdup hwin hrolls, ?_, rfl, ?_, ?_⟩
  · simp only [List.map_cons, List.map_map, fd_packets]
    rw [show ((fun p : FramePacket => p.data) ∘
          ((fun d => ({ data := d, is_fh := false } : FramePacket)) ∘
            fd_packet abi info fseq32 payload opts))
        = fd_packet abi info fseq32 payload opts from rfl]
    rw [hrun]
  · show opts.flow_id % 2 ^ 31 = _
    rw [and_low31]
  · intro hts
    show (if ts ≠ 0 then ts else t) = ts
    rw [if_pos hts]

/-- Witness of C26: the 64-byte frame of the reorder test, `fseq32 = 2`,
flow 1, timestamp 77. -/
theorem roundtrip_identity_witness :
    ∃ pkts reorder1 cf,
      fragment_frame ex_abi ex_info 2 77 ex_payload ex_opts ex_rolls ex_reorder
        = some (pkts, reorder1) ∧
      (ingest_all ex_abi (fun _ => 0) 0 FrameReassembler.fresh (pkts.map (fun p => p.data))).2
        = [cf] ∧
      cf.fseq32 = 2 ∧ cf.info.flow_id = 1 ∧ cf.timestamp = 77 := by
  obtain ⟨pkts, r1, cf, h1, h2, h3, h4, h5⟩ := roundtrip_identity ex_abi (by decide) ex_info
    2 77 ex_payload ex_opts ex_rolls ex_reorder (fun _ => 0) ex_typed (by decide) (by decide)
    (by decide) (by decide) rfl rfl rfl ex_rolls_in_range
  exact ⟨pkts, r1, cf, h1, h2, h3, by rw [h4]; decide, h5 (by decide)⟩

/-- C29 (pending-frame size invariant).  In every state reachable from a
fresh reassembler by `ingest` and `expire_older_than` calls, every pending
frame has `0 < expected ≤ 32 MiB`, a data buffer of exactly `expected` bytes
and a bitmap of exactly `ceil(expected / 1024)` blocks. -/
theorem pending_size_invariant (abi : Abi) (r : FrameReassembler) (hr : Reachable abi r) :
    ∀ kv ∈ r.frames_,
      0 < kv.2.expected ∧ kv.2.expected ≤ 32 * 1024 * 1024 ∧
      kv.2.data.length = kv.2.expected ∧
      kv.2.received.length = (kv.2.expected + 1023) / 1024 ∧
      kv.2.expected ≤ 1024 * kv.2.received.length ∧
      1024 * kv.2.received.length < kv.2.expected + 1024 := by
  intro kv hkv
  have h := (reachable_ok abi r hr).1 kv hkv
  have hle := h.expected_le
  unfold kMaxFrameBytes at hle
  have hrl := h.received_len
  refine ⟨h.expected_pos, hle, h.data_len, hrl, ?_, ?_⟩ <;> omega

/-- Witness of C29: the three pending frames of 64 bytes each, with one
bitmap block. -/
theorem pending_size_invariant_witness :
    ex_state_three.frames_.map
        (fun kv => (kv.1, kv.2.expected, kv.2.data.length, kv.2.received.length))
      = [(3, 64, 64, 1), (2, 64, 64, 1), (1, 64, 64, 1)] ∧
    ∀ kv ∈ ex_state_three.frames_,
      0 < kv.2.expected ∧ kv.2.expected ≤ 32 * 1024 * 1024 ∧
      kv.2.data.length = kv.2.expected ∧
      kv.2.received.length = (kv.2.expected + 1023) / 1024 ∧
      kv.2.expected ≤ 1024 * kv.2.received.length ∧
      1024 * kv.2.received.length < kv.2.expected + 1024 :=
  ⟨by decide, pending_size_invariant ex_abi ex_state_three ex_state_three_reachable⟩

/-- C30 (incomplete-only table).  In every state reachable from a fresh
reassembler by `ingest` and `expire_older_than` calls, every pending frame in
the table has `received_bytes < expected`; in particular this holds of every
frame left in the table by one more `ingest` or `expire_older_than` call. -/
theorem incomplete_only_table (abi : Abi) (r : FrameReassembler) (hr : Reachable abi r) :
    (∀ kv ∈ r.frames_, kv.2.received_bytes < kv.2.expected) ∧
    (∀ now packet, ∀ kv ∈ (ingest abi now r packet).1.frames_,
      kv.2.received_bytes < kv.2.expected) ∧
    (∀ recent_fseq max_distance, ∀ kv ∈ (expire_older_than r recent_fseq max_distance).frames_,
      kv.2.received_bytes < kv.2.expected) := by
  refine ⟨?_, ?_, ?_⟩
  · intro kv hkv
    exact ((reachable_ok abi r hr).1 kv hkv).incomplete
  · intro now packet kv hkv
    exact ((reachable_ok abi _ (Reachable.ingest r now packet hr)).1 kv hkv).incomplete
  · intro a b kv hkv
    exact ((reachable_ok abi _ (Reachable.expire r a b hr)).1 kv hkv).incomplete

/-- Witness of C30: after the FH and the first FD of the 64-byte frame, the
pending frame has 12 of 64 bytes. -/
theorem incomplete_only_table_witness :
    (ingest ex_abi 0 ex_state_fh ex_first_fd).1.frames_.map
        (fun kv => (kv.2.received_bytes, kv.2.expected)) = [(12, 64)] ∧
    ∀ kv ∈ (ingest ex_abi 0 ex_state_fh ex_first_fd).1.frames_,
      kv.2.received_bytes < kv.2.expected :=
  ⟨by decide,
   (incomplete_only_table ex_abi ex_state_fh
     (Reachable.ingest _ _ _ Reachable.fresh)).2.1 0 ex_first_fd⟩

/-! ### Bounds, counters and invariants of the reassembler (C31, C33, C38, C39) -/

theorem offset_from_offs_lt (x : Nat) : offset_from_offs x < 2 ^ 28 := by
  unfold offset_from_offs
  rw [and_low28]
  exact Nat.mod_lt _ (by norm_num)

theorem rd_be16_lt (p : List Byte) (i : Nat) : rd_be16 p i < 2 ^ 16 := by
  unfold rd_be16
  have h0 := rd8_lt p i
  have h1 := rd8_lt p (i + 1)
  omega

/-- C31 (FD writes are in bounds).  In every reachable state, when
`handle_fd` reaches its `memcpy` (the packet passed the two length checks,
`pf` is the pending frame found or synthesized, and the overrun test
`offset + payload_size > pf->data.size()` was false): the destination range
lies inside the data buffer, whose length is `expected`; the source range
`packet[kFdHeaderSize .. kFdHeaderSize + payload_size)` lies inside the
packet and has exactly `payload_size` bytes; `offset < 2^28` and
`payload_size < 2^16`, so the 32-bit sum does not wrap; the buffer keeps its
length and no byte outside `[offset, offset + payload_size)` changes. -/
theorem fd_write_in_bounds (abi : Abi) (r : FrameReassembler)
    (hr : Reachable abi r) (packet : List Byte)
    (hlen : kFdHeaderSize ≤ packet.length)
    (hsize : kFdHeaderSize + rd_be16 packet 6 ≤ packet.length)
    (pre post : List (Nat × PendingFrame)) (key : Nat) (pf : PendingFrame)
    (hloc : fd_locate abi r.frames_ (rd8 packet 5) (rd_host32 abi packet 0 &&& 0x7FFFFFFF)
      (rd_be16 packet 8) (rd_be16 packet 10) (sample_format_from_bits abi (rd_be32 packet 12))
      = some (pre, (key, pf), post))
    (hfit : ¬ offset_from_offs (rd_be32 packet 12) + rd_be16 packet 6 > pf.data.length) :
    offset_from_offs (rd_be32 packet 12) + rd_be16 packet 6 ≤ pf.data.length ∧
    pf.data.length = pf.expected ∧
    offset_from_offs (rd_be32 packet 12) + rd_be16 packet 6 ≤ pf.expected ∧
    kFdHeaderSize + rd_be16 packet 6 ≤ packet.length ∧
    ((packet.drop kFdHeaderSize).take (rd_be16 packet 6)).length = rd_be16 packet 6 ∧
    offset_from_offs (rd_be32 packet 12) < 2 ^ 28 ∧ rd_be16 packet 6 < 2 ^ 16 ∧
    wrap32 (offset_from_offs (rd_be32 packet 12) + rd_be16 packet 6)
      = offset_from_offs (rd_be32 packet 12) + rd_be16 packet 6 ∧
    (memcpy_at pf.data (offset_from_offs (rd_be32 packet 12))
      ((packet.drop kFdHeaderSize).take (rd_be16 packet 6))).length = pf.data.length ∧
    (∀ j, ¬ (offset_from_offs (rd_be32 packet 12) ≤ j ∧
        j < offset_from_offs (rd_be32 packet 12) + rd_be16 packet 6) →
      (memcpy_at pf.data (offset_from_offs (rd_be32 packet 12))
        ((packet.drop kFdHeaderSize).take (rd_be16 packet 6)))[j]? = pf.data[j]?) := by
  have hok := reachable_ok abi r hr
  have hl := fd_locate_ok abi r.frames_ _ _ _ _ _ (rd8_lt packet 5) hok pre post (key, pf) hloc
  have hdl : pf.data.length = pf.expected := (hl.1 (key, pf) (by simp)).data_len
  have ho := offset_from_offs_lt (rd_be32 packet 12)
  have hs := rd_be16_lt packet 6
  have hsrc : ((packet.drop kFdHeaderSize).take (rd_be16 packet 6)).length = rd_be16 packet 6 := by
    simp only [List.length_take, List.length_drop]
    omega
  refine ⟨by omega, hdl, by omega, hsize, hsrc, ho, hs, ?_, ?_, ?_⟩
  · unfold wrap32
    exact Nat.mod_eq_of_lt (by omega)
  · exact memcpy_at_length _ _ _ (by rw [hsrc]; omega)
  · intro j hj
    rw [memcpy_at_getElem? _ _ _ _ (by rw [hsrc]; omega), hsrc, if_neg hj]

/-- Witness of C31: the first FD of the 64-byte frame after its FH writes
bytes 0 to 11 of the 64-byte buffer. -/
theorem fd_write_in_bounds_witness :
    offset_from_offs (rd_be32 ex_first_fd 12) + rd_be16 ex_first_fd 6 = 12 ∧
    (fh_pending ex_abi ex_info 2 77 64 ex_opts).data.length = 64 ∧
    (memcpy_at (fh_pending ex_abi ex_info 2 77 64 ex_opts).data
      (offset_from_offs (rd_be32 ex_first_fd 12))
      ((ex_first_fd.drop kFdHeaderSize).take (rd_be16 ex_first_fd 6))).length = 64 := by
  obtain ⟨_, _, _, _, _, _, _, _, h9, _⟩ := fd_write_in_bounds ex_abi ex_state_fh
    (Reachable.ingest _ _ _ Reachable.fresh) ex_first_fd (by decide) (by decide)
    [] [] 2 (fh_pending ex_abi ex_info 2 77 64 ex_opts) (by decide) (by decide)
  exact ⟨by decide, by decide, by rw [h9]; decide⟩

/-- C33 (key consistency invariant).  In every state reachable from a fresh
reassembler, every pending frame is stored under the key equal to its own
`fseq32`, its `fseq8` is `fseq32 & 0xFF`, and a frame synthesized without FH
has `fseq32 < 256`; the keys of the table are pairwise distinct. -/
theorem key_consistency (abi : Abi) (r : FrameReassembler) (hr : Reachable abi r) :
    (∀ kv ∈ r.frames_,
      kv.1 = kv.2.fseq32 ∧ kv.2.fseq8 = kv.2.fseq32 &&& 0xFF ∧
      (kv.2.has_fh = false → kv.2.fseq32 < 256)) ∧
    (r.frames_.map Prod.fst).Nodup := by
  have hok := reachable_ok abi r hr
  refine ⟨?_, hok.2⟩
  intro kv hkv
  have h := hok.1 kv hkv
  refine ⟨h.key_eq, ?_, h.synth_lt⟩
  rw [and_low8, h.fseq8_eq]
  norm_num

/-- Witness of C33: frames 1, 2, 3 announced by their FHs, and then the
first FD of a frame with `fseq = 9` of which no FH was seen. -/
theorem key_consistency_witness :
    (ingest ex_abi 0 ex_state_three
        (fd_bytes ex_abi ex_info 9 ex_payload ex_opts 0 12)).1.frames_.map
      (fun kv => (kv.1, kv.2.fseq32, kv.2.fseq8, kv.2.has_fh))
      = [(9, 9, 9, false), (3, 3, 3, true), (2, 2, 2, true), (1, 1, 1, true)] ∧
    ∀ kv ∈ (ingest ex_abi 0 ex_state_three
        (fd_bytes ex_abi ex_info 9 ex_payload ex_opts 0 12)).1.frames_,
      kv.1 = kv.2.fseq32 ∧ kv.2.fseq8 = kv.2.fseq32 &&& 0xFF ∧
      (kv.2.has_fh = false → kv.2.fseq32 < 256) :=
  ⟨by decide,
   (key_consistency ex_abi _ (Reachable.ingest _ 0
     (fd_bytes ex_abi ex_info 9 ex_payload ex_opts 0 12) ex_state_three_reachable)).1⟩

theorem fd_commit_counts (now : Nat) (stats1 : FrameStats) (frames0 : List (Nat × PendingFrame))
    (src : List Byte) (offset payload_size fmt width height : Nat) (pattern : BayerPattern)
    (located : Option (List (Nat × PendingFrame) × (Nat × PendingFrame) ×
      List (Nat × PendingFrame))) :
    (fd_commit now stats1 frames0 src offset payload_size fmt width height pattern
      located).1.stats_.fd_packets = stats1.fd_packets ∧
    (fd_commit now stats1 frames0 src offset payload_size fmt width height pattern
      located).1.stats_.bytes = stats1.bytes ∧
    (fd_commit now stats1 frames0 src offset payload_size fmt width height pattern
      located).1.stats_.fh_packets = stats1.fh_packets := by
  unfold fd_commit
  rcases located with _ | ⟨pre, ⟨key, pf⟩, post⟩
  · exact ⟨rfl, rfl, rfl⟩
  · simp only []
    by_cases h1 : offset + payload_size > pf.data.length
    · rw [if_pos h1]
      exact ⟨rfl, rfl, rfl⟩
    · rw [if_neg h1]
      by_cases hdone : (if pf.expected > 0 then
          decide (wrap64 (pf.received_bytes + payload_size) ≥ pf.expected) else false) = true
      · rw [if_pos hdone]
        exact ⟨rfl, rfl, rfl⟩
      · rw [if_neg hdone]
        exact ⟨rfl, rfl, rfl⟩

/-- C38 (rejected FDs are still counted).  Every FD that passes the two
length checks adds 1 to `fd_packets` and its size field to `bytes` (64-bit
counters; exactly so unless a counter overflows), whatever happens to the
fragment afterwards: written, rejected for overrun, or rejected because the
synthesized expected size is 0 or above 32 MiB.  `fh_packets` is unchanged. -/
theorem fd_always_counted (abi : Abi) (now : Nat) (r : FrameReassembler) (packet : List Byte)
    (hfd : rd_host32 abi packet 0 &&& LID_TYPE = 0)
    (hlen : kFdHeaderSize ≤ packet.length)
    (hsize : kFdHeaderSize + rd_be16 packet 6 ≤ packet.length) :
    (stats (ingest abi now r packet).1).fd_packets = wrap64 ((stats r).fd_packets + 1) ∧
    ((stats r).fd_packets + 1 < 2 ^ 64 →
      (stats (ingest abi now r packet).1).fd_packets = (stats r).fd_packets + 1) ∧
    (stats (ingest abi now r packet).1).bytes = wrap64 ((stats r).bytes + rd_be16 packet 6) ∧
    ((stats r).bytes + rd_be16 packet 6 < 2 ^ 64 →
      (stats (ingest abi now r packet).1).bytes = (stats r).bytes + rd_be16 packet 6) ∧
    (stats (ingest abi now r packet).1).fh_packets = (stats r).fh_packets := by
  have h4 : ¬ packet.length < 4 := by
    have : kFdHeaderSize = 16 := rfl
    omega
  have hcnt := fd_commit_counts now (fd_stats r (rd_be16 packet 6)) r.frames_
    ((packet.drop kFdHeaderSize).take (rd_be16 packet 6))
    (offset_from_offs (rd_be32 packet 12)) (rd_be16 packet 6)
    (sample_format_from_bits abi (rd_be32 packet 12)) (rd_be16 packet 8)
    (rd_be16 packet 10) (bayer_from_flag (rd8 packet 4))
    (fd_locate abi r.frames_ (rd8 packet 5) (rd_host32 abi packet 0 &&& 0x7FFFFFFF)
      (rd_be16 packet 8) (rd_be16 packet 10) (sample_format_from_bits abi (rd_be32 packet 12)))
  have e : (ingest abi now r packet).1 = _ :=
    congrArg Prod.fst ((ingest_fd_eq abi now r packet h4 hfd).trans
      (by rw [handle_fd_eq, if_neg (by omega), if_neg (by omega)]))
  unfold stats
  rw [e]
  obtain ⟨c1, c2, c3⟩ := hcnt
  refine ⟨c1, ?_, c2, ?_, c3⟩
  · intro hlt
    rw [c1]
    exact Nat.mod_eq_of_lt hlt
  · intro hlt
    rw [c2]
    exact Nat.mod_eq_of_lt hlt

/-- Witness of C38: the FD with offset 60 and size 12 that is rejected for
overrun of the 64-byte frame is counted: one FD, 12 bytes. -/
theorem fd_always_counted_witness :
    (ingest ex_abi 0 ex_state_fh ex_overrun_fd).1.frames_ = ex_state_fh.frames_ ∧
    (stats ex_state_fh).fd_packets = 0 ∧ (stats ex_state_fh).bytes = 0 ∧
    (stats (ingest ex_abi 0 ex_state_fh ex_overrun_fd).1).fd_packets = 1 ∧
    (stats (ingest ex_abi 0 ex_state_fh ex_overrun_fd).1).bytes = 12 := by
  obtain ⟨_, h2, _, h4, _⟩ := fd_always_counted ex_abi 0 ex_state_fh ex_overrun_fd
    (by decide) (by decide) (by decide)
  exact ⟨by decide, by decide, by decide, h2 (by decide), h4 (by decide)⟩

theorem expire_loop_fixed (recent_fseq max_distance : Nat) :
    ∀ (m : List (Nat × PendingFrame)) (s : FrameStats),
      (∀ kv ∈ m, expired recent_fseq max_distance kv.1 = false) →
      expire_loop recent_fseq max_distance m s = (m, s) := by
  intro m
  induction m with
  | nil => intro s _; rfl
  | cons kv m ih =>
    intro s h
    unfold expire_loop
    rw [if_neg (by rw [h kv (List.mem_cons_self _ _)]; simp)]
    simp only
    rw [ih s (fun x hx => h x (List.mem_cons_of_mem _ hx))]

/-- C39 (expiration is idempotent).  For every reassembler state,
`recent_fseq` and `max_distance`, a second `expire_older_than` call with the
same arguments changes neither the table nor any counter. -/
theorem expire_older_than_idempotent (r : FrameReassembler) (recent_fseq max_distance : Nat) :
    expire_older_than (expire_older_than r recent_fseq max_distance) recent_fseq max_distance
      = expire_older_than r recent_fseq max_distance ∧
    (expire_older_than (expire_older_than r recent_fseq max_distance) recent_fseq
        max_distance).frames_
      = (expire_older_than r recent_fseq max_distance).frames_ ∧
    stats (expire_older_than (expire_older_than r recent_fseq max_distance) recent_fseq
        max_distance)
      = stats (expire_older_than r recent_fseq max_distance) := by
  have key : expire_older_than (expire_older_than r recent_fseq max_distance) recent_fseq
      max_distance = expire_older_than r recent_fseq max_distance := by
    have hnone : ∀ kv ∈ (expire_older_than r recent_fseq max_distance).frames_,
        expired recent_fseq max_distance kv.1 = false := by
      intro kv hkv
      unfold expire_older_than at hkv
      simp only at hkv
      rw [expire_loop_frames] at hkv
      simpa using (List.mem_filter.mp hkv).2
    generalize expire_older_than r recent_fseq max_distance = r1 at hnone
    unfold expire_older_than
    simp only
    rw [expire_loop_fixed recent_fseq max_distance r1.frames_ r1.stats_ hnone]
  rw [key]
  exact ⟨rfl, rfl, rfl⟩

/-! ### The reorder window, the empty payload and termination (C34 to C37) -/

theorem fd_loop_window_order (abi : Abi) (info : FrameInfo) (fseq32 : Nat) (payload : List Byte)
    (opts : SenderOptions) (rolls : Nat → ℚ) (N : Nat) (hN : 0 < N)
    (hdup : opts.duplicate_percent = 0) :
    ∀ (fuel offset i : Nat) (q q0 : List (List Byte)),
      (fd_loop abi info fseq32 payload { opts with reorder_window := N } rolls fuel offset i
          q).map
        (fun res => res.1 ++ res.2.map (fun d => ({ data := d, is_fh := false } : FramePacket)))
      = (fd_loop abi info fseq32 payload { opts with reorder_window := 0 } rolls fuel offset i
          q0).map
        (fun res => q.map (fun d => ({ data := d, is_fh := false } : FramePacket)) ++ res.1) := by
  have e : ∀ (w offset chunk : Nat),
      fd_bytes abi info fseq32 payload { opts with reorder_window := w } offset chunk
        = fd_bytes abi info fseq32 payload opts offset chunk := fun _ _ _ => rfl
  intro fuel
  induction fuel with
  | zero =>
    intro offset i q q0
    simp only [fd_loop]
    by_cases h : offset < payload.length <;> simp [h]
  | succ fuel ih =>
    intro offset i q q0
    rw [fd_loop_succ, fd_loop_succ]
    simp only []
    by_cases h1 : offset < payload.length
    · rw [if_pos h1, if_pos h1]
      by_cases h2 : rolls i < opts.loss_percent
      · rw [if_pos h2, if_pos h2]
        exact ih _ _ q q0
      · rw [if_neg h2, if_neg h2]
        have hd : ¬ rolls i < double_add opts.loss_percent opts.duplicate_percent := by
          rw [hdup, double_add_zero]; exact h2
        simp only [hN, hd, if_true, if_false, lt_irrefl, gt_iff_lt, List.nil_append]
        by_cases hq : N < (q ++ [fd_bytes abi info fseq32 payload
            { opts with reorder_window := N } offset
            (min opts.fragment_payload (wrap32 (payload.length - offset)))]).length
        · rw [if_pos hq]
          have hi := ih (wrap32 (offset + min opts.fragment_payload
              (wrap32 (payload.length - offset)))) (i + 1)
            (q ++ [fd_bytes abi info fseq32 payload { opts with reorder_window := N } offset
              (min opts.fragment_payload (wrap32 (payload.length - offset)))]).tail q0
          revert hi
          cases fd_loop abi info fseq32 payload { opts with reorder_window := N } rolls fuel _
              (i + 1) _ <;>
            cases fd_loop abi info fseq32 payload { opts with reorder_window := 0 } rolls fuel _
              (i + 1) _ <;> intro hi
          · rfl
          · simp at hi
          · simp at hi
          · simp only [Option.map_some', Option.some.injEq, e] at hi ⊢
            generalize fd_bytes abi info fseq32 payload opts offset
              (min opts.fragment_payload (wrap32 (payload.length - offset))) = d at hi ⊢
            cases q with
            | nil =>
              simp only [List.nil_append, List.tail_cons, List.map_nil, List.headD_cons] at hi ⊢
              rw [List.append_assoc, hi]
            | cons a q' =>
              simp only [List.cons_append, List.tail_cons, List.headD_cons, List.map_cons,
                List.nil_append, List.map_append, List.map_nil, List.append_assoc] at hi ⊢
              rw [hi]
        · rw [if_neg hq]
          have hi := ih (wrap32 (offset + min opts.fragment_payload
              (wrap32 (payload.length - offset)))) (i + 1)
            (q ++ [fd_bytes abi info fseq32 payload { opts with reorder_window := N } offset
              (min opts.fragment_payload (wrap32 (payload.length - offset)))]) q0
          revert hi
          cases fd_loop abi info fseq32 payload { opts with reorder_window := N } rolls fuel _
              (i + 1) _ <;>
            cases fd_loop abi info fseq32 payload { opts with reorder_window := 0 } rolls fuel _
              (i + 1) _ <;> intro hi
          · rfl
          · simp at hi
          · simp at hi
          · simp only [Option.map_some', Option.some.injEq, e] at hi ⊢
            generalize fd_bytes abi info fseq32 payload opts offset
              (min opts.fragment_payload (wrap32 (payload.length - offset))) = d at hi ⊢
            simp only [List.nil_append, List.map_append, List.map_cons, List.map_nil,
              List.append_assoc] at hi ⊢
            rw [hi]
    · rw [if_neg h1, if_neg h1]
      simp




theorem head_tail_of_append (l : List (List Byte)) (d : List Byte) :
    l ++ [d] = (l ++ [d]).headD [] :: (l ++ [d]).tail := by
  cases l <;> rfl

/-- With `reorder_window > 0` the loop terminates and, counting what is left
in the queue, emits the buffers pending on entry followed by the fragments
that are not lost, in this order, with the extra copies of duplicated
fragments in between. -/
theorem fd_loop_window_pos (abi : Abi) (info : FrameInfo) (fseq32 : Nat) (payload : List Byte)
    (opts : SenderOptions) (rolls : Nat → ℚ)
    (hc : 1 ≤ opts.fragment_payload) (hL : payload.length < 2 ^ 32)
    (hwin : 0 < opts.reorder_window) :
    ∀ (fuel k : Nat) (pending : List (List Byte)),
      nchunks payload.length opts.fragment_payload - k ≤ fuel →
      k ≤ nchunks payload.length opts.fragment_payload →
      ∃ ps q, fd_loop abi info fseq32 payload opts rolls fuel
          (min (k * opts.fragment_payload) payload.length) k pending = some (ps, q) ∧
        (∀ p ∈ ps, p.is_fh = false) ∧
        (pending ++
          ((List.range' k (nchunks payload.length opts.fragment_payload - k)).filter
            (fun i => decide (¬ rolls i < opts.loss_percent))).map
            (fd_packet abi info fseq32 payload opts)).Sublist
          (ps.map (fun p => p.data) ++ q) ∧
        (opts.duplicate_percent = 0 →
          ps.map (fun p => p.data) ++ q = pending ++
            ((List.range' k (nchunks payload.length opts.fragment_payload - k)).filter
              (fun i => decide (¬ rolls i < opts.loss_percent))).map
              (fd_packet abi info fseq32 payload opts)) := by
  intro fuel
  induction fuel with
  | zero =>
    intro k pending hf hk
    have hkn : ¬ k < nchunks payload.length opts.fragment_payload := by omega
    rw [lt_nchunks _ _ _ hc] at hkn
    have h0 : nchunks payload.length opts.fragment_payload - k = 0 := by omega
    refine ⟨[], pending, ?_, by simp, ?_, ?_⟩
    · simp only [fd_loop]
      rw [if_neg (by omega)]
    · simp [h0]
    · intro _; simp [h0]
  | succ fuel ih =>
    intro k pending hf hk
    by_cases hkn : k < nchunks payload.length opts.fragment_payload
    · have hlt := (lt_nchunks _ _ _ hc).1 hkn
      have hmin : min (k * opts.fragment_payload) payload.length = k * opts.fragment_payload := by
        omega
      have hchunk : min opts.fragment_payload
          (wrap32 (payload.length - k * opts.fragment_payload))
          = chunk_size payload.length opts.fragment_payload k := by
        unfold wrap32 chunk_size; omega
      have hnext : wrap32 (k * opts.fragment_payload
            + chunk_size payload.length opts.fragment_payload k)
          = min ((k + 1) * opts.fragment_payload) payload.length := by
        unfold wrap32 chunk_size; rw [Nat.add_mul]; omega
      have hsplit : nchunks payload.length opts.fragment_payload - k
          = (nchunks payload.length opts.fragment_payload - (k + 1)) + 1 := by omega
      have hpk : fd_bytes abi info fseq32 payload opts (k * opts.fragment_payload)
          (chunk_size payload.length opts.fragment_payload k)
          = fd_packet abi info fseq32 payload opts k := rfl
      rw [hmin, fd_loop_succ]
      simp only []
      rw [if_pos hlt, hchunk, hnext, hpk, hsplit, List.range'_succ]
      by_cases h1 : rolls k < opts.loss_percent
      · rw [if_pos h1, List.filter_cons_of_neg (by simp [h1])]
        exact ih (k + 1) pending (by omega) (by omega)
      · rw [if_neg h1, if_pos hwin, List.filter_cons_of_pos (by simp [h1]), List.map_cons]
        by_cases hq : (pending ++ [fd_packet abi info fseq32 payload opts k]).length
            > opts.reorder_window
        · rw [if_pos hq]
          obtain ⟨ps, q, hrun, hfd, hsub, heq⟩ := ih (k + 1)
            (pending ++ [fd_packet abi info fseq32 payload opts k]).tail (by omega) (by omega)
          rw [hrun]
          refine ⟨_, q, rfl, ?_, ?_, ?_⟩
          · intro p hp
            simp only [List.mem_append, List.mem_singleton] at hp
            rcases hp with (hp | hp) | hp
            · by_cases hd : rolls k < double_add opts.loss_percent opts.duplicate_percent
              · rw [if_pos hd] at hp
                rw [List.mem_singleton.mp hp]
              · rw [if_neg hd] at hp
                simp at hp
            · rw [hp]
            · exact hfd p hp
          · simp only [List.map_append, List.map_cons, List.map_nil, List.append_assoc,
              List.singleton_append]
            apply List.Sublist.trans _ (List.sublist_append_right _ _)
            have e : pending ++ fd_packet abi info fseq32 payload opts k ::
                List.map (fd_packet abi info fseq32 payload opts)
                  (List.filter (fun i => decide (¬ rolls i < opts.loss_percent))
                    (List.range' (k + 1) (nchunks payload.length opts.fragment_payload - (k + 1))))
                = (pending ++ [fd_packet abi info fseq32 payload opts k]).headD [] ::
                  ((pending ++ [fd_packet abi info fseq32 payload opts k]).tail ++
                  List.map (fd_packet abi info fseq32 payload opts)
                    (List.filter (fun i => decide (¬ rolls i < opts.loss_percent))
                      (List.range' (k + 1)
                        (nchunks payload.length opts.fragment_payload - (k + 1))))) := by
              rw [← List.cons_append, ← head_tail_of_append]
              simp
            rw [e]
            exact List.Sublist.cons₂ _ hsub
          · intro hd0
            have hd : ¬ rolls k < double_add opts.loss_percent opts.duplicate_percent := by
              rw [hd0, double_add_zero]; exact h1
            rw [if_neg hd]
            simp only [List.nil_append, List.map_append, List.map_cons, List.map_nil,
              List.append_assoc, List.singleton_append]
            rw [List.cons_append, heq hd0, ← List.cons_append, ← head_tail_of_append]
            simp
        · rw [if_neg hq]
          obtain ⟨ps, q, hrun, hfd, hsub, heq⟩ := ih (k + 1)
            (pending ++ [fd_packet abi info fseq32 payload opts k]) (by omega) (by omega)
          rw [hrun]
          refine ⟨_, q, rfl, ?_, ?_, ?_⟩
          · intro p hp
            simp only [List.mem_append] at hp
            rcases hp with hp | hp
            · by_cases hd : rolls k < double_add opts.loss_percent opts.duplicate_percent
              · rw [if_pos hd] at hp
                rw [List.mem_singleton.mp hp]
              · rw [if_neg hd] at hp
                simp at hp
            · exact hfd p hp
          · simp only [List.map_append, List.append_assoc]
            apply List.Sublist.trans _ (List.sublist_append_right _ _)
            simpa using hsub
          · intro hd0
            have hd : ¬ rolls k < double_add opts.loss_percent opts.duplicate_percent := by
              rw [hd0, double_add_zero]; exact h1
            rw [if_neg hd]
            simp only [List.nil_append]
            rw [heq hd0]
            simp
    · rw [lt_nchunks _ _ _ hc] at hkn
      have h0 : nchunks payload.length opts.fragment_payload - k = 0 := by
        have := (lt_nchunks payload.length opts.fragment_payload k hc)
        omega
      refine ⟨[], pending, ?_, by simp, ?_, ?_⟩
      · simp only [fd_loop]
        rw [if_neg (by omega)]
      · simp [h0]
      · intro _; simp [h0]




/-- C34 (the reorder window preserves order).  With `duplicate_percent = 0`
and an empty reorder state on entry, for every `loss_percent`, roll sequence
and `N > 0`, `fragment_frame` with `reorder_window = N` returns the same
packets, in the same order, as with `reorder_window = 0` (or neither call
returns); for a non-empty payload below `2^32` bytes and
`fragment_payload ≥ 1` both calls return, with the same list. -/
theorem reorder_window_preserves_order (abi : Abi) (info : FrameInfo) (fseq32 ts : Nat)
    (payload : List Byte) (opts : SenderOptions) (rolls : Nat → ℚ) (reorder : ReorderBuffer)
    (N : Nat) (hN : 0 < N) (hdup : opts.duplicate_percent = 0)
    (hempty : reorder.pending = []) :
    (fragment_frame abi info fseq32 ts payload { opts with reorder_window := N } rolls
        reorder).map Prod.fst
      = (fragment_frame abi info fseq32 ts payload { opts with reorder_window := 0 } rolls
        reorder).map Prod.fst ∧
    (fragment_frame abi info fseq32 ts payload { opts with reorder_window := N } rolls
        reorder).map (fun res => res.1.map (fun p => p.data))
      = (fragment_frame abi info fseq32 ts payload { opts with reorder_window := 0 } rolls
        reorder).map (fun res => res.1.map (fun p => p.data)) ∧
    (0 < payload.length → payload.length < 2 ^ 32 → 1 ≤ opts.fragment_payload →
      ∃ out rN r0,
        fragment_frame abi info fseq32 ts payload { opts with reorder_window := N } rolls reorder
          = some (out, rN) ∧
        fragment_frame abi info fseq32 ts payload { opts with reorder_window := 0 } rolls reorder
          = some (out, r0)) := by
  have key : (fragment_frame abi info fseq32 ts payload { opts with reorder_window := N } rolls
        reorder).map Prod.fst
      = (fragment_frame abi info fseq32 ts payload { opts with reorder_window := 0 } rolls
        reorder).map Prod.fst := by
    unfold fragment_frame
    by_cases hp : payload.length = 0
    · rw [if_pos hp, if_pos hp]
    · rw [if_neg hp, if_neg hp]
      have h := fd_loop_window_order abi info fseq32 payload opts rolls N hN hdup payload.length
        0 0 reorder.pending reorder.pending
      revert h
      simp only [hN, lt_irrefl, if_true, if_false, gt_iff_lt]
      cases fd_loop abi info fseq32 payload { opts with reorder_window := N } rolls
          payload.length 0 0 reorder.pending <;>
        cases fd_loop abi info fseq32 payload { opts with reorder_window := 0 } rolls
          payload.length 0 0 reorder.pending <;> intro h
      · rfl
      · simp at h
      · simp at h
      · simp only [Option.map_some', Option.some.injEq, hempty, List.map_nil,
          List.nil_append] at h
        simp only [Option.map_some', Option.some.injEq, List.cons_append]
        rw [h]
        rfl
  refine ⟨key, ?_, ?_⟩
  · have := congrArg (Option.map (fun l : List FramePacket => l.map (fun p => p.data))) key
    simpa [Option.map_map] using this
  · intro hpos hL hc
    obtain ⟨out, hout⟩ : ∃ out, fragment_frame abi info fseq32 ts payload
        { opts with reorder_window := 0 } rolls reorder = some (out, reorder) :=
      ⟨_, fragment_frame_window0 abi info fseq32 ts payload { opts with reorder_window := 0 }
        rolls reorder hpos hL hc rfl⟩
    rw [hout] at key
    cases hNres : fragment_frame abi info fseq32 ts payload { opts with reorder_window := N } rolls
        reorder with
    | none => rw [hNres] at key; simp at key
    | some res =>
      rw [hNres] at key
      simp only [Option.map_some', Option.some.injEq] at key
      exact ⟨out, res.2, reorder, by rw [← key], hout⟩

/-- Witness of C34: the 64-byte frame in six fragments with rolls 10, 60, 90,
10, 60, 90 and `loss_percent = 50`, with a window of 3 and with no window. -/
theorem reorder_window_preserves_order_witness :
    (fragment_frame ex_abi ex_info 2 77 ex_payload
        { ex_opts with loss_percent := 50, reorder_window := 3 } ex_rolls_mix ex_reorder).map
      (fun res => res.1.map (fun p => p.data))
    = (fragment_frame ex_abi ex_info 2 77 ex_payload
        { ex_opts with loss_percent := 50, reorder_window := 0 } ex_rolls_mix ex_reorder).map
      (fun res => res.1.map (fun p => p.data)) :=
  (reorder_window_preserves_order ex_abi ex_info 2 77 ex_payload
    { ex_opts with loss_percent := 50 } ex_rolls_mix ex_reorder 3 (by decide) rfl rfl).2.1

/-- C35 (reorder state after a call).  For a non-empty payload below `2^32`
bytes and `fragment_payload ≥ 1`: when `reorder_window > 0`, `fragment_frame`
returns with an empty pending queue, and the buffers pending on entry
followed by the fragments that are not lost appear in this order among the
packets after the FH (they are exactly those packets when
`duplicate_percent = 0`); when `reorder_window = 0`, the reorder state is
returned as it was on entry. -/
theorem reorder_state_after_call (abi : Abi) (info : FrameInfo) (fseq32 ts : Nat)
    (payload : List Byte) (opts : SenderOptions) (rolls : Nat → ℚ) (reorder : ReorderBuffer)
    (hpos : 0 < payload.length) (hL : payload.length < 2 ^ 32)
    (hc : 1 ≤ opts.fragment_payload) :
    (0 < opts.reorder_window →
      ∃ rest,
        fragment_frame abi info fseq32 ts payload opts rolls reorder
          = some ({ data := fh_bytes abi info fseq32 ts payload.length opts, is_fh := true } ::
              rest, { reorder with pending := [] }) ∧
        (reorder.pending ++
          ((List.range (nchunks payload.length opts.fragment_payload)).filter
            (fun i => decide (¬ rolls i < opts.loss_percent))).map
            (fd_packet abi info fseq32 payload opts)).Sublist (rest.map (fun p => p.data)) ∧
        (opts.duplicate_percent = 0 →
          rest.map (fun p => p.data) = reorder.pending ++
            ((List.range (nchunks payload.length opts.fragment_payload)).filter
              (fun i => decide (¬ rolls i < opts.loss_percent))).map
              (fd_packet abi info fseq32 payload opts))) ∧
    (opts.reorder_window = 0 →
      ∃ out, fragment_frame abi info fseq32 ts payload opts rolls reorder
        = some (out, reorder)) := by
  refine ⟨?_, ?_⟩
  · intro hwin
    obtain ⟨ps, q, hrun, _, hsub, heq⟩ := fd_loop_window_pos abi info fseq32 payload opts rolls
      hc hL hwin payload.length 0 reorder.pending
      (by have := nchunks_le payload.length opts.fragment_payload hc; omega) (by omega)
    simp only [Nat.zero_mul, Nat.zero_min, Nat.sub_zero, ← List.range_eq_range'] at hrun hsub heq
    refine ⟨ps ++ q.map (fun d => { data := d, is_fh := false }), ?_, ?_, ?_⟩
    · unfold fragment_frame
      rw [if_neg (by omega), hrun]
      simp only [gt_iff_lt, hwin, if_true, List.cons_append]
    · have e : (ps ++ q.map (fun d => ({ data := d, is_fh := false } : FramePacket))).map
          (fun p => p.data) = ps.map (fun p => p.data) ++ q := by
        simp [List.map_append, List.map_map, Function.comp_def]
      rw [e]; exact hsub
    · intro hd
      have e : (ps ++ q.map (fun d => ({ data := d, is_fh := false } : FramePacket))).map
          (fun p => p.data) = ps.map (fun p => p.data) ++ q := by
        simp [List.map_append, List.map_map, Function.comp_def]
      rw [e]; exact heq hd
  · intro hwin
    exact ⟨_, fragment_frame_window0 abi info fseq32 ts payload opts rolls reorder hpos hL hc hwin⟩

/-- Witness of C35: a window of 2 with one buffer left pending by an earlier
call: the buffer leaves first, then the six fragments, and the queue is empty
afterwards. -/
theorem reorder_state_after_call_witness :
    ∃ rest,
      fragment_frame ex_abi ex_info 2 77 ex_payload { ex_opts with reorder_window := 2 }
          ex_rolls { pending := [[1, 2, 3]], window := 0 }
        = some ({ data := fh_bytes ex_abi ex_info 2 77 64 ex_opts, is_fh := true } :: rest,
            { pending := [], window := 0 }) ∧
      rest.map (fun p => p.data)
        = [1, 2, 3] :: (List.range 6).map (fd_packet ex_abi ex_info 2 ex_payload ex_opts) := by
  obtain ⟨rest, h1, _, h3⟩ := (reorder_state_after_call ex_abi ex_info 2 77 ex_payload
    { ex_opts with reorder_window := 2 } ex_rolls { pending := [[1, 2, 3]], window := 0 }
    (by decide) (by decide) (by decide)).1 (by decide)
  refine ⟨rest, h1, ?_⟩
  rw [h3 rfl]
  have hn : nchunks ex_payload.length
      ({ ex_opts with reorder_window := 2 } : SenderOptions).fragment_payload = 6 := by decide
  rw [hn]
  have hf : (List.range 6).filter (fun i => decide (¬ ex_rolls i
      < ({ ex_opts with reorder_window := 2 } : SenderOptions).loss_percent)) = List.range 6 := by
    rw [List.filter_eq_self]
    intro i _
    simp [ex_rolls, ex_opts]
  rw [hf]
  rfl

/-- C36 (empty payload).  With `payload_size = 0`, `fragment_frame` returns
an empty packet list, without FH, and the reorder state as it was, for every
setting of the options. -/
theorem fragment_frame_empty (abi : Abi) (info : FrameInfo) (fseq32 ts : Nat)
    (opts : SenderOptions) (rolls : Nat → ℚ) (reorder : ReorderBuffer) :
    fragment_frame abi info fseq32 ts [] opts rolls reorder = some ([], reorder) := rfl




theorem fd_loop_offsets_run (opts : SenderOptions) (len : Nat)
    (hc : 1 ≤ opts.fragment_payload) (hL : len < 2 ^ 32) :
    ∀ (fuel k : Nat),
      nchunks len opts.fragment_payload - k ≤ fuel → k ≤ nchunks len opts.fragment_payload →
      fd_loop_offsets opts len fuel (min (k * opts.fragment_payload) len)
        = some ((List.range' k (nchunks len opts.fragment_payload - k)).map
            (fun i => i * opts.fragment_payload)) := by
  intro fuel
  induction fuel with
  | zero =>
    intro k hf hk
    have hkn : ¬ k < nchunks len opts.fragment_payload := by omega
    rw [lt_nchunks _ _ _ hc] at hkn
    have h0 : nchunks len opts.fragment_payload - k = 0 := by omega
    simp only [fd_loop_offsets, h0, List.range'_zero, List.map_nil]
    rw [if_neg (by omega)]
  | succ fuel ih =>
    intro k hf hk
    by_cases hkn : k < nchunks len opts.fragment_payload
    · have hlt := (lt_nchunks _ _ _ hc).1 hkn
      have hmin : min (k * opts.fragment_payload) len = k * opts.fragment_payload := by omega
      have hnext : wrap32 (k * opts.fragment_payload
            + min opts.fragment_payload (wrap32 (len - k * opts.fragment_payload)))
          = min ((k + 1) * opts.fragment_payload) len := by
        unfold wrap32; rw [Nat.add_mul]; omega
      have hsplit : nchunks len opts.fragment_payload - k
          = (nchunks len opts.fragment_payload - (k + 1)) + 1 := by omega
      rw [hmin]
      simp only [fd_loop_offsets]
      rw [if_pos hlt, hnext, ih (k + 1) (by omega) (by omega), hsplit, List.range'_succ]
      rfl
    · rw [lt_nchunks _ _ _ hc] at hkn
      have h0 : nchunks len opts.fragment_payload - k = 0 := by
        have := (lt_nchunks len opts.fragment_payload k hc)
        omega
      simp only [fd_loop_offsets, h0, List.range'_zero, List.map_nil]
      rw [if_neg (by omega)]

theorem fd_loop_offsets_short (opts : SenderOptions) (len : Nat)
    (hc : 1 ≤ opts.fragment_payload) (hL : len < 2 ^ 32) :
    ∀ (fuel k : Nat), fuel < nchunks len opts.fragment_payload - k →
      fd_loop_offsets opts len fuel (min (k * opts.fragment_payload) len) = none := by
  intro fuel
  induction fuel with
  | zero =>
    intro k hf
    have hlt := (lt_nchunks _ _ _ hc).1 (show k < nchunks len opts.fragment_payload by omega)
    simp only [fd_loop_offsets]
    rw [if_pos (by omega)]
  | succ fuel ih =>
    intro k hf
    have hlt := (lt_nchunks _ _ _ hc).1 (show k < nchunks len opts.fragment_payload by omega)
    have hmin : min (k * opts.fragment_payload) len = k * opts.fragment_payload := by omega
    have hnext : wrap32 (k * opts.fragment_payload
          + min opts.fragment_payload (wrap32 (len - k * opts.fragment_payload)))
        = min ((k + 1) * opts.fragment_payload) len := by
      unfold wrap32; rw [Nat.add_mul]; omega
    rw [hmin]
    simp only [fd_loop_offsets]
    rw [if_pos hlt, hnext, ih (k + 1) (by omega)]
    rfl

/-- The loop of `fragment_frame` returns exactly when its offsets do: the
rolls and the reorder queue have no influence on termination. -/
theorem fd_loop_isSome (abi : Abi) (info : FrameInfo) (fseq32 : Nat) (payload : List Byte)
    (opts : SenderOptions) (rolls : Nat → ℚ) :
    ∀ (fuel offset i : Nat) (pending : List (List Byte)),
      (fd_loop abi info fseq32 payload opts rolls fuel offset i pending).isSome
        = (fd_loop_offsets opts payload.length fuel offset).isSome := by
  intro fuel
  induction fuel with
  | zero =>
    intro offset i pending
    simp only [fd_loop, fd_loop_offsets]
    by_cases h : offset < payload.length <;> simp [h]
  | succ fuel ih =>
    intro offset i pending
    rw [fd_loop_succ]
    simp only [fd_loop_offsets]
    by_cases h1 : offset < payload.length
    · rw [if_pos h1, if_pos h1, Option.isSome_map']
      by_cases h2 : rolls i < opts.loss_percent
      · rw [if_pos h2]; exact ih _ _ _
      · rw [if_neg h2]
        by_cases hw : opts.reorder_window > 0
        · rw [if_pos hw]
          by_cases hq : (pending ++ [fd_bytes abi info fseq32 payload opts offset
              (min opts.fragment_payload (wrap32 (payload.length - offset)))]).length
              > opts.reorder_window
          · rw [if_pos hq, Option.isSome_map']; exact ih _ _ _
          · rw [if_neg hq, Option.isSome_map']; exact ih _ _ _
        · rw [if_neg hw, Option.isSome_map']; exact ih _ _ _
    · rw [if_neg h1, if_neg h1]
      rfl

theorem fd_loop_offsets_stuck (opts : SenderOptions) (len : Nat)
    (h0 : opts.fragment_payload = 0) (hpos : 0 < len) :
    ∀ fuel : Nat, fd_loop_offsets opts len fuel 0 = none := by
  intro fuel
  induction fuel with
  | zero =>
    simp only [fd_loop_offsets]
    rw [if_pos hpos]
  | succ fuel ih =>
    simp only [fd_loop_offsets]
    rw [if_pos hpos, h0]
    have e : wrap32 (0 + min 0 (wrap32 (len - 0))) = 0 := by
      simp [wrap32]
    rw [e, ih]
    rfl

/-- C37 (fragmenter termination).  For a non-empty payload below `2^32`
bytes: with `fragment_payload = c ≥ 1` the loop of `fragment_frame` runs
exactly `n = ceil(payload_size / c)` iterations (it returns with any fuel of
at least `n` and with none below), the iterations start at the offsets
`0, c, 2c, ..., (n-1)c`, each step moves the offset from `i*c` to the larger
`min((i+1)*c, payload_size)`, which never exceeds `payload_size` and is
`payload_size` after the last step, and `fragment_frame` returns for every
setting of the other options; with `fragment_payload = 0` the offset stays 0
and neither the loop nor `fragment_frame` returns. -/
theorem fragment_frame_terminates (abi : Abi) (info : FrameInfo) (fseq32 ts : Nat)
    (payload : List Byte) (opts : SenderOptions) (rolls : Nat → ℚ) (reorder : ReorderBuffer)
    (hpos : 0 < payload.length) (hL : payload.length < 2 ^ 32) :
    (1 ≤ opts.fragment_payload →
      nchunks payload.length opts.fragment_payload
        = (payload.length + opts.fragment_payload - 1) / opts.fragment_payload ∧
      (∀ fuel, nchunks payload.length opts.fragment_payload ≤ fuel →
        fd_loop_offsets opts payload.length fuel 0
          = some ((List.range (nchunks payload.length opts.fragment_payload)).map
              (fun i => i * opts.fragment_payload))) ∧
      (∀ fuel, fuel < nchunks payload.length opts.fragment_payload →
        fd_loop_offsets opts payload.length fuel 0 = none) ∧
      (∀ i, i < nchunks payload.length opts.fragment_payload →
        i * opts.fragment_payload < min ((i + 1) * opts.fragment_payload) payload.length ∧
        min ((i + 1) * opts.fragment_payload) payload.length ≤ payload.length) ∧
      min (nchunks payload.length opts.fragment_payload * opts.fragment_payload) payload.length
        = payload.length ∧
      (∀ fuel i pending, nchunks payload.length opts.fragment_payload ≤ fuel →
        (fd_loop abi info fseq32 payload opts rolls fuel 0 i pending).isSome = true) ∧
      (∀ fuel i pending, fuel < nchunks payload.length opts.fragment_payload →
        fd_loop abi info fseq32 payload opts rolls fuel 0 i pending = none) ∧
      ∃ res, fragment_frame abi info fseq32 ts payload opts rolls reorder = some res) ∧
    (opts.fragment_payload = 0 →
      (∀ fuel, fd_loop_offsets opts payload.length fuel 0 = none) ∧
      (∀ fuel i pending, fd_loop abi info fseq32 payload opts rolls fuel 0 i pending = none) ∧
      fragment_frame abi info fseq32 ts payload opts rolls reorder = none) := by
  refine ⟨?_, ?_⟩
  · intro hc
    have hrun : ∀ fuel, nchunks payload.length opts.fragment_payload ≤ fuel →
        fd_loop_offsets opts payload.length fuel 0
          = some ((List.range (nchunks payload.length opts.fragment_payload)).map
              (fun i => i * opts.fragment_payload)) := by
      intro fuel hf
      have h := fd_loop_offsets_run opts payload.length hc hL fuel 0 (by omega) (by omega)
      simpa [List.range_eq_range'] using h
    have hshort : ∀ fuel, fuel < nchunks payload.length opts.fragment_payload →
        fd_loop_offsets opts payload.length fuel 0 = none := by
      intro fuel hf
      have h := fd_loop_offsets_short opts payload.length hc hL fuel 0 (by omega)
      simpa using h
    have hsome : ∀ fuel i pending, nchunks payload.length opts.fragment_payload ≤ fuel →
        (fd_loop abi info fseq32 payload opts rolls fuel 0 i pending).isSome = true := by
      intro fuel i pending hf
      rw [fd_loop_isSome, hrun fuel hf]
      rfl
    refine ⟨rfl, hrun, hshort, ?_, ?_, hsome, ?_, ?_⟩
    · intro i hi
      have := (lt_nchunks _ _ _ hc).1 hi
      rw [Nat.add_mul]
      omega
    · have := (lt_nchunks payload.length opts.fragment_payload
        (nchunks payload.length opts.fragment_payload) hc)
      omega
    · intro fuel i pending hf
      have h := fd_loop_isSome abi info fseq32 payload opts rolls fuel 0 i pending
      rw [hshort fuel hf] at h
      cases hres : fd_loop abi info fseq32 payload opts rolls fuel 0 i pending with
      | none => rfl
      | some v => rw [hres] at h; simp at h
    · have h := hsome payload.length 0 reorder.pending
        (nchunks_le payload.length opts.fragment_payload hc)
      obtain ⟨⟨ps, q⟩, hv⟩ := Option.isSome_iff_exists.mp h
      unfold fragment_frame
      rw [if_neg (by omega), hv]
      simp only
      split_ifs
      · exact ⟨_, rfl⟩
      · exact ⟨_, rfl⟩
  · intro h0
    have hstuck := fd_loop_offsets_stuck opts payload.length h0 hpos
    have hnone : ∀ fuel i pending,
        fd_loop abi info fseq32 payload opts rolls fuel 0 i pending = none := by
      intro fuel i pending
      have h := fd_loop_isSome abi info fseq32 payload opts rolls fuel 0 i pending
      rw [hstuck fuel] at h
      cases hres : fd_loop abi info fseq32 payload opts rolls fuel 0 i pending with
      | none => rfl
      | some v => rw [hres] at h; simp at h
    refine ⟨hstuck, hnone, ?_⟩
    unfold fragment_frame
    rw [if_neg (by omega), hnone]

/-- Witness of C37: 64 bytes in fragments of 12: six iterations, starting at
offsets 0, 12, 24, 36, 48 and 60. -/
theorem fragment_frame_terminates_witness :
    nchunks ex_payload.length ex_opts.fragment_payload = 6 ∧
    fd_loop_offsets ex_opts ex_payload.length 6 0 = some [0, 12, 24, 36, 48, 60] ∧
    fd_loop_offsets ex_opts ex_payload.length 5 0 = none := by
  obtain ⟨_, h2, h3, _⟩ := (fragment_frame_terminates ex_abi ex_info 2 77 ex_payload ex_opts
    ex_rolls ex_reorder (by decide) (by decide)).1 (by decide)
  exact ⟨by decide, by rw [h2 6 (by decide)]; decide, h3 5 (by decide)⟩

/-! ### Payload packing (C32) -/

theorem host16_length (abi : Abi) (x : Nat) : (host16 abi x).length = 2 := by
  unfold host16
  split_ifs <;> rfl

theorem pack_loop_two (abi : Abi) (pixels : List Nat) :
    ∀ (m i : Nat) (done : List Byte), done.length = i * 2 → i + m = pixels.length →
      pack_loop abi pixels 2 m i (done ++ List.replicate (m * 2) 0)
        = some (done ++ ((pixels.drop i).map (host16 abi)).flatten) := by
  intro m
  induction m with
  | zero =>
    intro i done _ hi
    have : pixels.drop i = [] := List.drop_eq_nil_of_le (by omega)
    simp [pack_loop, this]
  | succ m ih =>
    intro i done hd hi
    have hil : i < pixels.length := by omega
    have hdrop : pixels.drop i = pixels.getD i 0 :: pixels.drop (i + 1) := by
      rw [List.getD_eq_getElem _ _ hil]
      exact List.drop_eq_getElem_cons hil
    have hstep : pack_step abi pixels 2 (done ++ List.replicate ((m + 1) * 2) 0) i
        = some ((done ++ host16 abi (pixels.getD i 0)) ++ List.replicate (m * 2) 0) := by
      unfold pack_step
      rw [if_neg (by decide), if_pos ⟨le_refl _, by
        simp only [List.length_append, List.length_replicate]; omega⟩]
      have hl := host16_length abi (pixels.getD i 0)
      have ht : (host16 abi (pixels.getD i 0)).take 2 = host16 abi (pixels.getD i 0) :=
        List.take_of_length_le (by omega)
      rw [ht]
      unfold memcpy_at
      rw [hl, ← hd, List.take_left', List.drop_append_eq_append_drop]
      · have e1 : done.length + 2 - done.length = 2 := by omega
        have e2 : List.drop (done.length + 2) done = [] := List.drop_eq_nil_of_le (by omega)
        rw [e1, e2, List.nil_append, List.drop_replicate]
        have e3 : (m + 1) * 2 - 2 = m * 2 := by omega
        rw [e3]
      · rfl
    simp only [pack_loop]
    rw [hstep]
    simp only
    rw [ih (i + 1) (done ++ host16 abi (pixels.getD i 0))
      (by rw [List.length_append, host16_length, hd]; omega) (by omega), hdrop]
    simp

theorem pack_loop_one (abi : Abi) (pixels : List Nat) :
    ∀ (m i : Nat) (done : List Byte), done.length = i → i + m = pixels.length →
      pack_loop abi pixels 1 m i (done ++ List.replicate m 0)
        = some (done ++ (pixels.drop i).map (fun p => toByte (p &&& 0xFF))) := by
  intro m
  induction m with
  | zero =>
    intro i done _ hi
    have : pixels.drop i = [] := List.drop_eq_nil_of_le (by omega)
    simp [pack_loop, this]
  | succ m ih =>
    intro i done hd hi
    have hil : i < pixels.length := by omega
    have hdrop : pixels.drop i = pixels.getD i 0 :: pixels.drop (i + 1) := by
      rw [List.getD_eq_getElem _ _ hil]
      exact List.drop_eq_getElem_cons hil
    have hstep : pack_step abi pixels 1 (done ++ List.replicate (m + 1) 0) i
        = some ((done ++ [toByte (pixels.getD i 0 &&& 0xFF)]) ++ List.replicate m 0) := by
      unfold pack_step
      rw [if_pos rfl, if_pos (by simp only [List.length_append, List.length_replicate]; omega)]
      rw [← hd, List.set_append_right _ _ (le_refl _)]
      simp [List.replicate_succ]
    simp only [pack_loop]
    rw [hstep]
    simp only
    rw [ih (i + 1) (done ++ [toByte (pixels.getD i 0 &&& 0xFF)])
      (by rw [List.length_append, hd]; rfl) (by omega), hdrop]
    simp

theorem flatten_pairs (f : Nat → List Byte) (hf : ∀ x, (f x).length = 2) :
    ∀ (l : List Nat) (i : Nat), i < l.length →
      rd8 ((l.map f).flatten) (2 * i) = rd8 (f (l.getD i 0)) 0 ∧
      rd8 ((l.map f).flatten) (2 * i + 1) = rd8 (f (l.getD i 0)) 1 := by
  intro l
  induction l with
  | nil => intro i hi; simp at hi
  | cons a l ih =>
    intro i hi
    have ha := hf a
    obtain ⟨b0, b1, hab⟩ : ∃ b0 b1, f a = [b0, b1] := by
      match hfa : f a, ha with
      | [b0, b1], _ => exact ⟨b0, b1, rfl⟩
    cases i with
    | zero => simp [rd8, hab]
    | succ j =>
      have hj : j < l.length := by simpa using hi
      have := ih j hj
      have e1 : 2 * (j + 1) = 2 * j + 2 := by ring
      have e2 : 2 * j + 2 + 1 = 2 * j + 1 + 2 := by ring
      rw [e1, e2]
      simp only [List.map_cons, List.flatten_cons, hab, List.getD_cons_succ]
      simpa [rd8] using this

theorem map_low_byte (l : List Nat) :
    ∀ i, i < l.length →
      rd8 (l.map (fun p => toByte (p &&& 0xFF))) i = l.getD i 0 % 2 ^ 8 := by
  intro i hi
  unfold rd8
  rw [List.getD_eq_getElem _ _ (by simpa using hi), List.getD_eq_getElem _ _ hi,
    List.getElem_map, toByte_val, and_low8]
  norm_num

theorem length_flatten_pairs (f : Nat → List Byte) (hf : ∀ x, (f x).length = 2) :
    ∀ l : List Nat, ((l.map f).flatten).length = l.length * 2 := by
  intro l
  induction l with
  | nil => rfl
  | cons a l ih =>
    simp only [List.map_cons, List.flatten_cons, List.length_append, hf, ih, List.length_cons]
    omega

/-- C32, as the code behaves (payload packing in host byte order).  For every
pixel vector and every `bits` in {8, 10, 12, 14, 16}, `pack_payload` returns
`pixels.size() * ceil(bits/8)` bytes; for `bits = 8` byte `i` is the low 8
bits of pixel `i`; for the 2-byte depths bytes `2i` and `2i+1` are the two
bytes of pixel `i` as they lie in host memory: low then high on a
little-endian host, high then low on a big-endian host. -/
theorem pack_payload_spec (abi : Abi) (pixels : List Nat) (bits : Nat)
    (hbits : bits ∈ [8, 10, 12, 14, 16]) :
    ∃ out, pack_payload abi pixels bits = some out ∧
      out.length = pixels.length * ((bits + 7) / 8) ∧
      (bits = 8 → ∀ i, i < pixels.length → rd8 out i = pixels.getD i 0 % 2 ^ 8) ∧
      (bits ≠ 8 → ∀ i, i < pixels.length →
        rd8 out (2 * i)
          = (if abi.little_endian then pixels.getD i 0 % 2 ^ 8
             else pixels.getD i 0 / 2 ^ 8 % 2 ^ 8) ∧
        rd8 out (2 * i + 1)
          = (if abi.little_endian then pixels.getD i 0 / 2 ^ 8 % 2 ^ 8
             else pixels.getD i 0 % 2 ^ 8)) := by
  by_cases h8 : bits = 8
  · subst h8
    have h := pack_loop_one abi pixels pixels.length 0 [] rfl (by omega)
    simp only [List.nil_append, List.drop_zero] at h
    refine ⟨pixels.map (fun p => toByte (p &&& 0xFF)), ?_, ?_, ?_, ?_⟩
    · unfold pack_payload
      simp only [show (8 + 7) / 8 = 1 from rfl]
      rw [if_neg (by decide), Nat.mul_one]
      exact h
    · simp
    · intro _ i hi
      exact map_low_byte pixels i hi
    · intro hne
      exact absurd rfl hne
  · have hb : (bits + 7) / 8 = 2 := by
      simp only [List.mem_cons, List.mem_singleton, List.not_mem_nil, or_false] at hbits
      rcases hbits with h | h | h | h | h <;> subst h <;> first | exact absurd rfl h8 | rfl
    have h := pack_loop_two abi pixels pixels.length 0 [] rfl (by omega)
    simp only [List.nil_append, List.drop_zero] at h
    refine ⟨(pixels.map (host16 abi)).flatten, ?_, ?_, ?_, ?_⟩
    · unfold pack_payload
      simp only [hb]
      rw [if_neg (by decide)]
      exact h
    · rw [hb]
      exact length_flatten_pairs _ (host16_length abi) pixels
    · intro he
      exact absurd he h8
    · intro _ i hi
      obtain ⟨h0, h1⟩ := flatten_pairs _ (host16_length abi) pixels i hi
      rw [h0, h1]
      cases hle : abi.little_endian <;>
        simp [host16, hle, rd8, toByte_val]

/-- Witness of C32 as amended: two 10-bit pixels 0x0123 and 0x0456 on the
little-endian example host give the bytes 23 01 56 04. -/
theorem pack_payload_spec_witness :
    pack_payload ex_abi [0x0123, 0x0456] 10 = some [0x23, 0x01, 0x56, 0x04] ∧
    ∃ out, pack_payload ex_abi [0x0123, 0x0456] 10 = some out ∧ out.length = 4 := by
  obtain ⟨out, h1, h2, _⟩ := pack_payload_spec ex_abi [0x0123, 0x0456] 10 (by decide)
  exact ⟨by decide, out, h1, h2⟩

/-- Counterexample to C32 as stated, on a big-endian host: the 10-bit pixels
0x0123 and 0x0456 are packed as 01 23 04 56, so byte 0 is the high byte of
pixel 0 and byte 1 its low byte. -/
theorem pack_payload_big_endian_counterexample :
    ex_abi_be.little_endian = false ∧
    pack_payload ex_abi_be [0x0123, 0x0456] 10 = some [0x01, 0x23, 0x04, 0x56] ∧
    (pack_payload ex_abi_be [0x0123, 0x0456] 10).map (fun out => rd8 out 0) = some 0x01 ∧
    0x0123 % 2 ^ 8 = 0x23 := by
  decide

/-! ### The frame generator (C40) -/

theorem for_loop_inv {σ : Type} (Inv : σ → Prop) (body : Nat → σ → Option σ) :
    ∀ (n i : Nat) (s : σ), Inv s →
      (∀ j s, i ≤ j → j < i + n → Inv s → ∃ s1, body j s = some s1 ∧ Inv s1) →
      ∃ s1, for_loop body n i s = some s1 ∧ Inv s1 := by
  intro n
  induction n with
  | zero => intro i s hs _; exact ⟨s, rfl, hs⟩
  | succ n ih =>
    intro i s hs hstep
    obtain ⟨s1, h1, hs1⟩ := hstep i s (le_refl _) (by omega) hs
    obtain ⟨s2, h2, hs2⟩ := ih (i + 1) s1 hs1
      (fun j t hij hjn ht => hstep j t (by omega) (by omega) ht)
    refine ⟨s2, ?_, hs2⟩
    simp only [for_loop]
    rw [h1]
    exact h2

theorem store_ok (len mv : Nat) (buf : List Nat) (idx val : Nat) (hb : BufOk len mv buf)
    (hidx : idx < len) (hval : val ≤ mv) :
    ∃ b1, store buf idx val = some b1 ∧ BufOk len mv b1 := by
  obtain ⟨hl, hall⟩ := hb
  refine ⟨buf.set idx val, ?_, ?_, ?_⟩
  · unfold store
    rw [if_pos (by omega)]
  · rw [List.length_set]; exact hl
  · intro v hv
    rcases List.mem_or_eq_of_mem_set hv with h | h
    · exact hall v h
    · rw [h]; exact hval

theorem index_lt (w h x y : Nat) (hx : x < w) (hy : y < h) : y * w + x < w * h := by
  have h1 : y * w + x < (y + 1) * w := by rw [Nat.add_mul]; omega
  have h2 : (y + 1) * w ≤ h * w := Nat.mul_le_mul_right _ (by omega)
  rw [Nat.mul_comm w h]
  omega

theorem wrap16_le (x : Nat) : wrap16 x ≤ x := Nat.mod_le _ _

theorem sample_bits_mem (abi : Abi) (fmt : Nat) (hfmt : fmt ∈ abi.formats) :
    sample_bits abi fmt ∈ [8, 10, 12, 14, 16] := by
  rw [mem_formats] at hfmt
  unfold sample_bits
  split_ifs <;> first | decide | (exfalso; tauto)

theorem max_val_eq (abi : Abi) (info : FrameInfo) (hfmt : info.fmt ∈ abi.formats) :
    max_val abi info = 2 ^ sample_bits abi info.fmt - 1 ∧ 0 < max_val abi info := by
  have h := sample_bits_mem abi info.fmt hfmt
  unfold max_val
  simp only [List.mem_cons, List.mem_singleton, List.not_mem_nil, or_false] at h
  rcases h with h | h | h | h | h <;> rw [h] <;> decide




theorem colors_le (mv k : Nat) :
    ([mv, wrap16 (mv * 3 / 4), wrap16 (mv / 2), wrap16 (mv / 4), wrap16 (mv / 8), 0] :
      List Nat).getD (k % 6) 0 ≤ mv := by
  have hk : k % 6 < 6 := Nat.mod_lt _ (by norm_num)
  have h1 := wrap16_le (mv * 3 / 4)
  have h2 := wrap16_le (mv / 2)
  have h3 := wrap16_le (mv / 4)
  have h4 := wrap16_le (mv / 8)
  generalize k % 6 = j at hk
  interval_cases j <;> simp <;> omega

theorem fill_color_bars_ok (abi : Abi) (info : FrameInfo) (buf : List Nat)
    (hb : BufOk (info.width * info.height) (max_val abi info) buf) :
    ∃ b1, fill_color_bars abi info buf = some b1 ∧
      BufOk (info.width * info.height) (max_val abi info) b1 := by
  unfold fill_color_bars
  simp only []
  apply for_loop_inv (BufOk (info.width * info.height) (max_val abi info)) _ _ _ _ hb
  intro y b0 _ hy hb0
  apply for_loop_inv (BufOk (info.width * info.height) (max_val abi info)) _ _ _ _ hb0
  intro x b _ hx hbx
  have hw : info.width ≠ 0 := by omega
  have hidx := index_lt info.width info.height x y (by omega) (by omega)
  have hdiv : div? (x * 6) info.width = some (x * 6 / info.width) := by
    unfold div?; rw [if_neg hw]
  rw [hdiv]
  simp only []
  have hval := colors_le (max_val abi info) (x * 6 / info.width)
  have hhalf : wrap16 (([max_val abi info, wrap16 (max_val abi info * 3 / 4),
      wrap16 (max_val abi info / 2), wrap16 (max_val abi info / 4),
      wrap16 (max_val abi info / 8), 0] : List Nat).getD (x * 6 / info.width % 6) 0 / 2)
      ≤ max_val abi info := by
    have := wrap16_le (([max_val abi info, wrap16 (max_val abi info * 3 / 4),
      wrap16 (max_val abi info / 2), wrap16 (max_val abi info / 4),
      wrap16 (max_val abi info / 8), 0] : List Nat).getD (x * 6 / info.width % 6) 0 / 2)
    omega
  have h34 : wrap16 (([max_val abi info, wrap16 (max_val abi info * 3 / 4),
      wrap16 (max_val abi info / 2), wrap16 (max_val abi info / 4),
      wrap16 (max_val abi info / 8), 0] : List Nat).getD (x * 6 / info.width % 6) 0 * 3 / 4)
      ≤ max_val abi info := by
    have := wrap16_le (([max_val abi info, wrap16 (max_val abi info * 3 / 4),
      wrap16 (max_val abi info / 2), wrap16 (max_val abi info / 4),
      wrap16 (max_val abi info / 8), 0] : List Nat).getD (x * 6 / info.width % 6) 0 * 3 / 4)
    omega
  split_ifs
  all_goals first
    | exact store_ok _ _ _ _ _ hbx hidx hval
    | exact store_ok _ _ _ _ _ hbx hidx hhalf
    | exact store_ok _ _ _ _ _ hbx hidx h34

theorem fill_ramp_ok (abi : Abi) (info : FrameInfo) (buf : List Nat) (frame_index : Nat)
    (hmv : 0 < max_val abi info)
    (hb : BufOk (info.width * info.height) (max_val abi info) buf) :
    ∃ b1, fill_ramp abi info buf frame_index = some b1 ∧
      BufOk (info.width * info.height) (max_val abi info) b1 := by
  unfold fill_ramp
  simp only []
  apply for_loop_inv (BufOk (info.width * info.height) (max_val abi info)) _ _ _ _ hb
  intro y b0 _ hy hb0
  apply for_loop_inv (BufOk (info.width * info.height) (max_val abi info)) _ _ _ _ hb0
  intro x b _ hx hbx
  have hidx := index_lt info.width info.height x y (by omega) (by omega)
  have hmod : mod? (wrap32 (wrap32 (x + y) + frame_index)) (max_val abi info)
      = some (wrap32 (wrap32 (x + y) + frame_index) % max_val abi info) := by
    unfold mod?; rw [if_neg (by omega)]
  rw [hmod]
  simp only []
  apply store_ok _ _ _ _ _ hbx hidx
  have h1 := wrap16_le (wrap32 (wrap32 (x + y) + frame_index) % max_val abi info)
  have h2 := Nat.mod_lt (wrap32 (wrap32 (x + y) + frame_index)) hmv
  omega

theorem fill_checker_ok (abi : Abi) (info : FrameInfo) (buf : List Nat) (frame_index : Nat)
    (hb : BufOk (info.width * info.height) (max_val abi info) buf) :
    ∃ b1, fill_checker abi info buf frame_index = some b1 ∧
      BufOk (info.width * info.height) (max_val abi info) b1 := by
  unfold fill_checker
  simp only []
  apply for_loop_inv (BufOk (info.width * info.height) (max_val abi info)) _ _ _ _ hb
  intro y b0 _ hy hb0
  apply for_loop_inv (BufOk (info.width * info.height) (max_val abi info)) _ _ _ _ hb0
  intro x b _ hx hbx
  have hidx := index_lt info.width info.height x y (by omega) (by omega)
  apply store_ok _ _ _ _ _ hbx hidx
  have h1 := wrap16_le (max_val abi info / 16)
  split_ifs <;> omega

theorem fill_slanted_ok (abi : Abi) (info : FrameInfo) (buf : List Nat) (frame_index : Nat)
    (hb : BufOk (info.width * info.height) (max_val abi info) buf) :
    ∃ b1, fill_slanted abi info buf frame_index = some b1 ∧
      BufOk (info.width * info.height) (max_val abi info) b1 := by
  unfold fill_slanted
  simp only []
  apply for_loop_inv (BufOk (info.width * info.height) (max_val abi info)) _ _ _ _ hb
  intro y b0 _ hy hb0
  apply for_loop_inv (BufOk (info.width * info.height) (max_val abi info)) _ _ _ _ hb0
  intro x b _ hx hbx
  have hw : info.width ≠ 0 := by omega
  have hwpos : 0 < info.width := by omega
  have hidx := index_lt info.width info.height x y (by omega) (by omega)
  simp only [mod?, div?, if_neg hw, if_true, hw, ne_eq, not_false_eq_true]
  apply store_ok _ _ _ _ _ hbx hidx
  have hdiag := Nat.mod_lt (wrap32 (wrap32 (x + frame_index) % info.width + y / 2)) hwpos
  generalize wrap32 (wrap32 (x + frame_index) % info.width + y / 2) % info.width = diag at hdiag
  have h1 := wrap16_le (wrap32 (diag * max_val abi info) / info.width)
  have h2 : wrap32 (diag * max_val abi info) ≤ diag * max_val abi info := Nat.mod_le _ _
  have h3 : diag * max_val abi info ≤ info.width * max_val abi info :=
    Nat.mul_le_mul_right _ (by omega)
  have h4 : wrap32 (diag * max_val abi info) / info.width ≤ max_val abi info := by
    apply Nat.div_le_of_le_mul
    omega
  omega




theorem fill_box_ok (abi : Abi) (info : FrameInfo) (opts : GeneratorOptions) (buf : List Nat)
    (frame_index : Nat) (hlen : buf.length = info.width * info.height) :
    ∃ b1, fill_box abi info opts buf frame_index = some b1 ∧
      BufOk (info.width * info.height) (max_val abi info) b1 := by
  have hb1 : BufOk (info.width * info.height) (max_val abi info)
      (buf.map (fun _ => wrap16 (max_val abi info / 8))) := by
    refine ⟨by rw [List.length_map]; exact hlen, ?_⟩
    intro v hv
    obtain ⟨_, _, rfl⟩ := List.mem_map.mp hv
    have := wrap16_le (max_val abi info / 8)
    omega
  unfold fill_box
  simp only []
  by_cases h0 : info.width = 0 ∨ info.height = 0
  · rw [if_pos h0]
    exact ⟨_, rfl, hb1⟩
  · rw [if_neg h0]
    have hw : info.width ≠ 0 := fun h => h0 (Or.inl h)
    have hh : info.height ≠ 0 := fun h => h0 (Or.inr h)
    have hwpos : 0 < info.width := by omega
    have hhpos : 0 < info.height := by omega
    simp only [mod?, if_neg hw, if_neg hh]
    apply for_loop_inv (BufOk (info.width * info.height) (max_val abi info)) _ _ _ _ hb1
    intro dy b0 _ _ hb0
    apply for_loop_inv (BufOk (info.width * info.height) (max_val abi info)) _ _ _ _ hb0
    intro dx b _ _ hbx
    apply store_ok _ _ _ _ _ hbx _ (le_refl _)
    apply index_lt
    · exact lt_of_le_of_lt (wrap16_le _) (Nat.mod_lt _ hwpos)
    · exact lt_of_le_of_lt (wrap16_le _) (Nat.mod_lt _ hhpos)

/-- C40 (generated samples fit the bit depth).  For every `FrameInfo` whose
format is one of the five sample formats, every generator pattern, Bayer
pattern, box size, counter setting and `frame_index`, `next_frame` returns a
buffer (no division or modulo by zero and no index out of range is
evaluated) of exactly `width * height` samples, each at most
`2^sample_bits(fmt) - 1`. -/
theorem next_frame_fits (abi : Abi) (info : FrameInfo) (opts : GeneratorOptions)
    (frame_index : Nat) (hfmt : info.fmt ∈ abi.formats) :
    ∃ buf, next_frame abi info opts frame_index = some buf ∧
      buf.length = info.width * info.height ∧
      ∀ v ∈ buf, v ≤ 2 ^ sample_bits abi info.fmt - 1 := by
  obtain ⟨hmv, hpos⟩ := max_val_eq abi info hfmt
  have hb0 : BufOk (info.width * info.height) (max_val abi info)
      (List.replicate (info.width * info.height) 0) := by
    refine ⟨List.length_replicate _ _, ?_⟩
    intro v hv
    rw [(List.mem_replicate.mp hv).2]
    exact Nat.zero_le _
  have hfill : ∃ b1,
      (match opts.pattern with
        | Pattern.COLOR_BARS =>
          fill_color_bars abi info (List.replicate (info.width * info.height) 0)
        | Pattern.RAMP =>
          fill_ramp abi info (List.replicate (info.width * info.height) 0) frame_index
        | Pattern.CHECKER =>
          fill_checker abi info (List.replicate (info.width * info.height) 0) frame_index
        | Pattern.MOVING_BOX =>
          fill_box abi info opts (List.replicate (info.width * info.height) 0) frame_index
        | Pattern.SLANTED_EDGE =>
          fill_slanted abi info (List.replicate (info.width * info.height) 0) frame_index)
        = some b1 ∧ BufOk (info.width * info.height) (max_val abi info) b1 := by
    cases opts.pattern
    · exact fill_color_bars_ok abi info _ hb0
    · exact fill_ramp_ok abi info _ frame_index hpos hb0
    · exact fill_checker_ok abi info _ frame_index hb0
    · exact fill_box_ok abi info opts _ frame_index hb0.1
    · exact fill_slanted_ok abi info _ frame_index hb0
  obtain ⟨b1, hb1eq, hb1⟩ := hfill
  have hfin : ∃ buf, next_frame abi info opts frame_index = some buf ∧
      BufOk (info.width * info.height) (max_val abi info) buf := by
    unfold next_frame
    simp only []
    rw [hb1eq]
    simp only []
    by_cases hemb : opts.embed_counter = true ∧ b1 ≠ []
    · rw [if_pos hemb]
      apply for_loop_inv (BufOk (info.width * info.height) (max_val abi info)) _ _ _ _ hb1
      intro i b _ hi hbi
      apply store_ok _ _ _ _ _ hbi
      · have := hb1.1
        omega
      · have h1 := wrap16_le (frame_index &&& max_val abi info)
        have h2 : frame_index &&& max_val abi info ≤ max_val abi info := Nat.and_le_right
        omega
    · rw [if_neg hemb]
      exact ⟨b1, rfl, hb1⟩
  obtain ⟨buf, h1, h2, h3⟩ := hfin
  exact ⟨buf, h1, h2, fun v hv => by rw [← hmv]; exact h3 v hv⟩

/-- Witness of C40: the moving box of size 3 in an 8×4 10-bit frame, with the
frame counter written over the first samples. -/
theorem next_frame_fits_witness :
    ∃ buf,
      next_frame ex_abi { ex_info with width := 8, height := 4, fmt := 0x10000000 }
        { pattern := Pattern.MOVING_BOX, seed := 0, box_size := 3, embed_counter := true } 1
        = some buf ∧
      buf.length = 32 ∧ ∀ v ∈ buf, v ≤ 1023 :=
  next_frame_fits ex_abi { ex_info with width := 8, height := 4, fmt := 0x10000000 }
    { pattern := Pattern.MOVING_BOX, seed := 0, box_size := 3, embed_counter := true } 1
    (by decide)

end rawabi
